import Mathlib

set_option maxRecDepth 100000

/-!
Verification development for the IQ-Fit MPI solver (`iqfit_mpi.cpp`).

The program tiles an 11×5 board with 12 polyomino pieces.  The definitions
below are a shallow embedding of the C++ source: the shape parser, the
orientation generator (dihedral group of order 8, deduplicated through a
`std::set` modelled as insertion into a sorted duplicate-free list), the
placement compiler, the recursive backtracking search (general recursion is
embedded with an explicit fuel parameter; the program's own recursion depth
is bounded by the number of pieces, so fuel `NUM_PIECES + 1` is never
exhausted on states whose used-piece count accounts for the board mask, which
is proved below), and the striped work partition plus the gather-based
aggregation protocol of `main`.
-/

def BOARD_WIDTH : Nat := 11

def BOARD_HEIGHT : Nat := 5

def NUM_CELLS : Nat := BOARD_WIDTH * BOARD_HEIGHT

def NUM_PIECES : Nat := 12

/-- The fixed table of raw piece definitions (each token is an "xy" digit pair). -/
def pieceShapes : List String :=
  ["01 10 11 21 31",
   "01 10 11 21 22",
   "10 11 12 13 03",
   "01 11 10 02",
   "00 01 02 12 13",
   "02 12 11 21 20",
   "02 12 11 10",
   "02 12 22 21 20",
   "01 11 10",
   "01 02 11 12 10",
   "01 11 10 21",
   "00 01 11 21 20"]

/-- Character-list core of `parseShape`: the C++ loop reads `s[i]` and `s[i+1]`
as digits while `i + 1 < s.size()`, stepping `i` by 3 (pair, pair, separator).
Consuming two characters and dropping the third models exactly that loop. -/
def parseShapeAux : List Char → List (Int × Int)
  | c1 :: c2 :: _ :: rest =>
      ((c1.toNat : Int) - 48, (c2.toNat : Int) - 48) :: parseShapeAux rest
  | [c1, c2] => [((c1.toNat : Int) - 48, (c2.toNat : Int) - 48)]
  | _ => []

/-- `parseShape` from the source: turns a shape string into coordinate pairs. -/
def parseShape (s : String) : List (Int × Int) :=
  parseShapeAux s.data

/-- One 90° rotation step, `(x, y) ↦ (y, -x)`, as in the inner rotation loop. -/
def rotOnce (q : Int × Int) : Int × Int := (q.2, -q.1)

/-- `rot`-fold application of the rotation step. -/
def rotN : Nat → (Int × Int) → (Int × Int)
  | 0, q => q
  | n + 1, q => rotN n (rotOnce q)

/-- Per-point transform of `generateOrientations`: optional x-negation
(reflection), then `rot` successive 90° rotations. -/
def transformPoint (reflect : Bool) (rot : Nat) (q : Int × Int) : Int × Int :=
  rotN rot (if reflect then (-q.1, q.2) else q)

/-- `minX` computation: fold of `std::min` started at `INT32_MAX`. -/
def minXOf (l : List (Int × Int)) : Int :=
  l.foldl (fun m q => min m q.1) 2147483647

/-- `minY` computation: fold of `std::min` started at `INT32_MAX`. -/
def minYOf (l : List (Int × Int)) : Int :=
  l.foldl (fun m q => min m q.2) 2147483647

/-- Strict lexicographic order on coordinate pairs (`std::pair::operator<`). -/
def pairLtB (a b : Int × Int) : Bool :=
  decide (a.1 < b.1 ∨ (a.1 = b.1 ∧ a.2 < b.2))

/-- Insert into an ascending list (used to model `std::sort` on coordinates). -/
def insertPair (x : Int × Int) : List (Int × Int) → List (Int × Int)
  | [] => [x]
  | y :: ys => if pairLtB x y then x :: y :: ys else y :: insertPair x ys

/-- Sorting the coordinate list ascending by `<` (`std::sort`). -/
def sortPairs : List (Int × Int) → List (Int × Int)
  | [] => []
  | x :: xs => insertPair x (sortPairs xs)

/-- Normalization in `generateOrientations`: translate so the minimum x and y
become 0, then sort the coordinate list canonically. -/
def normalizeShape (l : List (Int × Int)) : List (Int × Int) :=
  sortPairs (l.map (fun q => (q.1 - minXOf l, q.2 - minYOf l)))

/-- Strict lexicographic order on coordinate lists (`std::vector::operator<`),
the key order of the `std::set` of orientations. -/
def shapeLtB : List (Int × Int) → List (Int × Int) → Bool
  | [], [] => false
  | [], _ :: _ => true
  | _ :: _, [] => false
  | x :: xs, y :: ys =>
      if pairLtB x y then true else if pairLtB y x then false else shapeLtB xs ys

/-- `std::set` insertion: keep the list strictly ascending, drop duplicates. -/
def insertShape (s : List (Int × Int)) :
    List (List (Int × Int)) → List (List (Int × Int))
  | [] => [s]
  | t :: ts =>
      if shapeLtB s t then s :: t :: ts
      else if shapeLtB t s then t :: insertShape s ts
      else t :: ts

/-- `generateOrientations`: all 8 dihedral transforms (reflect ∈ {0,1} outer,
rot ∈ {0,..,3} inner), each normalized and inserted into the set; the result
is the set's ascending enumeration. -/
def generateOrientations (base : List (Int × Int)) : List (List (Int × Int)) :=
  (List.range 2).foldl
    (fun acc reflect =>
      (List.range 4).foldl
        (fun acc2 rot =>
          insertShape (normalizeShape (base.map (transformPoint (reflect == 1) rot))) acc2)
        acc)
    []

/-- A placement: 55-bit occupancy mask plus the covered cell indices, exactly
the pair pushed onto `placementMasks[p]` / `placementCells[p]`. -/
structure Placement where
  mask : Nat
  cells : List Nat
deriving DecidableEq, Repr

/-- Absolute cell index `(oy + dy) * BOARD_WIDTH + (ox + dx)` of a shape cell. -/
def cellIdx (ox oy : Int) (q : Int × Int) : Int :=
  (oy + q.2) * (BOARD_WIDTH : Int) + (ox + q.1)

/-- One offset trial of `precomputePlacements`: if every cell index is in
range the placement (mask ∪ cell list) is kept, otherwise the offset is
skipped (the `valid` flag / `break` path of the C++ loop). -/
def placementAt (shape : List (Int × Int)) (ox oy : Int) : Option Placement :=
  if shape.all (fun q => decide (0 ≤ cellIdx ox oy q ∧ cellIdx ox oy q < (NUM_CELLS : Int))) then
    some { mask := shape.foldl (fun m q => m ||| (1 <<< (cellIdx ox oy q).toNat)) 0,
           cells := shape.map (fun q => (cellIdx ox oy q).toNat) }
  else none

/-- The integers `0, 1, …, n` (empty when `n < 0`), the range of the C++
offset loops `for (o = 0; o <= n; ++o)`. -/
def intsUpTo (n : Int) : List Int :=
  (List.range (n + 1).toNat).map (fun k => Int.ofNat k)

/-- All placements of one orientation: slide over every board offset
`(ox, oy)` with `oy` outer and `ox` inner, as in `precomputePlacements`. -/
def placementsForOrientation (shape : List (Int × Int)) : List Placement :=
  let maxX := shape.foldl (fun m q => max m q.1) 0
  let maxY := shape.foldl (fun m q => max m q.2) 0
  (intsUpTo ((BOARD_HEIGHT : Int) - (maxY + 1))).flatMap
    (fun oy => (intsUpTo ((BOARD_WIDTH : Int) - (maxX + 1))).filterMap
      (fun ox => placementAt shape ox oy))

/-- The full placement table of piece `p`, in the stable
orientation-then-offset order of `precomputePlacements`. -/
def placementsOfPiece (p : Nat) : List Placement :=
  (generateOrientations (parseShape (pieceShapes.getD p ""))).flatMap
    placementsForOrientation

/-- Number of placements of piece `p` (`placementMasks[p].size()`). -/
def numPl (p : Nat) : Nat := (placementsOfPiece p).length

/-- Placement `idx` of piece `p` (out-of-range reads default to the empty
placement; the program only indexes in range). -/
def placementOf (p idx : Nat) : Placement :=
  (placementsOfPiece p).getD idx { mask := 0, cells := [] }

/-- `placementMasks[p][idx]`. -/
def pieceMask (p idx : Nat) : Nat := (placementOf p idx).mask

/-- `placementCells[p][idx]`. -/
def pieceCells (p idx : Nat) : List Nat := (placementOf p idx).cells

/-- `placementsByCell[p][c]`: the ids (ascending, i.e. in registration order)
of the placements of `p` whose cell list contains `c`. -/
def placementsByCell (p c : Nat) : List Nat :=
  (List.range (numPl p)).filter (fun idx => (placementOf p idx).cells.contains c)

/-- Search state: used-pieces vector, board character buffer, solution list
(the three by-reference arguments of `search`). -/
def SState : Type := List Bool × List Char × List (List Char)

attribute [reducible] SState

/-- Write `ch` into every listed cell of the board buffer (the commit and the
undo loops of `search`). -/
def writeCells (cells : List Nat) (ch : Char) (b : List Char) : List Char :=
  cells.foldl (fun bb cell => bb.set cell ch) b

/-- The letter of piece `p`, `char('A' + p)`. -/
def letterOf (p : Nat) : Char := Char.ofNat (65 + p)

/-- First empty cell: least `c < NUM_CELLS` whose mask bit is clear, or
`NUM_CELLS` when the board is full (the `while` scan of `search`). -/
def firstEmpty (boardMask : Nat) : Nat :=
  (((List.range NUM_CELLS).find? (fun c => (boardMask >>> c) &&& 1 == 0)).getD NUM_CELLS)

/-- The body of `search` with the recursive call abstracted (`recf`): the
innermost loop over the placements of `p` that cover cell `c`.  Overlapping
placements are skipped; otherwise the piece is committed (mark used, OR the
mask, write the letter), the recursion runs, and the commit is undone
(unmark, reset the covered cells to the empty sentinel). -/
def placeStepF (recf : Nat → SState → SState) (boardMask p : Nat)
    (sti : SState) (idx : Nat) : SState :=
  let pmask := pieceMask p idx
  if pmask &&& boardMask != 0 then sti
  else
    let st2 := recf (boardMask ||| pmask)
      (sti.1.set p true, writeCells (pieceCells p idx) (letterOf p) sti.2.1, sti.2.2)
    (st2.1.set p false, writeCells (pieceCells p idx) '.' st2.2.1, st2.2.2)

/-- The loop body of `search` over pieces: used pieces are skipped, otherwise
every placement of `p` registered against cell `c` is tried. -/
def pieceStepF (recf : Nat → SState → SState) (boardMask c : Nat)
    (stp : SState) (p : Nat) : SState :=
  if stp.1.getD p false then stp
  else (placementsByCell p c).foldl (placeStepF recf boardMask p) stp

/-- Fuel-indexed embedding of the recursive `search`.  When all pieces are
used a copy of the board buffer is appended to the solutions; otherwise the
first empty cell is located (returning with no solution if the board is full,
the defensive branch), and every unused piece's placements covering that cell
are tried.  Fuel only bounds recursion depth; the program's calls never
exhaust it (each recursive call marks one more piece used). -/
def searchGo : Nat → Nat → SState → SState
  | 0, _, st => st
  | Nat.succ fuel, boardMask, st =>
    if (List.range NUM_PIECES).all (fun i => st.1.getD i false) then
      (st.1, st.2.1, st.2.2 ++ [st.2.1])
    else
      let c := firstEmpty boardMask
      if NUM_CELLS ≤ c then st
      else
        (List.range NUM_PIECES).foldl
          (fun stp p => pieceStepF (fun m st2 => searchGo fuel m st2) boardMask c stp p)
          st

/-- `search` itself: fuel `NUM_PIECES + 1` dominates the recursion depth of
every call the program makes. -/
def search (boardMask : Nat) (st : SState) : SState :=
  searchGo (NUM_PIECES + 1) boardMask st

/-- The list of solutions a `search` call appends for a given entry state. -/
def searchSolutions (boardMask : Nat) (u : List Bool) (b : List Char) : List (List Char) :=
  (search boardMask (u, b, [])).2.2

/-- `usedInit` with piece 0 committed, as set up by the partition loop. -/
def initUsed : List Bool := (List.replicate NUM_PIECES false).set 0 true

/-- The board buffer after committing placement `i0` of piece 0 onto the
empty (`'.'`-filled) board, as set up by the partition loop. -/
def initChars (i0 : Nat) : List Char :=
  writeCells (pieceCells 0 i0) 'A' (List.replicate NUM_CELLS '.')

/-- The id sequence of the worker loop `for (i0 = start; i0 < T; i0 += step)`.
(The program always has `step = world_size ≥ 1`.) -/
def loopIds (start T step : Nat) : List Nat :=
  if _h : start < T ∧ 0 < step then start :: loopIds (start + step) T step else []
termination_by T - start
decreasing_by omega

/-- `placementMasks[0].size()`, the top-level work-partition range. -/
def totalPlacements0 : Nat := numPl 0

/-- The local solution list of worker `rank` out of `N`: for each assigned
placement of piece 0, commit it on a fresh board and run `search`,
accumulating into the worker's solution vector. -/
def runWorker (rank N : Nat) : List (List Char) :=
  (loopIds rank totalPlacements0 N).foldl
    (fun sols i0 => (search (pieceMask 0 i0) (initUsed, initChars i0, sols)).2.2)
    []

/-- All solutions of an `N`-worker run, workers in rank order (the order the
coordinator emits them, shown below). -/
def allSolutionsOut (N : Nat) : List (List Char) :=
  (List.range N).flatMap (fun r => runWorker r N)

/-- The gathered per-worker solution counts (`allCounts` at rank 0). -/
def allCounts (N : Nat) : List Nat :=
  (List.range N).map (fun r => (runWorker r N).length)

/-- The displacement loop of `main`: `displs[i] = offset;
offset += counts[i] * NUM_CELLS`. -/
def scanDispls : List Nat → Nat → List Nat
  | [], _ => []
  | cnt :: rest, off => off :: scanDispls rest (off + cnt * NUM_CELLS)

/-- Byte displacements of each worker's region in the receive buffer. -/
def displs (N : Nat) : List Nat := scanDispls (allCounts N) 0

/-- Total receive-buffer size (the final `offset`). -/
def recvTotal (N : Nat) : Nat :=
  (allCounts N).foldl (fun acc cnt => acc + cnt * NUM_CELLS) 0

/-- Worker `r`'s flat send buffer: its solutions concatenated as fixed-width
55-byte records (the `memcpy` loop). -/
def localBuf (r N : Nat) : List Char :=
  (runWorker r N).flatMap (fun s => s)

/-- Writing `data` into a buffer at byte offset `off` (one region of the
variable-length gather). -/
def gatherWrite (buf : List Char) (off : Nat) (data : List Char) : List Char :=
  buf.take off ++ data ++ buf.drop (off + data.length)

/-- Modelled from the spec: the collective `gather_variable` transfer
(`MPI_Gatherv`, an external transport primitive not part of this repository's
sources) places worker `r`'s byte buffer at displacement `displs[r]` of the
coordinator's combined buffer, which starts out as the freshly resized
(zero-filled) `recvBuf`. -/
def recvBuf (N : Nat) : List Char :=
  (List.range N).foldl
    (fun buf r => gatherWrite buf ((displs N).getD r 0) (localBuf r N))
    (List.replicate (recvTotal N) (Char.ofNat 0))

/-- Reading `len` bytes at offset `off` (the `boardPtr` arithmetic). -/
def sliceAt (buf : List Char) (off len : Nat) : List Char :=
  (buf.drop off).take len

/-- The coordinator's emission order: workers in ascending rank, and inside a
worker's region the solutions in local-discovery order, each read as the
55-byte record at `displs[r] + s * NUM_CELLS`. -/
def outputBoards (N : Nat) : List (List Char) :=
  (List.range N).flatMap
    (fun r => (List.range ((allCounts N).getD r 0)).map
      (fun s => sliceAt (recvBuf N) ((displs N).getD r 0 + s * NUM_CELLS) NUM_CELLS))

/-- `std::accumulate` over the gathered counts: the reported total. -/
def totalSolutions (N : Nat) : Nat :=
  (allCounts N).foldl (fun acc cnt => acc + cnt) 0

/-- Popcount of a 64-bit word, as the number of set bits among positions
`0..63`. -/
def popcount64 (n : Nat) : Nat := (List.range 64).countP (fun i => n.testBit i)

/-- The base-shape size of piece `p` (number of parsed coordinates). -/
def sizeOfPiece (p : Nat) : Nat := (parseShape (pieceShapes.getD p "")).length

/-- The orientation set of piece `p`. -/
def orientationsOf (p : Nat) : List (List (Int × Int)) :=
  generateOrientations (parseShape (pieceShapes.getD p ""))

/-! ### Order lemmas for the coordinate comparisons -/

theorem pairLtB_irrefl (a : Int × Int) : pairLtB a a = false := by
  simp [pairLtB]

theorem pairLtB_trans {a b c : Int × Int} (h1 : pairLtB a b = true)
    (h2 : pairLtB b c = true) : pairLtB a c = true := by
  simp only [pairLtB, decide_eq_true_eq] at *
  rcases h1 with h1 | ⟨h1, h1b⟩ <;> rcases h2 with h2 | ⟨h2, h2b⟩
  · exact Or.inl (lt_trans h1 h2)
  · exact Or.inl (h2 ▸ h1)
  · exact Or.inl (h1 ▸ h2)
  · exact Or.inr ⟨h1.trans h2, lt_trans h1b h2b⟩

theorem pairLtB_total (a b : Int × Int) :
    pairLtB a b = true ∨ pairLtB b a = true ∨ a = b := by
  simp only [pairLtB, decide_eq_true_eq]
  rcases lt_trichotomy a.1 b.1 with h | h | h
  · exact Or.inl (Or.inl h)
  · rcases lt_trichotomy a.2 b.2 with h2 | h2 | h2
    · exact Or.inl (Or.inr ⟨h, h2⟩)
    · exact Or.inr (Or.inr (Prod.ext h h2))
    · exact Or.inr (Or.inl (Or.inr ⟨h.symm, h2⟩))
  · exact Or.inr (Or.inl (Or.inl h))

theorem pairLtB_asymm {a b : Int × Int} (h : pairLtB a b = true) :
    pairLtB b a = false := by
  by_contra hc
  have hb : pairLtB b a = true := by
    cases hba : pairLtB b a
    · exact absurd hba hc
    · rfl
  have := pairLtB_trans h hb
  rw [pairLtB_irrefl] at this
  exact Bool.false_ne_true this

/-! ### Insertion sort (`std::sort` model) -/

theorem insertPair_perm (x : Int × Int) (l : List (Int × Int)) :
    (insertPair x l).Perm (x :: l) := by
  induction l with
  | nil => simp [insertPair]
  | cons y ys ih =>
    by_cases h : pairLtB x y = true
    · simp [insertPair, h]
    · simp only [insertPair, h]
      rw [if_neg (by simp [h])]
      exact ((ih.cons y).trans (List.Perm.swap x y ys)).symm.symm

theorem sortPairs_perm (l : List (Int × Int)) : (sortPairs l).Perm l := by
  induction l with
  | nil => simp [sortPairs]
  | cons x xs ih => exact (insertPair_perm x (sortPairs xs)).trans (ih.cons x)

theorem sortPairs_mem {a : Int × Int} {l : List (Int × Int)} :
    a ∈ sortPairs l ↔ a ∈ l := (sortPairs_perm l).mem_iff

theorem sortPairs_length (l : List (Int × Int)) :
    (sortPairs l).length = l.length := (sortPairs_perm l).length_eq

theorem sortPairs_nodup {l : List (Int × Int)} (h : l.Nodup) :
    (sortPairs l).Nodup := ((sortPairs_perm l).nodup_iff).2 h

/-- Sortedness predicate produced by the insertion sort: no later element is
strictly below an earlier one. -/
def SortedPairs (l : List (Int × Int)) : Prop :=
  l.Pairwise (fun a b => pairLtB b a = false)

theorem insertPair_mem {a x : Int × Int} {l : List (Int × Int)} :
    a ∈ insertPair x l ↔ a = x ∨ a ∈ l := by
  rw [(insertPair_perm x l).mem_iff]
  simp

theorem insertPair_sorted {x : Int × Int} {l : List (Int × Int)}
    (h : SortedPairs l) : SortedPairs (insertPair x l) := by
  induction l with
  | nil => simp [insertPair, SortedPairs]
  | cons y ys ih =>
    rcases List.pairwise_cons.1 h with ⟨hy, hys⟩
    by_cases hxy : pairLtB x y = true
    · simp only [insertPair, hxy, if_true]
      refine List.pairwise_cons.2 ⟨?_, h⟩
      intro b hb
      rcases List.mem_cons.1 hb with rfl | hb
      · exact pairLtB_asymm hxy
      · cases hbx : pairLtB b x
        · rfl
        · have : pairLtB b y = true := pairLtB_trans hbx hxy
          rw [hy b hb] at this
          exact this.symm
    · have hxyf : pairLtB x y = false := by
        cases hv : pairLtB x y
        · rfl
        · exact absurd hv hxy
      simp only [insertPair, hxyf]
      rw [if_neg (by simp)]
      refine List.pairwise_cons.2 ⟨?_, ih hys⟩
      intro b hb
      rcases insertPair_mem.1 hb with rfl | hb
      · exact hxyf
      · exact hy b hb

theorem sortPairs_sorted (l : List (Int × Int)) : SortedPairs (sortPairs l) := by
  induction l with
  | nil => simp [sortPairs, SortedPairs]
  | cons x xs ih => exact insertPair_sorted ih

/-- Strictly ascending coordinate lists with the same members are equal. -/
theorem sorted_nodup_eq_of_mem_iff :
    ∀ {l1 l2 : List (Int × Int)}, SortedPairs l1 → SortedPairs l2 →
    l1.Nodup → l2.Nodup → (∀ a, a ∈ l1 ↔ a ∈ l2) → l1 = l2 := by
  intro l1
  induction l1 with
  | nil =>
    intro l2 _ _ _ _ hmem
    cases l2 with
    | nil => rfl
    | cons y ys => exact absurd ((hmem y).2 (List.mem_cons_self y ys)) (List.not_mem_nil y)
  | cons x xs ih =>
    intro l2 hs1 hs2 hn1 hn2 hmem
    cases l2 with
    | nil => exact absurd ((hmem x).1 (List.mem_cons_self x xs)) (List.not_mem_nil x)
    | cons y ys =>
      rcases List.pairwise_cons.1 hs1 with ⟨hx, hxs⟩
      rcases List.pairwise_cons.1 hs2 with ⟨hy, hys⟩
      rcases List.nodup_cons.1 hn1 with ⟨hnx, hnxs⟩
      rcases List.nodup_cons.1 hn2 with ⟨hny, hnys⟩
      have hxy : x = y := by
        rcases List.mem_cons.1 ((hmem x).1 (List.mem_cons_self x xs)) with h | hxin
        · exact h
        · rcases List.mem_cons.1 ((hmem y).2 (List.mem_cons_self y ys)) with h | hyin
          · exact h.symm
          · have h1 := hx y hyin
            have h2 := hy x hxin
            rcases pairLtB_total x y with ht | ht | ht
            · rw [h2] at ht; exact absurd ht Bool.false_ne_true
            · rw [h1] at ht; exact absurd ht Bool.false_ne_true
            · exact ht
      subst hxy
      have htail : ∀ a, a ∈ xs ↔ a ∈ ys := by
        intro a
        constructor
        · intro ha
          rcases List.mem_cons.1 ((hmem a).1 (List.mem_cons_of_mem x ha)) with h | h
          · exact absurd (h ▸ ha) hnx
          · exact h
        · intro ha
          rcases List.mem_cons.1 ((hmem a).2 (List.mem_cons_of_mem x ha)) with h | h
          · exact absurd (h ▸ ha) hny
          · exact h
      rw [ih hxs hys hnxs hnys htail]

/-! ### Fold min / fold max bounds and attainment -/

theorem foldl_min_le_init (f : (Int × Int) → Int) (l : List (Int × Int)) (init : Int) :
    l.foldl (fun m q => min m (f q)) init ≤ init := by
  induction l generalizing init with
  | nil => exact le_refl _
  | cons q qs ih => exact le_trans (ih (min init (f q))) (min_le_left _ _)

theorem foldl_min_le_mem (f : (Int × Int) → Int) {l : List (Int × Int)} (init : Int)
    {q : Int × Int} (hq : q ∈ l) : l.foldl (fun m r => min m (f r)) init ≤ f q := by
  induction l generalizing init with
  | nil => exact absurd hq (List.not_mem_nil q)
  | cons r rs ih =>
    rcases List.mem_cons.1 hq with rfl | hq
    · exact le_trans (foldl_min_le_init f rs _) (min_le_right _ _)
    · exact ih _ hq

theorem foldl_min_attained (f : (Int × Int) → Int) (l : List (Int × Int)) (init : Int) :
    l.foldl (fun m q => min m (f q)) init = init ∨
      ∃ q ∈ l, l.foldl (fun m r => min m (f r)) init = f q := by
  induction l generalizing init with
  | nil => exact Or.inl rfl
  | cons r rs ih =>
    rcases ih (min init (f r)) with h | ⟨q, hq, h⟩
    · simp only [List.foldl_cons]
      rcases min_cases init (f r) with ⟨he, _⟩ | ⟨he, _⟩
      · exact Or.inl (h.trans he)
      · exact Or.inr ⟨r, List.mem_cons_self r rs, h.trans he⟩
    · exact Or.inr ⟨q, List.mem_cons_of_mem r hq, h⟩

theorem foldl_max_ge_init (f : (Int × Int) → Int) (l : List (Int × Int)) (init : Int) :
    init ≤ l.foldl (fun m q => max m (f q)) init := by
  induction l generalizing init with
  | nil => exact le_refl _
  | cons q qs ih => exact le_trans (le_max_left _ _) (ih (max init (f q)))

theorem foldl_max_ge_mem (f : (Int × Int) → Int) {l : List (Int × Int)} (init : Int)
    {q : Int × Int} (hq : q ∈ l) : f q ≤ l.foldl (fun m r => max m (f r)) init := by
  induction l generalizing init with
  | nil => exact absurd hq (List.not_mem_nil q)
  | cons r rs ih =>
    rcases List.mem_cons.1 hq with rfl | hq
    · exact le_trans (le_max_right _ _) (foldl_max_ge_init f rs _)
    · exact ih _ hq

/-! ### Transform properties -/

theorem rotOnce_injective : Function.Injective rotOnce := by
  intro a b h
  simp only [rotOnce, Prod.mk.injEq] at h
  exact Prod.ext (by omega) h.1

theorem rotN_injective (n : Nat) : Function.Injective (rotN n) := by
  induction n with
  | zero => intro a b h; exact h
  | succ m ih =>
    intro a b h
    exact rotOnce_injective (ih h)

theorem transformPoint_injective (re : Bool) (ro : Nat) :
    Function.Injective (transformPoint re ro) := by
  intro a b h
  have h2 := rotN_injective ro h
  cases re with
  | false => exact h2
  | true =>
    simp only [if_true] at h2
    simp only [Prod.mk.injEq] at h2
    exact Prod.ext (by omega) h2.2

/-- Coordinates stay inside a symmetric box under the dihedral transforms. -/
def Bounded9 (l : List (Int × Int)) : Prop :=
  ∀ q ∈ l, -9 ≤ q.1 ∧ q.1 ≤ 9 ∧ -9 ≤ q.2 ∧ q.2 ≤ 9

theorem rotN_bounded {q : Int × Int} (n : Nat)
    (h : -9 ≤ q.1 ∧ q.1 ≤ 9 ∧ -9 ≤ q.2 ∧ q.2 ≤ 9) :
    -9 ≤ (rotN n q).1 ∧ (rotN n q).1 ≤ 9 ∧ -9 ≤ (rotN n q).2 ∧ (rotN n q).2 ≤ 9 := by
  induction n generalizing q with
  | zero => exact h
  | succ m ih => exact ih (by simp only [rotOnce]; omega)

theorem transformPoint_bounded {q : Int × Int} (re : Bool) (ro : Nat)
    (h : -9 ≤ q.1 ∧ q.1 ≤ 9 ∧ -9 ≤ q.2 ∧ q.2 ≤ 9) :
    -9 ≤ (transformPoint re ro q).1 ∧ (transformPoint re ro q).1 ≤ 9 ∧
    -9 ≤ (transformPoint re ro q).2 ∧ (transformPoint re ro q).2 ≤ 9 := by
  cases re with
  | false => exact rotN_bounded ro h
  | true => exact rotN_bounded ro (by constructor <;> simp <;> omega)

/-! ### Normalization -/

theorem normalizeShape_mem {a : Int × Int} {l : List (Int × Int)} :
    a ∈ normalizeShape l ↔ ∃ q ∈ l, a = (q.1 - minXOf l, q.2 - minYOf l) := by
  rw [normalizeShape, sortPairs_mem, List.mem_map]
  constructor
  · rintro ⟨q, hq, rfl⟩; exact ⟨q, hq, rfl⟩
  · rintro ⟨q, hq, rfl⟩; exact ⟨q, hq, rfl⟩

theorem normalizeShape_length (l : List (Int × Int)) :
    (normalizeShape l).length = l.length := by
  rw [normalizeShape, sortPairs_length, List.length_map]

theorem normalizeShape_nodup {l : List (Int × Int)} (h : l.Nodup) :
    (normalizeShape l).Nodup := by
  refine sortPairs_nodup (List.Nodup.map ?_ h)
  intro a b hab
  simp only [Prod.mk.injEq] at hab
  exact Prod.ext (by omega) (by omega)

theorem normalizeShape_sorted (l : List (Int × Int)) :
    SortedPairs (normalizeShape l) := sortPairs_sorted _

theorem normalizeShape_nonneg {a : Int × Int} {l : List (Int × Int)}
    (ha : a ∈ normalizeShape l) : 0 ≤ a.1 ∧ 0 ≤ a.2 := by
  rcases normalizeShape_mem.1 ha with ⟨q, hq, rfl⟩
  have h1 := foldl_min_le_mem Prod.fst 2147483647 hq
  have h2 := foldl_min_le_mem Prod.snd 2147483647 hq
  rw [minXOf, minYOf]
  constructor <;> simp <;> omega

theorem normalizeShape_min_attained {l : List (Int × Int)} (hne : l ≠ [])
    (hb : Bounded9 l) :
    (∃ a ∈ normalizeShape l, a.1 = 0) ∧ (∃ a ∈ normalizeShape l, a.2 = 0) := by
  obtain ⟨q0, hq0⟩ := List.exists_mem_of_ne_nil l hne
  constructor
  · rcases foldl_min_attained Prod.fst l 2147483647 with h | ⟨q, hq, h⟩
    · have := foldl_min_le_mem Prod.fst 2147483647 hq0
      have hb0 := hb q0 hq0
      rw [h] at this
      omega
    · exact ⟨(q.1 - minXOf l, q.2 - minYOf l), normalizeShape_mem.2 ⟨q, hq, rfl⟩, by
        simp only [minXOf, h]; omega⟩
  · rcases foldl_min_attained Prod.snd l 2147483647 with h | ⟨q, hq, h⟩
    · have := foldl_min_le_mem Prod.snd 2147483647 hq0
      have hb0 := hb q0 hq0
      rw [h] at this
      omega
    · exact ⟨(q.1 - minXOf l, q.2 - minYOf l), normalizeShape_mem.2 ⟨q, hq, rfl⟩, by
        simp only [minYOf, h]; omega⟩

theorem normalizeShape_bounded {l : List (Int × Int)} (hb : Bounded9 l) :
    ∀ a ∈ normalizeShape l, -18 ≤ a.1 ∧ a.1 ≤ 18 ∧ -18 ≤ a.2 ∧ a.2 ≤ 18 := by
  intro a ha
  rcases normalizeShape_mem.1 ha with ⟨q, hq, rfl⟩
  have hxle : minXOf l ≤ q.1 := foldl_min_le_mem Prod.fst 2147483647 hq
  have hyle : minYOf l ≤ q.2 := foldl_min_le_mem Prod.snd 2147483647 hq
  have hbq := hb q hq
  have hxge : -9 ≤ minXOf l := by
    rcases foldl_min_attained Prod.fst l 2147483647 with h | ⟨r, hr, h⟩
    · rw [minXOf] at *; omega
    · have := hb r hr
      rw [minXOf] at *; omega
  have hyge : -9 ≤ minYOf l := by
    rcases foldl_min_attained Prod.snd l 2147483647 with h | ⟨r, hr, h⟩
    · rw [minYOf] at *; omega
    · have := hb r hr
      rw [minYOf] at *; omega
  constructor <;> simp <;> omega

/-! ### The orientation set (`std::set` keyed by `shapeLtB`) -/

theorem shapeLtB_irrefl : ∀ s : List (Int × Int), shapeLtB s s = false := by
  intro s
  induction s with
  | nil => rfl
  | cons x xs ih => simp [shapeLtB, pairLtB_irrefl, ih]

theorem shapeLtB_total : ∀ s t : List (Int × Int),
    shapeLtB s t = true ∨ shapeLtB t s = true ∨ s = t := by
  intro s
  induction s with
  | nil =>
    intro t
    cases t with
    | nil => exact Or.inr (Or.inr rfl)
    | cons y ys => exact Or.inl rfl
  | cons x xs ih =>
    intro t
    cases t with
    | nil => exact Or.inr (Or.inl rfl)
    | cons y ys =>
      rcases pairLtB_total x y with h | h | rfl
      · exact Or.inl (by simp [shapeLtB, h])
      · exact Or.inr (Or.inl (by simp [shapeLtB, h]))
      · rcases ih ys with h | h | rfl
        · exact Or.inl (by simp [shapeLtB, pairLtB_irrefl, h])
        · exact Or.inr (Or.inl (by simp [shapeLtB, pairLtB_irrefl, h]))
        · exact Or.inr (Or.inr rfl)

theorem shapeLtB_cons {x y : Int × Int} {xs ys : List (Int × Int)} :
    shapeLtB (x :: xs) (y :: ys) = true ↔
      (pairLtB x y = true ∨ (x = y ∧ shapeLtB xs ys = true)) := by
  by_cases h1 : pairLtB x y = true
  · simp [shapeLtB, h1]
  · by_cases h2 : pairLtB y x = true
    · have hne : ¬ x = y := by
        intro he
        subst he
        rw [pairLtB_irrefl] at h2
        exact Bool.false_ne_true h2
      simp [shapeLtB, h1, h2, hne]
    · have heq : x = y := by
        rcases pairLtB_total x y with h | h | h
        · exact absurd h h1
        · exact absurd h h2
        · exact h
      simp [shapeLtB, h1, h2, heq, pairLtB_irrefl]

theorem shapeLtB_trans : ∀ {s t u : List (Int × Int)},
    shapeLtB s t = true → shapeLtB t u = true → shapeLtB s u = true := by
  intro s
  induction s with
  | nil =>
    intro t u h1 h2
    cases t with
    | nil => exact absurd h1 (by simp [shapeLtB])
    | cons y ys =>
      cases u with
      | nil => exact absurd h2 (by simp [shapeLtB])
      | cons z zs => rfl
  | cons x xs ih =>
    intro t u h1 h2
    cases t with
    | nil => exact absurd h1 (by simp [shapeLtB])
    | cons y ys =>
      cases u with
      | nil => exact absurd h2 (by simp [shapeLtB])
      | cons z zs =>
        rcases shapeLtB_cons.1 h1 with hxy | ⟨rfl, hxy⟩ <;>
          rcases shapeLtB_cons.1 h2 with hyz | ⟨rfl, hyz⟩
        · exact shapeLtB_cons.2 (Or.inl (pairLtB_trans hxy hyz))
        · exact shapeLtB_cons.2 (Or.inl hxy)
        · exact shapeLtB_cons.2 (Or.inl hyz)
        · exact shapeLtB_cons.2 (Or.inr ⟨rfl, ih hxy hyz⟩)

theorem shapeLtB_asymm {s t : List (Int × Int)} (h : shapeLtB s t = true) :
    shapeLtB t s = false := by
  cases hv : shapeLtB t s
  · rfl
  · have := shapeLtB_trans h hv
    rw [shapeLtB_irrefl] at this
    exact absurd this Bool.false_ne_true

theorem insertShape_mem {t s : List (Int × Int)} {L : List (List (Int × Int))} :
    t ∈ insertShape s L ↔ t = s ∨ t ∈ L := by
  induction L with
  | nil => simp [insertShape]
  | cons u us ih =>
    by_cases h1 : shapeLtB s u = true
    · simp [insertShape, h1]
    · by_cases h2 : shapeLtB u s = true
      · rw [insertShape, if_neg (by simp [h1]), if_pos h2]
        simp only [List.mem_cons, ih]
        tauto
      · have heq : s = u := by
          rcases shapeLtB_total s u with h | h | h
          · exact absurd h h1
          · exact absurd h h2
          · exact h
        rw [insertShape, if_neg (by simp [h1]), if_neg (by simp [h2])]
        subst heq
        simp only [List.mem_cons]
        tauto

theorem insertShape_self (s : List (Int × Int)) (L : List (List (Int × Int))) :
    s ∈ insertShape s L := insertShape_mem.2 (Or.inl rfl)

theorem insertShape_mono {t : List (Int × Int)} {L : List (List (Int × Int))}
    (s : List (Int × Int)) (h : t ∈ L) : t ∈ insertShape s L :=
  insertShape_mem.2 (Or.inr h)

/-- Strictly ascending list of shapes: the `std::set` representation invariant. -/
def SortedShapes (L : List (List (Int × Int))) : Prop :=
  L.Pairwise (fun a b => shapeLtB a b = true)

theorem insertShape_sorted {s : List (Int × Int)} {L : List (List (Int × Int))}
    (h : SortedShapes L) : SortedShapes (insertShape s L) := by
  induction L with
  | nil => simp [insertShape, SortedShapes]
  | cons u us ih =>
    rcases List.pairwise_cons.1 h with ⟨hu, hus⟩
    by_cases h1 : shapeLtB s u = true
    · rw [insertShape, if_pos h1]
      refine List.pairwise_cons.2 ⟨?_, h⟩
      intro b hb
      rcases List.mem_cons.1 hb with rfl | hb
      · exact h1
      · exact shapeLtB_trans h1 (hu b hb)
    · by_cases h2 : shapeLtB u s = true
      · rw [insertShape, if_neg (by simp [h1]), if_pos h2]
        refine List.pairwise_cons.2 ⟨?_, ih hus⟩
        intro b hb
        rcases insertShape_mem.1 hb with rfl | hb
        · exact h2
        · exact hu b hb
      · rw [insertShape, if_neg (by simp [h1]), if_neg (by simp [h2])]
        exact h

theorem insertShape_length (s : List (Int × Int)) (L : List (List (Int × Int))) :
    (insertShape s L).length = L.length ∨ (insertShape s L).length = L.length + 1 := by
  induction L with
  | nil => simp [insertShape]
  | cons u us ih =>
    by_cases h1 : shapeLtB s u = true
    · rw [insertShape, if_pos h1]
      simp
    · by_cases h2 : shapeLtB u s = true
      · rw [insertShape, if_neg (by simp [h1]), if_pos h2]
        rcases ih with h | h <;> simp [h]
      · rw [insertShape, if_neg (by simp [h1]), if_neg (by simp [h2])]
        simp

theorem sortedShapes_nodup {L : List (List (Int × Int))} (h : SortedShapes L) :
    L.Nodup := by
  refine List.Pairwise.imp ?_ h
  intro a b hab
  intro he
  subst he
  rw [shapeLtB_irrefl] at hab
  exact absurd hab Bool.false_ne_true

/-- The 8 normalized dihedral images of a base shape, in generation order. -/
def allTransformsOf (base : List (Int × Int)) : List (List (Int × Int)) :=
  (List.range 2).flatMap
    (fun re => (List.range 4).map
      (fun ro => normalizeShape (base.map (transformPoint (re == 1) ro))))

/-- Folding `std::set` insertion over a list of shapes. -/
def insertList (ss : List (List (Int × Int))) (acc : List (List (Int × Int))) :
    List (List (Int × Int)) :=
  ss.foldl (fun a s => insertShape s a) acc

theorem generateOrientations_eq (base : List (Int × Int)) :
    generateOrientations base = insertList (allTransformsOf base) [] := rfl

theorem insertList_mem {t : List (Int × Int)} :
    ∀ {ss : List (List (Int × Int))} {acc : List (List (Int × Int))},
    t ∈ insertList ss acc ↔ t ∈ ss ∨ t ∈ acc := by
  intro ss
  induction ss with
  | nil => intro acc; simp [insertList]
  | cons s rest ih =>
    intro acc
    rw [insertList, List.foldl_cons]
    have : rest.foldl (fun a u => insertShape u a) (insertShape s acc) =
        insertList rest (insertShape s acc) := rfl
    rw [this, ih]
    simp only [insertShape_mem, List.mem_cons]
    tauto

theorem insertList_sorted : ∀ {ss acc : List (List (Int × Int))},
    SortedShapes acc → SortedShapes (insertList ss acc) := by
  intro ss
  induction ss with
  | nil => intro acc h; exact h
  | cons s rest ih =>
    intro acc h
    rw [insertList, List.foldl_cons]
    exact ih (insertShape_sorted h)

theorem insertList_length_le : ∀ {ss acc : List (List (Int × Int))},
    (insertList ss acc).length ≤ acc.length + ss.length := by
  intro ss
  induction ss with
  | nil => intro acc; simp [insertList]
  | cons s rest ih =>
    intro acc
    rw [insertList, List.foldl_cons]
    have h2 : (insertList rest (insertShape s acc)).length ≤
        (insertShape s acc).length + rest.length := ih
    rcases insertShape_length s acc with h | h <;>
      simp only [insertList] at h2 ⊢ <;> rw [h] at h2 <;> simp <;> omega

theorem generateOrientations_mem {base t : List (Int × Int)} :
    t ∈ generateOrientations base ↔
      ∃ re < 2, ∃ ro < 4,
        t = normalizeShape (base.map (transformPoint (re == 1) ro)) := by
  rw [generateOrientations_eq, insertList_mem]
  simp only [List.mem_nil_iff, or_false, allTransformsOf, List.mem_flatMap,
    List.mem_map, List.mem_range]
  constructor
  · rintro ⟨re, hre, ro, hro, rfl⟩
    exact ⟨re, hre, ro, hro, rfl⟩
  · rintro ⟨re, hre, ro, hro, rfl⟩
    exact ⟨re, hre, ro, hro, rfl⟩

theorem generateOrientations_sorted (base : List (Int × Int)) :
    SortedShapes (generateOrientations base) := by
  rw [generateOrientations_eq]
  exact insertList_sorted (by simp [SortedShapes])

theorem generateOrientations_nodup (base : List (Int × Int)) :
    (generateOrientations base).Nodup :=
  sortedShapes_nodup (generateOrientations_sorted base)

theorem generateOrientations_length_le (base : List (Int × Int)) :
    (generateOrientations base).length ≤ 8 := by
  rw [generateOrientations_eq]
  have h := @insertList_length_le (allTransformsOf base) []
  simpa [allTransformsOf] using h

theorem generateOrientations_length_pos (base : List (Int × Int)) :
    1 ≤ (generateOrientations base).length := by
  have hmem : normalizeShape (base.map (transformPoint ((0 : Nat) == 1) 0)) ∈
      generateOrientations base :=
    generateOrientations_mem.2 ⟨0, by omega, 0, by omega, rfl⟩
  exact List.length_pos.2 (List.ne_nil_of_mem hmem)

/-! ### Concrete facts about the 12 base shapes (small decidable checks) -/

theorem baseFacts : ∀ p < 12,
    parseShape (pieceShapes.getD p "") ≠ [] ∧
    (parseShape (pieceShapes.getD p "")).Nodup ∧
    ∀ q ∈ parseShape (pieceShapes.getD p ""),
      0 ≤ q.1 ∧ q.1 ≤ 9 ∧ 0 ≤ q.2 ∧ q.2 ≤ 9 := by decide

theorem sizeOfPiece_pos : ∀ p < 12, 1 ≤ sizeOfPiece p := by decide

theorem sizeOfPiece_sum :
    ((List.range 12).map sizeOfPiece).sum = 55 := by decide

/-! ### Invariants of every generated orientation -/

theorem orientation_facts {p : Nat} (hp : p < 12) {s : List (Int × Int)}
    (hs : s ∈ orientationsOf p) :
    s.length = sizeOfPiece p ∧ s.Nodup ∧ SortedPairs s ∧
    (∀ q ∈ s, 0 ≤ q.1 ∧ 0 ≤ q.2 ∧ q.1 ≤ 18 ∧ q.2 ≤ 18) ∧
    (∃ a ∈ s, a.1 = 0) ∧ (∃ a ∈ s, a.2 = 0) ∧ s ≠ [] := by
  obtain ⟨hne, hnd, hbound⟩ := baseFacts p hp
  rcases generateOrientations_mem.1 hs with ⟨re, _, ro, _, rfl⟩
  set base := parseShape (pieceShapes.getD p "") with hbase
  set l := base.map (transformPoint (re == 1) ro) with hl
  have hlne : l ≠ [] := by
    intro h
    exact hne (List.map_eq_nil_iff.1 h)
  have hlb : Bounded9 l := by
    intro q hq
    rcases List.mem_map.1 hq with ⟨r, hr, rfl⟩
    have := hbound r hr
    exact transformPoint_bounded (re == 1) ro (by omega)
  have hlnd : l.Nodup := List.Nodup.map (transformPoint_injective _ _) hnd
  refine ⟨?_, normalizeShape_nodup hlnd, normalizeShape_sorted l, ?_, ?_, ?_, ?_⟩
  · rw [normalizeShape_length, List.length_map]
    rfl
  · intro q hq
    have h1 := normalizeShape_nonneg hq
    have h2 := normalizeShape_bounded hlb q hq
    omega
  · exact (normalizeShape_min_attained hlne hlb).1
  · exact (normalizeShape_min_attained hlne hlb).2
  · intro h
    have := normalizeShape_length l
    rw [h] at this
    simp only [List.length_nil, List.length_map] at this
    exact hne (List.eq_nil_of_length_eq_zero (by rw [List.length_map] at this; omega))

/-! ### Placement compiler: membership and structure -/

theorem intsUpTo_mem {a n : Int} : a ∈ intsUpTo n ↔ 0 ≤ a ∧ a ≤ n := by
  simp only [intsUpTo, List.mem_map, List.mem_range, Int.ofNat_eq_natCast]
  constructor
  · rintro ⟨k, hk, rfl⟩
    omega
  · intro ⟨h0, hn⟩
    refine ⟨a.toNat, by omega, by omega⟩

theorem intsUpTo_nodup (n : Int) : (intsUpTo n).Nodup := by
  rw [intsUpTo]
  refine List.Nodup.map ?_ (List.nodup_range _)
  intro a b h
  simp only [Int.ofNat_eq_natCast] at h
  omega

theorem placementAt_eq_some {shape : List (Int × Int)} {ox oy : Int} {pl : Placement} :
    placementAt shape ox oy = some pl ↔
      (∀ q ∈ shape, 0 ≤ cellIdx ox oy q ∧ cellIdx ox oy q < 55) ∧
      pl = { mask := shape.foldl (fun m q => m ||| (1 <<< (cellIdx ox oy q).toNat)) 0,
             cells := shape.map (fun q => (cellIdx ox oy q).toNat) } := by
  rw [placementAt]
  by_cases h : shape.all (fun q => decide (0 ≤ cellIdx ox oy q ∧ cellIdx ox oy q < (NUM_CELLS : Int))) = true
  · rw [if_pos h]
    have hall : ∀ q ∈ shape, 0 ≤ cellIdx ox oy q ∧ cellIdx ox oy q < 55 := by
      intro q hq
      have := List.all_eq_true.1 h q hq
      rw [decide_eq_true_eq] at this
      exact ⟨this.1, by have h2 := this.2; norm_num [NUM_CELLS, BOARD_WIDTH, BOARD_HEIGHT] at h2; omega⟩
    constructor
    · intro he
      exact ⟨hall, (Option.some_injective _ he).symm⟩
    · rintro ⟨-, rfl⟩
      rfl
  · rw [if_neg h]
    constructor
    · intro he
      exact absurd he (by simp)
    · rintro ⟨hall, -⟩
      exact absurd (List.all_eq_true.2 (fun q hq => by
        rw [decide_eq_true_eq]
        have := hall q hq
        norm_num [NUM_CELLS, BOARD_WIDTH, BOARD_HEIGHT]
        omega)) h

/-- Where a placement comes from: its orientation, offset, the loop bounds
and the in-board bounds of every covered coordinate. -/
def PlacementOrigin (s : List (Int × Int)) (ox oy : Int) (pl : Placement) : Prop :=
  pl.cells = s.map (fun q => (cellIdx ox oy q).toNat) ∧
  pl.mask = s.foldl (fun m q => m ||| (1 <<< (cellIdx ox oy q).toNat)) 0 ∧
  0 ≤ ox ∧ 0 ≤ oy ∧
  (∀ q ∈ s, 0 ≤ q.1 ∧ 0 ≤ q.2 ∧ ox + q.1 ≤ 10 ∧ oy + q.2 ≤ 4)

theorem mem_placementsForOrientation {p : Nat} (hp : p < 12) {s : List (Int × Int)}
    (hs : s ∈ orientationsOf p) {pl : Placement}
    (hpl : pl ∈ placementsForOrientation s) :
    ∃ ox oy : Int, PlacementOrigin s ox oy pl := by
  obtain ⟨-, -, -, hqb, -, -, -⟩ := orientation_facts hp hs
  simp only [placementsForOrientation, List.mem_flatMap, List.mem_filterMap] at hpl
  obtain ⟨oy, hoy, ox, hox, hat⟩ := hpl
  rw [intsUpTo_mem] at hoy hox
  rcases placementAt_eq_some.1 hat with ⟨hall, rfl⟩
  refine ⟨ox, oy, rfl, rfl, hox.1, hoy.1, ?_⟩
  intro q hq
  have hmx : q.1 ≤ s.foldl (fun m r => max m r.1) 0 := foldl_max_ge_mem Prod.fst 0 hq
  have hmy : q.2 ≤ s.foldl (fun m r => max m r.2) 0 := foldl_max_ge_mem Prod.snd 0 hq
  have hb := hqb q hq
  have hox2 := hox.2
  have hoy2 := hoy.2
  norm_num [BOARD_WIDTH, BOARD_HEIGHT] at hox2 hoy2
  exact ⟨hb.1, hb.2.1, by omega, by omega⟩

theorem mem_placementsOfPiece {p : Nat} (hp : p < 12) {pl : Placement}
    (hpl : pl ∈ placementsOfPiece p) :
    ∃ s ∈ orientationsOf p, ∃ ox oy : Int, PlacementOrigin s ox oy pl := by
  simp only [placementsOfPiece, List.mem_flatMap] at hpl
  obtain ⟨s, hs, hpls⟩ := hpl
  exact ⟨s, hs, mem_placementsForOrientation hp hs hpls⟩

theorem cellIdx_inj {s : List (Int × Int)} {ox oy : Int}
    (h0x : 0 ≤ ox) (_h0y : 0 ≤ oy)
    (hb : ∀ q ∈ s, 0 ≤ q.1 ∧ 0 ≤ q.2 ∧ ox + q.1 ≤ 10 ∧ oy + q.2 ≤ 4)
    {q r : Int × Int} (hq : q ∈ s) (hr : r ∈ s)
    (h : cellIdx ox oy q = cellIdx ox oy r) : q = r := by
  have hbq := hb q hq
  have hbr := hb r hr
  simp only [cellIdx, BOARD_WIDTH] at h
  have h1 : q.1 = r.1 ∧ q.2 = r.2 := by constructor <;> omega
  exact Prod.ext h1.1 h1.2

/-! ### Bit-level structure of placement masks -/

theorem testBit_foldl_or {cells : List Nat} {m0 b : Nat} :
    (cells.foldl (fun m c => m ||| (1 <<< c)) m0).testBit b = true ↔
      b ∈ cells ∨ m0.testBit b = true := by
  induction cells generalizing m0 with
  | nil => simp
  | cons c cs ih =>
    rw [List.foldl_cons, ih]
    simp only [List.mem_cons, Nat.testBit_or]
    rw [Nat.one_shiftLeft, Nat.testBit_two_pow]
    constructor
    · rintro (h | h)
      · exact Or.inl (Or.inr h)
      · rcases Bool.or_eq_true_iff.1 h with h | h
        · exact Or.inr h
        · rw [decide_eq_true_eq] at h
          exact Or.inl (Or.inl h.symm)
    · rintro ((rfl | h) | h)
      · exact Or.inr (by simp)
      · exact Or.inl h
      · exact Or.inr (by simp [h])

theorem foldl_or_lt {cells : List Nat} {m0 : Nat} (h0 : m0 < 2 ^ 55)
    (hb : ∀ c ∈ cells, c < 55) :
    cells.foldl (fun m c => m ||| (1 <<< c)) m0 < 2 ^ 55 := by
  induction cells generalizing m0 with
  | nil => exact h0
  | cons c cs ih =>
    rw [List.foldl_cons]
    refine ih ?_ (fun d hd => hb d (List.mem_cons_of_mem c hd))
    have hc : c < 55 := hb c (List.mem_cons_self c cs)
    have h1 : (1 <<< c) < 2 ^ 55 := by
      rw [Nat.one_shiftLeft]
      exact Nat.pow_lt_pow_right (by omega) hc
    exact Nat.or_lt_two_pow h0 h1

theorem countP_or_disjoint (l : List Nat) (f g : Nat → Bool)
    (h : ∀ a ∈ l, ¬(f a = true ∧ g a = true)) :
    l.countP (fun a => f a || g a) = l.countP f + l.countP g := by
  induction l with
  | nil => simp
  | cons a as ih =>
    have hrest := ih (fun b hb => h b (List.mem_cons_of_mem a hb))
    by_cases hf : f a = true
    · have hg : g a = false := by
        cases hv : g a
        · rfl
        · exact absurd ⟨hf, hv⟩ (h a (List.mem_cons_self a as))
      rw [List.countP_cons, List.countP_cons, List.countP_cons]
      simp [hf, hg, hrest]
      omega
    · have hf2 : f a = false := by
        cases hv : f a
        · rfl
        · exact absurd hv hf
      rw [List.countP_cons, List.countP_cons, List.countP_cons]
      by_cases hg : g a = true <;> simp [hf2, hg, hrest] <;> omega

theorem popcount64_or_bit {m c : Nat} (hc : c < 64) (hm : m.testBit c = false) :
    popcount64 (m ||| (1 <<< c)) = popcount64 m + 1 := by
  rw [popcount64, popcount64]
  have h1 : (List.range 64).countP (fun i => (m ||| (1 <<< c)).testBit i)
      = (List.range 64).countP (fun i => m.testBit i || decide (c = i)) :=
    List.countP_congr (fun i _ => by
      rw [Nat.testBit_or, Nat.one_shiftLeft, Nat.testBit_two_pow])
  rw [h1, countP_or_disjoint _ _ _ (fun a _ hfg => by
    obtain ⟨hf, hg⟩ := hfg
    rw [decide_eq_true_eq] at hg
    subst hg
    rw [hm] at hf
    exact Bool.false_ne_true hf)]
  have h2 : (List.range 64).countP (fun i => decide (c = i)) = 1 := by
    have he : (fun i => decide (c = i)) = (fun i => i == c) := by
      funext i
      cases hv : decide (c = i)
      · simp only [decide_eq_false_iff_not] at hv
        simp [Ne.symm hv]
      · simp only [decide_eq_true_eq] at hv
        simp [hv]
    rw [he]
    show (List.range 64).count c = 1
    exact List.count_eq_one_of_mem (List.nodup_range 64) (List.mem_range.2 hc)
  rw [h2]

theorem popcount64_foldl_or {cells : List Nat} {m0 : Nat}
    (hb : ∀ c ∈ cells, c < 55) (hnd : cells.Nodup)
    (hdisj : ∀ c ∈ cells, m0.testBit c = false) :
    popcount64 (cells.foldl (fun m c => m ||| (1 <<< c)) m0) =
      popcount64 m0 + cells.length := by
  induction cells generalizing m0 with
  | nil => simp
  | cons c cs ih =>
    rcases List.nodup_cons.1 hnd with ⟨hcn, hnds⟩
    rw [List.foldl_cons]
    rw [ih (fun d hd => hb d (List.mem_cons_of_mem c hd)) hnds ?_]
    · rw [popcount64_or_bit (by have := hb c (List.mem_cons_self c cs); omega)
        (hdisj c (List.mem_cons_self c cs))]
      simp only [List.length_cons]
      omega
    · intro d hd
      rw [Nat.testBit_or]
      have h1 := hdisj d (List.mem_cons_of_mem c hd)
      have h2 : (1 <<< c).testBit d = false := by
        rw [Nat.one_shiftLeft, Nat.testBit_two_pow]
        simp only [decide_eq_false_iff_not]
        intro he
        exact hcn (he ▸ hd)
      rw [h1, h2]
      rfl

/-! ### The placement validity facts -/

theorem popcount64_zero : popcount64 0 = 0 := by decide

theorem placement_facts {p : Nat} (hp : p < 12) {pl : Placement}
    (hpl : pl ∈ placementsOfPiece p) :
    pl.cells.length = sizeOfPiece p ∧
    (∀ c ∈ pl.cells, c < 55) ∧
    pl.cells.Nodup ∧
    pl.mask = pl.cells.foldl (fun m c => m ||| (1 <<< c)) 0 := by
  obtain ⟨s, hs, ox, oy, hcells, hmask, h0x, h0y, hbnd⟩ := mem_placementsOfPiece hp hpl
  obtain ⟨hlen, hnd, -, -, -, -, -⟩ := orientation_facts hp hs
  refine ⟨?_, ?_, ?_, ?_⟩
  · rw [hcells, List.length_map, hlen]
  · intro c hc
    rw [hcells] at hc
    rcases List.mem_map.1 hc with ⟨q, hq, rfl⟩
    have := hbnd q hq
    simp only [cellIdx, BOARD_WIDTH]
    omega
  · rw [hcells]
    refine List.Nodup.map_on ?_ hnd
    intro q hq r hr he
    refine cellIdx_inj h0x h0y hbnd hq hr ?_
    have h1 := hbnd q hq
    have h2 := hbnd r hr
    simp only [cellIdx, BOARD_WIDTH] at he ⊢
    omega
  · rw [hcells, hmask, List.foldl_map]

theorem placementOf_mem {p idx : Nat} (hidx : idx < numPl p) :
    placementOf p idx ∈ placementsOfPiece p := by
  rw [placementOf, List.getD_eq_getElem?_getD]
  rw [List.getElem?_eq_getElem (by exact hidx)]
  exact List.getElem_mem _

theorem pieceMask_eq_foldl {p idx : Nat} (hp : p < 12) (hidx : idx < numPl p) :
    pieceMask p idx = (pieceCells p idx).foldl (fun m c => m ||| (1 <<< c)) 0 :=
  (placement_facts hp (placementOf_mem hidx)).2.2.2

theorem pieceCells_lt {p idx : Nat} (hp : p < 12) (hidx : idx < numPl p) :
    ∀ c ∈ pieceCells p idx, c < 55 :=
  (placement_facts hp (placementOf_mem hidx)).2.1

theorem pieceCells_nodup {p idx : Nat} (hp : p < 12) (hidx : idx < numPl p) :
    (pieceCells p idx).Nodup :=
  (placement_facts hp (placementOf_mem hidx)).2.2.1

theorem pieceCells_length {p idx : Nat} (hp : p < 12) (hidx : idx < numPl p) :
    (pieceCells p idx).length = sizeOfPiece p :=
  (placement_facts hp (placementOf_mem hidx)).1

theorem pieceMask_testBit {p idx : Nat} (hp : p < 12) (hidx : idx < numPl p) {b : Nat} :
    (pieceMask p idx).testBit b = true ↔ b ∈ pieceCells p idx := by
  rw [pieceMask_eq_foldl hp hidx, testBit_foldl_or]
  simp [Nat.zero_testBit]

theorem pieceMask_lt {p idx : Nat} (hp : p < 12) (hidx : idx < numPl p) :
    pieceMask p idx < 2 ^ 55 := by
  rw [pieceMask_eq_foldl hp hidx]
  exact foldl_or_lt (by norm_num) (pieceCells_lt hp hidx)

theorem pieceMask_popcount {p idx : Nat} (hp : p < 12) (hidx : idx < numPl p) :
    popcount64 (pieceMask p idx) = (pieceCells p idx).length := by
  rw [pieceMask_eq_foldl hp hidx]
  rw [popcount64_foldl_or (pieceCells_lt hp hidx) (pieceCells_nodup hp hidx)
    (fun c _ => Nat.zero_testBit c), popcount64_zero]
  omega

theorem pieceMask_ne_zero {p idx : Nat} (hp : p < 12) (hidx : idx < numPl p) :
    pieceMask p idx ≠ 0 := by
  intro h0
  have hlen := pieceCells_length hp hidx
  have hsz := sizeOfPiece_pos p hp
  have : (pieceCells p idx) ≠ [] := by
    intro he
    rw [he] at hlen
    simp at hlen
    omega
  obtain ⟨c, hc⟩ := List.exists_mem_of_ne_nil _ this
  have := (pieceMask_testBit hp hidx).2 hc
  rw [h0, Nat.zero_testBit] at this
  exact Bool.false_ne_true this

theorem placementsByCell_mem {p c idx : Nat} :
    idx ∈ placementsByCell p c ↔ idx < numPl p ∧ c ∈ pieceCells p idx := by
  rw [placementsByCell, List.mem_filter, List.mem_range]
  constructor
  · intro ⟨h1, h2⟩
    exact ⟨h1, by simpa [pieceCells] using h2⟩
  · intro ⟨h1, h2⟩
    exact ⟨h1, by simpa [pieceCells] using h2⟩

theorem placementsByCell_nodup (p c : Nat) : (placementsByCell p c).Nodup :=
  List.Nodup.filter _ (List.nodup_range _)

/-! ### Reconstructing a placement's origin from its mask -/

theorem origin_testBit {s : List (Int × Int)} {ox oy : Int} {pl : Placement}
    (h : PlacementOrigin s ox oy pl) {b : Nat} :
    pl.mask.testBit b = true ↔ ∃ q ∈ s, (b : Int) = cellIdx ox oy q := by
  obtain ⟨hc, hm, h0x, h0y, hb⟩ := h
  have hmask2 : pl.mask =
      (s.map (fun q => (cellIdx ox oy q).toNat)).foldl (fun m c => m ||| (1 <<< c)) 0 := by
    rw [hm, List.foldl_map]
  rw [hmask2, testBit_foldl_or]
  simp only [Nat.zero_testBit, Bool.false_eq_true, or_false, List.mem_map]
  constructor
  · rintro ⟨q, hq, rfl⟩
    have hbq := hb q hq
    have hge : 0 ≤ cellIdx ox oy q := by
      simp only [cellIdx, BOARD_WIDTH]
      omega
    exact ⟨q, hq, by omega⟩
  · rintro ⟨q, hq, hbe⟩
    exact ⟨q, hq, by omega⟩

theorem origin_recover {p : Nat} (hp : p < 12)
    {s1 s2 : List (Int × Int)} {ox1 oy1 ox2 oy2 : Int} {pl1 pl2 : Placement}
    (hs1 : s1 ∈ orientationsOf p) (hs2 : s2 ∈ orientationsOf p)
    (h1 : PlacementOrigin s1 ox1 oy1 pl1) (h2 : PlacementOrigin s2 ox2 oy2 pl2)
    (hm : pl1.mask = pl2.mask) : s1 = s2 ∧ ox1 = ox2 ∧ oy1 = oy2 := by
  obtain ⟨-, hnd1, hsort1, -, hx1, hy1, -⟩ := orientation_facts hp hs1
  obtain ⟨-, hnd2, hsort2, -, hx2, hy2, -⟩ := orientation_facts hp hs2
  obtain ⟨hc1, hm1, h0x1, h0y1, hb1⟩ := h1
  obtain ⟨hc2, hm2, h0x2, h0y2, hb2⟩ := h2
  -- rows of every covered cell are at least the placement's row offset,
  -- and the offset row is attained (a shape point with y = 0 exists)
  have row_lb : ∀ {s ox oy pl}, PlacementOrigin s ox oy pl →
      ∀ b : Nat, pl.mask.testBit b = true → oy.toNat ≤ b / 11 ∧ ox.toNat ≤ b % 11 := by
    intro s ox oy pl h b hbit
    obtain ⟨q, hq, hbe⟩ := (origin_testBit h).1 hbit
    obtain ⟨-, -, h0x, h0y, hb⟩ := h
    have := hb q hq
    simp only [cellIdx, BOARD_WIDTH] at hbe
    omega
  have row_att : ∀ {s ox oy pl}, PlacementOrigin s ox oy pl → (∃ a ∈ s, a.2 = 0) →
      ∃ b : Nat, pl.mask.testBit b = true ∧ b / 11 = oy.toNat := by
    intro s ox oy pl h hatt
    have hO := h
    obtain ⟨q, hq, hq2⟩ := hatt
    obtain ⟨-, -, h0x, h0y, hb⟩ := h
    have hbq := hb q hq
    refine ⟨(cellIdx ox oy q).toNat, (origin_testBit hO).2 ⟨q, hq, ?_⟩, ?_⟩
    · simp only [cellIdx, BOARD_WIDTH]
      omega
    · simp only [cellIdx, BOARD_WIDTH]
      omega
  have col_att : ∀ {s ox oy pl}, PlacementOrigin s ox oy pl → (∃ a ∈ s, a.1 = 0) →
      ∃ b : Nat, pl.mask.testBit b = true ∧ b % 11 = ox.toNat := by
    intro s ox oy pl h hatt
    have hO := h
    obtain ⟨q, hq, hq1⟩ := hatt
    obtain ⟨-, -, h0x, h0y, hb⟩ := h
    have hbq := hb q hq
    refine ⟨(cellIdx ox oy q).toNat, (origin_testBit hO).2 ⟨q, hq, ?_⟩, ?_⟩
    · simp only [cellIdx, BOARD_WIDTH]
      omega
    · simp only [cellIdx, BOARD_WIDTH]
      omega
  have hO1 : PlacementOrigin s1 ox1 oy1 pl1 := ⟨hc1, hm1, h0x1, h0y1, hb1⟩
  have hO2 : PlacementOrigin s2 ox2 oy2 pl2 := ⟨hc2, hm2, h0x2, h0y2, hb2⟩
  have hoye : oy1 = oy2 := by
    obtain ⟨b1, hb1t, hb1r⟩ := row_att hO1 hy1
    obtain ⟨b2, hb2t, hb2r⟩ := row_att hO2 hy2
    have l1 := (row_lb hO2 b1 (hm ▸ hb1t)).1
    have l2 := (row_lb hO1 b2 (hm ▸ hb2t)).1
    omega
  have hoxe : ox1 = ox2 := by
    obtain ⟨b1, hb1t, hb1r⟩ := col_att hO1 hx1
    obtain ⟨b2, hb2t, hb2r⟩ := col_att hO2 hx2
    have l1 := (row_lb hO2 b1 (hm ▸ hb1t)).2
    have l2 := (row_lb hO1 b2 (hm ▸ hb2t)).2
    omega
  subst hoye
  subst hoxe
  refine ⟨?_, rfl, rfl⟩
  have hmem : ∀ a, a ∈ s1 ↔ a ∈ s2 := by
    have hdir : ∀ {sa sb : List (Int × Int)} {pla plb : Placement},
        PlacementOrigin sa ox1 oy1 pla → PlacementOrigin sb ox1 oy1 plb →
        pla.mask = plb.mask → ∀ a ∈ sa, a ∈ sb := by
      intro sa sb pla plb ha hb hmab a hasa
      have hbita : pla.mask.testBit (cellIdx ox1 oy1 a).toNat = true := by
        refine (origin_testBit ha).2 ⟨a, hasa, ?_⟩
        obtain ⟨-, -, h0x, h0y, hbnd⟩ := ha
        have := hbnd a hasa
        simp only [cellIdx, BOARD_WIDTH]
        omega
      obtain ⟨r, hrb, hre⟩ := (origin_testBit hb).1 (hmab ▸ hbita)
      obtain ⟨-, -, h0x, h0y, hbnda⟩ := ha
      obtain ⟨-, -, -, -, hbndb⟩ := hb
      have hba := hbnda a hasa
      have hbr := hbndb r hrb
      have : a = r := by
        simp only [cellIdx, BOARD_WIDTH] at hre ⊢
        refine Prod.ext ?_ ?_ <;> omega
      exact this ▸ hrb
    intro a
    exact ⟨hdir hO1 hO2 hm a, hdir hO2 hO1 hm.symm a⟩
  exact sorted_nodup_eq_of_mem_iff hsort1 hsort2 hnd1 hnd2 hmem

/-! ### Per-piece distinctness of placement masks -/

theorem nodup_filterMap_on {α β : Type} {l : List α} {f : α → Option β} (hl : l.Nodup)
    (h : ∀ a ∈ l, ∀ a2 ∈ l, ∀ b, f a = some b → f a2 = some b → a = a2) :
    (l.filterMap f).Nodup := by
  induction l with
  | nil => simp
  | cons a as ih =>
    rcases List.nodup_cons.1 hl with ⟨hna, hnas⟩
    have hrest : (as.filterMap f).Nodup :=
      ih hnas (fun x hx y hy b hxb hyb =>
        h x (List.mem_cons_of_mem a hx) y (List.mem_cons_of_mem a hy) b hxb hyb)
    cases hfa : f a with
    | none => simpa [List.filterMap_cons, hfa] using hrest
    | some b =>
      rw [List.filterMap_cons, hfa]
      refine List.nodup_cons.2 ⟨?_, hrest⟩
      intro hbmem
      rcases List.mem_filterMap.1 hbmem with ⟨a2, ha2, hfa2⟩
      have := h a (List.mem_cons_self a as) a2 (List.mem_cons_of_mem a ha2) b hfa hfa2
      exact hna (this ▸ ha2)

/-- The horizontal extent fold of `precomputePlacements`. -/
def maxXf (s : List (Int × Int)) : Int := s.foldl (fun m q => max m q.1) 0

/-- The vertical extent fold of `precomputePlacements`. -/
def maxYf (s : List (Int × Int)) : Int := s.foldl (fun m q => max m q.2) 0

theorem placementsForOrientation_eq (s : List (Int × Int)) :
    placementsForOrientation s =
      (intsUpTo ((BOARD_HEIGHT : Int) - (maxYf s + 1))).flatMap
        (fun oy => (intsUpTo ((BOARD_WIDTH : Int) - (maxXf s + 1))).filterMap
          (fun ox => placementAt s ox oy)) := rfl

theorem placementAt_origin {p : Nat} (hp : p < 12) {s : List (Int × Int)}
    (hs : s ∈ orientationsOf p) {ox oy : Int} {pl : Placement}
    (h0x : 0 ≤ ox) (h0y : 0 ≤ oy)
    (hux : ox ≤ (BOARD_WIDTH : Int) - (maxXf s + 1))
    (huy : oy ≤ (BOARD_HEIGHT : Int) - (maxYf s + 1))
    (hat : placementAt s ox oy = some pl) : PlacementOrigin s ox oy pl := by
  obtain ⟨-, -, -, hqb, -, -, -⟩ := orientation_facts hp hs
  rcases placementAt_eq_some.1 hat with ⟨hall, rfl⟩
  refine ⟨rfl, rfl, h0x, h0y, ?_⟩
  intro q hq
  have hmx : q.1 ≤ maxXf s := foldl_max_ge_mem Prod.fst 0 hq
  have hmy : q.2 ≤ maxYf s := foldl_max_ge_mem Prod.snd 0 hq
  have hb := hqb q hq
  norm_num [BOARD_WIDTH, BOARD_HEIGHT] at hux huy
  exact ⟨hb.1, hb.2.1, by omega, by omega⟩

theorem masksForOrientation_nodup {p : Nat} (hp : p < 12) {s : List (Int × Int)}
    (hs : s ∈ orientationsOf p) :
    ((placementsForOrientation s).map Placement.mask).Nodup := by
  rw [placementsForOrientation_eq, List.map_flatMap]
  refine List.nodup_flatMap.2 ⟨?_, ?_⟩
  · intro oy hoy
    rw [intsUpTo_mem] at hoy
    rw [List.map_filterMap]
    refine nodup_filterMap_on (intsUpTo_nodup _) ?_
    intro ox hox ox2 hox2 b hb1 hb2
    rw [intsUpTo_mem] at hox hox2
    cases hat1 : placementAt s ox oy with
    | none => rw [hat1] at hb1; exact absurd hb1 (by simp)
    | some pl1 =>
      cases hat2 : placementAt s ox2 oy with
      | none => rw [hat2] at hb2; exact absurd hb2 (by simp)
      | some pl2 =>
        rw [hat1] at hb1
        rw [hat2] at hb2
        simp only [Option.map_some, Option.map_some', Option.some_inj] at hb1 hb2
        have ho1 := placementAt_origin hp hs hox.1 hoy.1 hox.2 hoy.2 hat1
        have ho2 := placementAt_origin hp hs hox2.1 hoy.1 hox2.2 hoy.2 hat2
        exact (origin_recover hp hs hs ho1 ho2 (by rw [hb1, hb2])).2.1
  · refine List.Pairwise.imp_of_mem ?_ (intsUpTo_nodup _)
    intro oy1 oy2 h1 h2 hne
    rw [intsUpTo_mem] at h1 h2
    intro m hm1 hm2
    simp only [List.map_filterMap, List.mem_filterMap] at hm1 hm2
    obtain ⟨ox1, hox1, hat1⟩ := hm1
    obtain ⟨ox2, hox2, hat2⟩ := hm2
    rw [intsUpTo_mem] at hox1 hox2
    cases he1 : placementAt s ox1 oy1 with
    | none => rw [he1] at hat1; exact absurd hat1 (by simp)
    | some pl1 =>
      cases he2 : placementAt s ox2 oy2 with
      | none => rw [he2] at hat2; exact absurd hat2 (by simp)
      | some pl2 =>
        rw [he1] at hat1
        rw [he2] at hat2
        simp only [Option.map_some, Option.map_some', Option.some_inj] at hat1 hat2
        have ho1 := placementAt_origin hp hs hox1.1 h1.1 hox1.2 h1.2 he1
        have ho2 := placementAt_origin hp hs hox2.1 h2.1 hox2.2 h2.2 he2
        exact hne (origin_recover hp hs hs ho1 ho2 (by rw [hat1, hat2])).2.2

theorem piece_masks_nodup {p : Nat} (hp : p < 12) :
    ((placementsOfPiece p).map Placement.mask).Nodup := by
  have he : placementsOfPiece p = (orientationsOf p).flatMap placementsForOrientation := rfl
  rw [he, List.map_flatMap]
  refine List.nodup_flatMap.2 ⟨?_, ?_⟩
  · intro s hs
    exact masksForOrientation_nodup hp hs
  · refine List.Pairwise.imp_of_mem ?_ (generateOrientations_nodup _)
    intro s1 s2 hs1 hs2 hne
    intro m hm1 hm2
    rw [List.mem_map] at hm1 hm2
    obtain ⟨pl1, hpl1, hmask1⟩ := hm1
    obtain ⟨pl2, hpl2, hmask2⟩ := hm2
    obtain ⟨ox1, oy1, ho1⟩ := mem_placementsForOrientation hp hs1 hpl1
    obtain ⟨ox2, oy2, ho2⟩ := mem_placementsForOrientation hp hs2 hpl2
    exact hne (origin_recover hp hs1 hs2 ho1 ho2 (by rw [hmask1, hmask2])).1

theorem getD_mem {α : Type} {l : List α} {i : Nat} (d : α) (h : i < l.length) :
    l.getD i d ∈ l := by
  induction l generalizing i with
  | nil => simp at h
  | cons a as ih =>
    cases i with
    | zero => exact List.mem_cons_self a as
    | succ j =>
      simp only [List.getD_cons_succ]
      exact List.mem_cons_of_mem a (ih (by simpa using h))

theorem nodup_getD_inj {α : Type} {l : List α} (d : α) (hnd : l.Nodup) :
    ∀ {i j : Nat}, i < l.length → j < l.length → l.getD i d = l.getD j d → i = j := by
  induction l with
  | nil => intro i j hi; simp at hi
  | cons a as ih =>
    intro i j hi hj he
    rcases List.nodup_cons.1 hnd with ⟨hna, hnas⟩
    cases i with
    | zero =>
      cases j with
      | zero => rfl
      | succ j2 =>
        simp only [List.getD_cons_zero, List.getD_cons_succ] at he
        exact absurd (he ▸ getD_mem d (by simpa using hj)) hna
    | succ i2 =>
      cases j with
      | zero =>
        simp only [List.getD_cons_zero, List.getD_cons_succ] at he
        exact absurd (he ▸ getD_mem d (by simpa using hi)) hna
      | succ j2 =>
        simp only [List.getD_cons_succ] at he
        have := ih hnas (by simpa using hi) (by simpa using hj) he
        omega

theorem getD_map_mask (L : List Placement) :
    ∀ {idx : Nat}, idx < L.length →
    (L.getD idx { mask := 0, cells := [] }).mask = (L.map Placement.mask).getD idx 0 := by
  induction L with
  | nil => intro idx h; simp at h
  | cons pl pls ih =>
    intro idx h
    cases idx with
    | zero => simp
    | succ j =>
      simp only [List.getD_cons_succ, List.map_cons]
      exact ih (by simpa using h)

theorem pieceMask_inj {p idx1 idx2 : Nat} (hp : p < 12)
    (h1 : idx1 < numPl p) (h2 : idx2 < numPl p)
    (hm : pieceMask p idx1 = pieceMask p idx2) : idx1 = idx2 := by
  have hnd := piece_masks_nodup hp
  have hlen : (placementsOfPiece p).length = numPl p := rfl
  have e1 : pieceMask p idx1 = ((placementsOfPiece p).map Placement.mask).getD idx1 0 :=
    getD_map_mask _ (by rw [hlen]; exact h1)
  have e2 : pieceMask p idx2 = ((placementsOfPiece p).map Placement.mask).getD idx2 0 :=
    getD_map_mask _ (by rw [hlen]; exact h2)
  rw [e1, e2] at hm
  exact nodup_getD_inj 0 hnd (by simpa using h1) (by simpa using h2) hm

/-! ### Bitmask helpers -/

theorem and_eq_zero_iff_testBit {m n : Nat} :
    m &&& n = 0 ↔ ∀ i, m.testBit i = false ∨ n.testBit i = false := by
  constructor
  · intro h i
    have := congrArg (fun x => x.testBit i) h
    simp only [Nat.testBit_and, Nat.zero_testBit] at this
    rcases Bool.and_eq_false_iff.1 this with h | h
    · exact Or.inl h
    · exact Or.inr h
  · intro h
    refine Nat.eq_of_testBit_eq ?_
    intro i
    rw [Nat.testBit_and, Nat.zero_testBit]
    rcases h i with h2 | h2 <;> simp [h2]

theorem or_and_eq_zero_left {a b m : Nat} (h : (a ||| b) &&& m = 0) : a &&& m = 0 := by
  rw [and_eq_zero_iff_testBit] at h ⊢
  intro i
  rcases h i with h2 | h2
  · rw [Nat.testBit_or] at h2
    exact Or.inl (Bool.or_eq_false_iff.1 h2).1
  · exact Or.inr h2

theorem or_and_eq_zero_right {a b m : Nat} (h : (a ||| b) &&& m = 0) : b &&& m = 0 := by
  rw [and_eq_zero_iff_testBit] at h ⊢
  intro i
  rcases h i with h2 | h2
  · rw [Nat.testBit_or] at h2
    exact Or.inl (Bool.or_eq_false_iff.1 h2).2
  · exact Or.inr h2

theorem and_comm_zero {a b : Nat} (h : a &&& b = 0) : b &&& a = 0 := by
  rw [and_eq_zero_iff_testBit] at h ⊢
  intro i
  exact (h i).symm

theorem and_or_eq_zero {a m n : Nat} (h1 : a &&& m = 0) (h2 : a &&& n = 0) :
    a &&& (m ||| n) = 0 := by
  rw [and_eq_zero_iff_testBit] at h1 h2 ⊢
  intro i
  rcases h1 i with h | h
  · exact Or.inl h
  · rcases h2 i with h3 | h3
    · exact Or.inl h3
    · exact Or.inr (by rw [Nat.testBit_or, h, h3]; rfl)

theorem popcount64_or_disjoint {a b : Nat} (h : a &&& b = 0) :
    popcount64 (a ||| b) = popcount64 a + popcount64 b := by
  rw [popcount64, popcount64, popcount64]
  have h1 : (List.range 64).countP (fun i => (a ||| b).testBit i)
      = (List.range 64).countP (fun i => a.testBit i || b.testBit i) :=
    List.countP_congr (fun i _ => by rw [Nat.testBit_or])
  rw [h1]
  refine countP_or_disjoint _ _ _ ?_
  intro i _
  rintro ⟨ha, hb⟩
  rcases and_eq_zero_iff_testBit.1 h i with h2 | h2
  · rw [ha] at h2; exact absurd h2 (by simp)
  · rw [hb] at h2; exact absurd h2 (by simp)

/-- The fold of bitwise-or of `f` over a list of piece ids. -/
def orFold (ps : List Nat) (f : Nat → Nat) : Nat :=
  ps.foldl (fun m p => m ||| f p) 0

theorem foldl_or_acc (ps : List Nat) (f : Nat → Nat) :
    ∀ a : Nat, ps.foldl (fun m p => m ||| f p) a = a ||| orFold ps f := by
  induction ps with
  | nil => intro a; simp [orFold]
  | cons p rest ih =>
    intro a
    rw [List.foldl_cons, ih]
    have h2 : orFold (p :: rest) f = f p ||| orFold rest f := by
      rw [orFold, List.foldl_cons, Nat.zero_or, ih (f p)]
    rw [h2, Nat.or_assoc]

theorem orFold_cons (p : Nat) (ps : List Nat) (f : Nat → Nat) :
    orFold (p :: ps) f = f p ||| orFold ps f := by
  rw [orFold, List.foldl_cons, Nat.zero_or, foldl_or_acc]

theorem orFold_testBit {ps : List Nat} {f : Nat → Nat} {i : Nat} :
    (orFold ps f).testBit i = true ↔ ∃ p ∈ ps, (f p).testBit i = true := by
  induction ps with
  | nil => simp [orFold, Nat.zero_testBit]
  | cons p rest ih =>
    rw [orFold_cons, Nat.testBit_or]
    simp only [Bool.or_eq_true, ih, List.mem_cons]
    constructor
    · rintro (h | ⟨q, hq, h⟩)
      · exact ⟨p, Or.inl rfl, h⟩
      · exact ⟨q, Or.inr hq, h⟩
    · rintro ⟨q, rfl | hq, h⟩
      · exact Or.inl h
      · exact Or.inr ⟨q, hq, h⟩

theorem orFold_lt {ps : List Nat} {f : Nat → Nat} (h : ∀ p ∈ ps, f p < 2 ^ 55) :
    orFold ps f < 2 ^ 55 := by
  induction ps with
  | nil => rw [orFold]; norm_num
  | cons p rest ih =>
    rw [orFold_cons]
    exact Nat.or_lt_two_pow (h p (List.mem_cons_self p rest))
      (ih (fun q hq => h q (List.mem_cons_of_mem p hq)))

theorem orFold_and_eq_zero {ps : List Nat} {f : Nat → Nat} {m : Nat}
    (h : ∀ p ∈ ps, f p &&& m = 0) : orFold ps f &&& m = 0 := by
  induction ps with
  | nil => simp [orFold]
  | cons p rest ih =>
    rw [orFold_cons]
    refine and_comm_zero (and_or_eq_zero ?_ ?_)
    · exact and_comm_zero (h p (List.mem_cons_self p rest))
    · exact and_comm_zero (ih (fun q hq => h q (List.mem_cons_of_mem p hq)))

theorem orFold_popcount {ps : List Nat} {f : Nat → Nat}
    (hdis : ∀ p ∈ ps, ∀ q ∈ ps, p ≠ q → f p &&& f q = 0) (hnd : ps.Nodup) :
    popcount64 (orFold ps f) = (ps.map (fun p => popcount64 (f p))).sum := by
  induction ps with
  | nil => simp [orFold, popcount64_zero]
  | cons p rest ih =>
    rcases List.nodup_cons.1 hnd with ⟨hp, hrest⟩
    rw [orFold_cons, popcount64_or_disjoint, List.map_cons, List.sum_cons]
    · rw [ih (fun a ha b hb hab =>
        hdis a (List.mem_cons_of_mem p ha) b (List.mem_cons_of_mem p hb) hab) hrest]
    · refine and_comm_zero (orFold_and_eq_zero ?_)
      intro q hq
      exact hdis q (List.mem_cons_of_mem p hq) p (List.mem_cons_self p rest)
        (fun he => hp (he ▸ hq))

/-- A 55-bit word with 55 set bits is the full board. -/
theorem full_of_popcount {m : Nat} (hlt : m < 2 ^ 55) (hpc : popcount64 m = 55) :
    m = 2 ^ 55 - 1 := by
  have hsplit : List.range 64 = List.range 55 ++ (List.range 9).map (fun i => 55 + i) := by
    have : (64 : Nat) = 55 + 9 := by norm_num
    rw [this, List.range_add]
  have hhigh : ((List.range 9).map (fun i => 55 + i)).countP (fun i => m.testBit i) = 0 := by
    rw [List.countP_eq_zero]
    intro a ha
    rcases List.mem_map.1 ha with ⟨i, -, rfl⟩
    have : m < 2 ^ (55 + i) := lt_of_lt_of_le hlt (Nat.pow_le_pow_right (by omega) (by omega))
    simp [Nat.testBit_eq_false_of_lt this]
  rw [popcount64, hsplit, List.countP_append, hhigh] at hpc
  have hall : ∀ i ∈ List.range 55, m.testBit i = true := by
    refine List.countP_eq_length.1 ?_
    rw [List.length_range]
    simpa using hpc
  refine Nat.eq_of_testBit_eq ?_
  intro i
  rw [Nat.testBit_two_pow_sub_one]
  by_cases hi : i < 55
  · rw [hall i (List.mem_range.2 hi)]
    simp [hi]
  · have : m < 2 ^ i := lt_of_lt_of_le hlt (Nat.pow_le_pow_right (by omega) (by omega))
    rw [Nat.testBit_eq_false_of_lt this]
    simp [hi]

theorem and_full_eq_self {a : Nat} (ha : a < 2 ^ 55) : a &&& (2 ^ 55 - 1) = a := by
  refine Nat.eq_of_testBit_eq ?_
  intro i
  rw [Nat.testBit_and, Nat.testBit_two_pow_sub_one]
  by_cases hi : i < 55
  · simp [hi]
  · have : a < 2 ^ i := lt_of_lt_of_le ha (Nat.pow_le_pow_right (by omega) (by omega))
    rw [Nat.testBit_eq_false_of_lt this]
    simp

/-! ### List update helpers -/

theorem getD_set {α : Type} (l : List α) (i j : Nat) (a d : α) :
    (l.set i a).getD j d = if i = j ∧ i < l.length then a else l.getD j d := by
  rw [List.getD_eq_getElem?_getD, List.getElem?_set, List.getD_eq_getElem?_getD]
  by_cases hij : i = j
  · subst hij
    by_cases hlen : i < l.length
    · simp [hlen]
    · rw [if_pos rfl, if_neg hlen, if_neg (by tauto)]
      rw [List.getElem?_eq_none (by omega)]
  · simp [hij]

theorem set_self_of_getD {l : List Bool} {p : Nat} (h : l.getD p false = false) :
    l.set p false = l := by
  induction l generalizing p with
  | nil => rfl
  | cons a as ih =>
    cases p with
    | zero =>
      simp only [List.getD_cons_zero] at h
      rw [h, List.set]
    | succ q =>
      simp only [List.getD_cons_succ] at h
      rw [List.set, ih h]

theorem lists_eq_of_getD {l1 l2 : List Char} (hlen : l1.length = l2.length)
    (h : ∀ c < l1.length, l1.getD c '.' = l2.getD c '.') : l1 = l2 := by
  refine List.ext_getElem hlen ?_
  intro n h1 h2
  have := h n h1
  rw [List.getD_eq_getElem?_getD, List.getD_eq_getElem?_getD,
    List.getElem?_eq_getElem h1, List.getElem?_eq_getElem h2] at this
  simpa using this

theorem countP_swap_one {l : List Nat} {f g : Nat → Bool} {p : Nat} (hnd : l.Nodup)
    (hp : p ∈ l) (hf : f p = true) (hg : g p = false)
    (hsame : ∀ q ∈ l, q ≠ p → f q = g q) :
    l.countP f = l.countP g + 1 := by
  induction l with
  | nil => exact absurd hp (List.not_mem_nil p)
  | cons a as ih =>
    rcases List.nodup_cons.1 hnd with ⟨hna, hnas⟩
    rw [List.countP_cons, List.countP_cons]
    rcases List.mem_cons.1 hp with he | hp2
    · subst he
      have hsame2 : ∀ q ∈ as, f q = g q := fun q hq =>
        hsame q (List.mem_cons_of_mem _ hq) (fun he2 => hna (he2 ▸ hq))
      have hcnt : as.countP f = as.countP g := by
        refine List.countP_congr ?_
        intro q hq
        rw [hsame2 q hq]
      rw [hcnt, hf, hg]
      simp
    · have hne : a ≠ p := fun he => hna (he ▸ hp2)
      rw [ih hnas hp2 (fun q hq hqp => hsame q (List.mem_cons_of_mem a hq) hqp),
        hsame a (List.mem_cons_self a as) hne]
      omega

/-! ### Board buffer writes -/

theorem writeCells_length (cells : List Nat) (ch : Char) (b : List Char) :
    (writeCells cells ch b).length = b.length := by
  induction cells generalizing b with
  | nil => rfl
  | cons c cs ih =>
    rw [writeCells, List.foldl_cons]
    have : cs.foldl (fun bb cell => bb.set cell ch) (b.set c ch) =
        writeCells cs ch (b.set c ch) := rfl
    rw [this, ih, List.length_set]

theorem writeCells_getD_not_mem {cells : List Nat} {ch : Char} {b : List Char} {w : Nat}
    (h : w ∉ cells) : (writeCells cells ch b).getD w '.' = b.getD w '.' := by
  induction cells generalizing b with
  | nil => rfl
  | cons c cs ih =>
    rw [writeCells, List.foldl_cons]
    have he : cs.foldl (fun bb cell => bb.set cell ch) (b.set c ch) =
        writeCells cs ch (b.set c ch) := rfl
    rw [he, ih (fun hw => h (List.mem_cons_of_mem c hw)), getD_set]
    rw [if_neg ?_]
    rintro ⟨rfl, -⟩
    exact h (List.mem_cons_self c cs)

theorem writeCells_getD_mem {cells : List Nat} {ch : Char} {b : List Char} {w : Nat}
    (hmem : w ∈ cells) (hlt : w < b.length) :
    (writeCells cells ch b).getD w '.' = ch := by
  induction cells generalizing b with
  | nil => exact absurd hmem (List.not_mem_nil w)
  | cons c cs ih =>
    rw [writeCells, List.foldl_cons]
    have he : cs.foldl (fun bb cell => bb.set cell ch) (b.set c ch) =
        writeCells cs ch (b.set c ch) := rfl
    rw [he]
    by_cases hw : w ∈ cs
    · exact ih hw (by rw [List.length_set]; exact hlt)
    · rcases List.mem_cons.1 hmem with rfl | h2
      · rw [writeCells_getD_not_mem hw, getD_set, if_pos ⟨rfl, hlt⟩]
      · exact absurd h2 hw

/-! ### Rendering assignments of placements onto a board buffer -/

/-- Write, for every piece `p` of `ps` selected by `sel`, the letter of `p`
into the cells of its assigned placement `t p`. -/
def renderFor : List Nat → (Nat → Bool) → (Nat → Nat) → List Char → List Char
  | [], _, _, b => b
  | p :: ps, sel, t, b =>
      renderFor ps sel t
        (if sel p then writeCells (pieceCells p (t p)) (letterOf p) b else b)

/-- The snapshot a tiling `t` of the unused pieces produces on buffer `b`. -/
def renderT (b : List Char) (u : List Bool) (t : Nat → Nat) : List Char :=
  renderFor (List.range NUM_PIECES) (fun p => !(u.getD p false)) t b

/-- The buffer obtained by writing the used pieces' committed placements on
an empty board. -/
def renderUsed (u : List Bool) (t : Nat → Nat) : List Char :=
  renderFor (List.range NUM_PIECES) (fun p => u.getD p false) t
    (List.replicate NUM_CELLS '.')

theorem renderFor_length (ps : List Nat) (sel : Nat → Bool) (t : Nat → Nat)
    (b : List Char) : (renderFor ps sel t b).length = b.length := by
  induction ps generalizing b with
  | nil => rfl
  | cons p rest ih =>
    rw [renderFor, ih]
    by_cases h : sel p
    · rw [if_pos h, writeCells_length]
    · rw [if_neg h]

theorem renderFor_getD_not_mem {ps : List Nat} {sel : Nat → Bool} {t : Nat → Nat}
    {b : List Char} {w : Nat}
    (h : ∀ p ∈ ps, sel p = true → w ∉ pieceCells p (t p)) :
    (renderFor ps sel t b).getD w '.' = b.getD w '.' := by
  induction ps generalizing b with
  | nil => rfl
  | cons p rest ih =>
    rw [renderFor, ih (fun q hq hsq => h q (List.mem_cons_of_mem p hq) hsq)]
    by_cases hs : sel p
    · rw [if_pos hs, writeCells_getD_not_mem (h p (List.mem_cons_self p rest) hs)]
    · rw [if_neg hs]

theorem renderFor_getD_mem {ps : List Nat} {sel : Nat → Bool} {t : Nat → Nat}
    {b : List Char} {w : Nat} {pstar : Nat}
    (hmem : pstar ∈ ps) (hsel : sel pstar = true)
    (hw : w ∈ pieceCells pstar (t pstar)) (hwl : w < b.length)
    (hdis : ∀ q ∈ ps, sel q = true → q ≠ pstar → w ∉ pieceCells q (t q)) :
    (renderFor ps sel t b).getD w '.' = letterOf pstar := by
  induction ps generalizing b with
  | nil => exact absurd hmem (List.not_mem_nil pstar)
  | cons p rest ih =>
    rcases List.mem_cons.1 hmem with rfl | hmem2
    · rw [renderFor, if_pos hsel]
      by_cases hrest : pstar ∈ rest
      · exact ih hrest (by rw [writeCells_length]; exact hwl) (fun q hq hsq hqp =>
          hdis q (List.mem_cons_of_mem pstar hq) hsq hqp)
      · rw [renderFor_getD_not_mem (fun q hq hsq => ?_)]
        · exact writeCells_getD_mem hw hwl
        · by_cases hqp : q = pstar
          · subst hqp
            exact absurd hq hrest
          · exact hdis q (List.mem_cons_of_mem pstar hq) hsq hqp
    · rw [renderFor]
      have hblen : (if sel p then writeCells (pieceCells p (t p)) (letterOf p) b
          else b).length = b.length := by
        by_cases hs : sel p
        · rw [if_pos hs, writeCells_length]
        · rw [if_neg hs]
      exact ih hmem2 (by rw [hblen]; exact hwl)
        (fun q hq hsq hqp => hdis q (List.mem_cons_of_mem p hq) hsq hqp)

theorem renderFor_congr {ps : List Nat} {sel1 sel2 : Nat → Bool} {t1 t2 : Nat → Nat}
    {b : List Char}
    (hsel : ∀ p ∈ ps, sel1 p = sel2 p)
    (ht : ∀ p ∈ ps, sel1 p = true → t1 p = t2 p) :
    renderFor ps sel1 t1 b = renderFor ps sel2 t2 b := by
  induction ps generalizing b with
  | nil => rfl
  | cons p rest ih =>
    rw [renderFor, renderFor]
    rw [hsel p (List.mem_cons_self p rest)]
    by_cases hs : sel2 p
    · rw [if_pos hs, if_pos hs,
        ht p (List.mem_cons_self p rest) (by rw [hsel p (List.mem_cons_self p rest)]; exact hs)]
      exact ih (fun q hq => hsel q (List.mem_cons_of_mem p hq))
        (fun q hq hsq => ht q (List.mem_cons_of_mem p hq) hsq)
    · rw [if_neg hs, if_neg hs]
      exact ih (fun q hq => hsel q (List.mem_cons_of_mem p hq))
        (fun q hq hsq => ht q (List.mem_cons_of_mem p hq) hsq)

/-! ### Declarative state descriptions -/

/-- Number of pieces not yet used. -/
def unusedCount (u : List Bool) : Nat :=
  (List.range NUM_PIECES).countP (fun p => !(u.getD p false))

/-- The board mask and the character buffer agree: a cell's bit is set
exactly when its buffer entry holds a letter. -/
def Consistent (m : Nat) (b : List Char) : Prop :=
  b.length = NUM_CELLS ∧ ∀ c < NUM_CELLS, (m.testBit c = true ↔ b.getD c '.' ≠ '.')

/-- Bitwise union of the placements assigned to the unused pieces. -/
def unionMasks (u : List Bool) (t : Nat → Nat) : Nat :=
  orFold ((List.range NUM_PIECES).filter (fun p => !(u.getD p false)))
    (fun p => pieceMask p (t p))

/-- Bitwise union of the placements committed for the used pieces. -/
def usedMasks (u : List Bool) (t : Nat → Nat) : Nat :=
  orFold ((List.range NUM_PIECES).filter (fun p => u.getD p false))
    (fun p => pieceMask p (t p))

/-- `t` is a complete tiling extension of the state `(m, u)`: it assigns to
every unused piece a valid placement, the placements avoid the board mask and
each other, and together with `m` they cover all 55 cells. -/
def IsTiling (m : Nat) (u : List Bool) (t : Nat → Nat) : Prop :=
  (∀ p, p < NUM_PIECES → u.getD p false = false → t p < numPl p) ∧
  (∀ p, p < NUM_PIECES → u.getD p false = false → pieceMask p (t p) &&& m = 0) ∧
  (∀ p q, p < NUM_PIECES → q < NUM_PIECES → p ≠ q →
    u.getD p false = false → u.getD q false = false →
    pieceMask p (t p) &&& pieceMask q (t q) = 0) ∧
  m ||| unionMasks u t = 2 ^ NUM_CELLS - 1

/-- The state `(m, u, b)` is a committed search state: the used pieces carry
pairwise disjoint valid placements whose union is exactly `m`, and `b` is the
board buffer obtained by writing those placements' letters on the empty
board.  Every state the program hands to `search` is of this shape. -/
def Committed (m : Nat) (u : List Bool) (b : List Char) : Prop :=
  u.length = NUM_PIECES ∧ b.length = NUM_CELLS ∧
  ∃ t : Nat → Nat,
    (∀ p, p < NUM_PIECES → u.getD p false = true → t p < numPl p) ∧
    (∀ p q, p < NUM_PIECES → q < NUM_PIECES → p ≠ q →
      u.getD p false = true → u.getD q false = true →
      pieceMask p (t p) &&& pieceMask q (t q) = 0) ∧
    m = usedMasks u t ∧
    b = renderUsed u t

theorem letterOf_ne_dot : ∀ p < 12, letterOf p ≠ '.' := by decide

theorem letterOf_inj : ∀ p < 12, ∀ q < 12, letterOf p = letterOf q → p = q := by decide

theorem cells_disjoint_of_mask {p i q j w : Nat} (hp : p < 12) (hq : q < 12)
    (hi : i < numPl p) (hj : j < numPl q)
    (hdis : pieceMask p i &&& pieceMask q j = 0)
    (hw : w ∈ pieceCells p i) : w ∉ pieceCells q j := by
  intro hwq
  have h1 := (pieceMask_testBit hp hi).2 hw
  have h2 := (pieceMask_testBit hq hj).2 hwq
  rcases and_eq_zero_iff_testBit.1 hdis w with h | h
  · rw [h1] at h; exact absurd h (by simp)
  · rw [h2] at h; exact absurd h (by simp)

theorem usedMasks_testBit {u : List Bool} {t : Nat → Nat} {c : Nat} :
    (usedMasks u t).testBit c = true ↔
      ∃ p, p < NUM_PIECES ∧ u.getD p false = true ∧ (pieceMask p (t p)).testBit c = true := by
  rw [usedMasks, orFold_testBit]
  constructor
  · rintro ⟨p, hp, hbit⟩
    rw [List.mem_filter, List.mem_range] at hp
    exact ⟨p, hp.1, hp.2, hbit⟩
  · rintro ⟨p, hp, hu, hbit⟩
    exact ⟨p, List.mem_filter.2 ⟨List.mem_range.2 hp, hu⟩, hbit⟩

theorem unionMasks_testBit {u : List Bool} {t : Nat → Nat} {c : Nat} :
    (unionMasks u t).testBit c = true ↔
      ∃ p, p < NUM_PIECES ∧ u.getD p false = false ∧ (pieceMask p (t p)).testBit c = true := by
  rw [unionMasks, orFold_testBit]
  constructor
  · rintro ⟨p, hp, hbit⟩
    rw [List.mem_filter, List.mem_range] at hp
    have h2 := hp.2
    rw [Bool.not_eq_true'] at h2
    exact ⟨p, hp.1, h2, hbit⟩
  · rintro ⟨p, hp, hu, hbit⟩
    exact ⟨p, List.mem_filter.2 ⟨List.mem_range.2 hp, by rw [Bool.not_eq_true', hu]⟩, hbit⟩

theorem Committed.mask_lt {m : Nat} {u : List Bool} {b : List Char}
    (h : Committed m u b) : m < 2 ^ 55 := by
  obtain ⟨-, -, t, hlt, -, rfl, -⟩ := h
  refine orFold_lt ?_
  intro p hp
  rw [List.mem_filter, List.mem_range] at hp
  exact pieceMask_lt (by exact hp.1) (hlt p hp.1 hp.2)

theorem Committed.consistent {m : Nat} {u : List Bool} {b : List Char}
    (h : Committed m u b) : Consistent m b := by
  obtain ⟨hul, hbl, t, hlt, hdis, hm, hb⟩ := h
  refine ⟨hbl, ?_⟩
  intro c hc
  subst hm
  subst hb
  constructor
  · intro hbit
    obtain ⟨p, hp, hu, hpb⟩ := usedMasks_testBit.1 hbit
    have hcc : c ∈ pieceCells p (t p) := (pieceMask_testBit (by exact hp) (hlt p hp hu)).1 hpb
    rw [renderUsed, renderFor_getD_mem (List.mem_range.2 hp) hu hcc
      (by rw [List.length_replicate]; exact hc) ?_]
    · exact letterOf_ne_dot p hp
    · intro q hq hqu hqp
      rw [List.mem_range] at hq
      exact cells_disjoint_of_mask (by exact hp) (by exact hq) (hlt p hp hu) (hlt q hq hqu)
        (hdis p q hp hq (fun he => hqp he.symm) hu hqu) hcc
  · intro hne
    by_cases hcov : ∃ p, p < NUM_PIECES ∧ u.getD p false = true ∧ c ∈ pieceCells p (t p)
    · obtain ⟨p, hp, hu, hcc⟩ := hcov
      exact usedMasks_testBit.2 ⟨p, hp, hu, (pieceMask_testBit (by exact hp) (hlt p hp hu)).2 hcc⟩
    · exfalso
      push_neg at hcov
      rw [renderUsed, renderFor_getD_not_mem ?_] at hne
      · rw [List.getD_eq_getElem?_getD, List.getElem?_replicate] at hne
        rw [if_pos hc] at hne
        exact hne rfl
      · intro p hp hpu
        rw [List.mem_range] at hp
        exact hcov p hp hpu

theorem Committed.full_of_all_used {m : Nat} {u : List Bool} {b : List Char}
    (h : Committed m u b) (hall : ∀ p, p < NUM_PIECES → u.getD p false = true) :
    m = 2 ^ 55 - 1 := by
  have hmlt := h.mask_lt
  obtain ⟨hul, hbl, t, hlt, hdis, hm, hb⟩ := h
  refine full_of_popcount hmlt ?_
  subst hm
  have hfil : (List.range NUM_PIECES).filter (fun p => u.getD p false) =
      List.range NUM_PIECES := by
    refine List.filter_eq_self.2 ?_
    intro p hp
    exact hall p (List.mem_range.1 hp)
  rw [usedMasks, hfil]
  rw [orFold_popcount ?_ (List.nodup_range _)]
  · have hmap : (List.range NUM_PIECES).map (fun p => popcount64 (pieceMask p (t p))) =
        (List.range NUM_PIECES).map sizeOfPiece := by
      refine List.map_congr_left ?_
      intro p hp
      rw [List.mem_range] at hp
      rw [pieceMask_popcount (by exact hp) (hlt p hp (hall p hp)),
        pieceCells_length (by exact hp) (hlt p hp (hall p hp))]
    rw [hmap]
    exact sizeOfPiece_sum
  · intro p hp q hq hpq
    rw [List.mem_range] at hp hq
    exact hdis p q hp hq hpq (hall p hp) (hall q hq)

theorem usedAll_iff {u : List Bool} :
    ((List.range NUM_PIECES).all (fun i => u.getD i false) = true) ↔
      ∀ p, p < NUM_PIECES → u.getD p false = true := by
  rw [List.all_eq_true]
  constructor
  · intro h p hp
    exact h p (List.mem_range.2 hp)
  · intro h p hp
    exact h p (List.mem_range.1 hp)

theorem unusedCount_le (u : List Bool) : unusedCount u ≤ NUM_PIECES := by
  rw [unusedCount]
  have := List.countP_le_length (l := List.range NUM_PIECES)
    (p := fun p => !(u.getD p false))
  simpa using this

theorem getD_set_true {u : List Bool} {p q : Nat} (hlen : u.length = NUM_PIECES)
    (hp : p < NUM_PIECES) :
    (u.set p true).getD q false = if p = q then true else u.getD q false := by
  rw [getD_set]
  by_cases hpq : p = q
  · rw [if_pos ⟨hpq, by omega⟩, if_pos hpq]
  · rw [if_neg (by tauto), if_neg hpq]

theorem unusedCount_set {u : List Bool} {p : Nat} (hlen : u.length = NUM_PIECES)
    (hp : p < NUM_PIECES) (hu : u.getD p false = false) :
    unusedCount u = unusedCount (u.set p true) + 1 := by
  rw [unusedCount, unusedCount]
  refine countP_swap_one (List.nodup_range _) (List.mem_range.2 hp) ?_ ?_ ?_
  · rw [hu]; rfl
  · rw [getD_set_true hlen hp, if_pos rfl]; rfl
  · intro q _ hqp
    rw [getD_set_true hlen hp, if_neg (fun he => hqp he.symm)]

/-! ### Search equations and structural properties -/

theorem searchGo_zero (m : Nat) (st : SState) : searchGo 0 m st = st := rfl

theorem searchGo_succ (fuel boardMask : Nat) (st : SState) :
    searchGo (Nat.succ fuel) boardMask st =
      if (List.range NUM_PIECES).all (fun i => st.1.getD i false) then
        (st.1, st.2.1, st.2.2 ++ [st.2.1])
      else
        if NUM_CELLS ≤ firstEmpty boardMask then st
        else
          (List.range NUM_PIECES).foldl
            (fun stp p => pieceStepF (fun m st2 => searchGo fuel m st2) boardMask
              (firstEmpty boardMask) stp p)
            st := rfl

theorem placeStepF_eq (recf : Nat → SState → SState) (boardMask p : Nat)
    (sti : SState) (idx : Nat) :
    placeStepF recf boardMask p sti idx =
      if pieceMask p idx &&& boardMask != 0 then sti
      else
        ((recf (boardMask ||| pieceMask p idx)
          (sti.1.set p true, writeCells (pieceCells p idx) (letterOf p) sti.2.1,
            sti.2.2)).1.set p false,
         writeCells (pieceCells p idx) '.'
           (recf (boardMask ||| pieceMask p idx)
             (sti.1.set p true, writeCells (pieceCells p idx) (letterOf p) sti.2.1,
               sti.2.2)).2.1,
         (recf (boardMask ||| pieceMask p idx)
           (sti.1.set p true, writeCells (pieceCells p idx) (letterOf p) sti.2.1,
             sti.2.2)).2.2) := rfl

theorem pieceStepF_eq (recf : Nat → SState → SState) (boardMask c : Nat)
    (stp : SState) (p : Nat) :
    pieceStepF recf boardMask c stp p =
      if stp.1.getD p false then stp
      else (placementsByCell p c).foldl (placeStepF recf boardMask p) stp := rfl

/-- A state transformer that only appends to the solution vector: the first
two components and the appended suffix do not depend on the incoming vector. -/
def SolsApp (g : SState → SState) : Prop :=
  ∀ u b, ∃ u2 b2 S, ∀ s, g (u, b, s) = (u2, b2, s ++ S)

theorem solsApp_foldl {α : Type} {f : SState → α → SState} {l : List α}
    (h : ∀ x ∈ l, SolsApp (fun st => f st x)) : SolsApp (fun st => l.foldl f st) := by
  induction l with
  | nil =>
    intro u b
    exact ⟨u, b, [], fun s => by simp⟩
  | cons x xs ih =>
    intro u b
    obtain ⟨u1, b1, S1, h1⟩ := h x (List.mem_cons_self x xs) u b
    have h1b : ∀ s, f (u, b, s) x = (u1, b1, s ++ S1) := h1
    obtain ⟨u2, b2, S2, h2⟩ := ih (fun y hy => h y (List.mem_cons_of_mem x hy)) u1 b1
    have h2b : ∀ s, List.foldl f (u1, b1, s) xs = (u2, b2, s ++ S2) := h2
    refine ⟨u2, b2, S1 ++ S2, fun s => ?_⟩
    show List.foldl f (u, b, s) (x :: xs) = (u2, b2, s ++ (S1 ++ S2))
    rw [List.foldl_cons, h1b s, h2b (s ++ S1), List.append_assoc]

theorem solsApp_placeStep {recf : Nat → SState → SState}
    (hrec : ∀ m, SolsApp (recf m)) (boardMask p idx : Nat) :
    SolsApp (fun st => placeStepF recf boardMask p st idx) := by
  intro u b
  by_cases hov : (pieceMask p idx &&& boardMask != 0) = true
  · exact ⟨u, b, [], fun s => by simp [placeStepF, hov]⟩
  · obtain ⟨u2, b2, S, hS⟩ := hrec (boardMask ||| pieceMask p idx) (u.set p true)
      (writeCells (pieceCells p idx) (letterOf p) b)
    have hSb : ∀ s, recf (boardMask ||| pieceMask p idx)
        (u.set p true, writeCells (pieceCells p idx) (letterOf p) b, s) =
        (u2, b2, s ++ S) := hS
    refine ⟨u2.set p false, writeCells (pieceCells p idx) '.' b2, S, fun s => ?_⟩
    show placeStepF recf boardMask p (u, b, s) idx =
      (u2.set p false, writeCells (pieceCells p idx) '.' b2, s ++ S)
    simp only [placeStepF]
    rw [if_neg hov, hSb s]

theorem solsApp_pieceStep {recf : Nat → SState → SState}
    (hrec : ∀ m, SolsApp (recf m)) (boardMask c p : Nat) :
    SolsApp (fun st => pieceStepF recf boardMask c st p) := by
  intro u b
  by_cases hu : u.getD p false = true
  · refine ⟨u, b, [], fun s => ?_⟩
    show pieceStepF recf boardMask c (u, b, s) p = (u, b, s ++ [])
    simp only [pieceStepF]
    rw [if_pos hu, List.append_nil]
  · obtain ⟨u2, b2, S, hS⟩ :=
      solsApp_foldl (f := placeStepF recf boardMask p) (l := placementsByCell p c)
        (fun idx _ => solsApp_placeStep hrec boardMask p idx) u b
    have hSb : ∀ s, List.foldl (placeStepF recf boardMask p) (u, b, s)
        (placementsByCell p c) = (u2, b2, s ++ S) := hS
    refine ⟨u2, b2, S, fun s => ?_⟩
    show pieceStepF recf boardMask c (u, b, s) p = (u2, b2, s ++ S)
    simp only [pieceStepF]
    rw [if_neg hu]
    exact hSb s

theorem solsApp_searchGo : ∀ (fuel m : Nat), SolsApp (searchGo fuel m) := by
  intro fuel
  induction fuel with
  | zero =>
    intro m u b
    exact ⟨u, b, [], fun s => by rw [searchGo_zero, List.append_nil]⟩
  | succ f ih =>
    intro m u b
    by_cases hdone : ((List.range NUM_PIECES).all (fun i => u.getD i false)) = true
    · refine ⟨u, b, [b], fun s => ?_⟩
      rw [searchGo_succ]
      rw [if_pos hdone]
    · by_cases hfull : NUM_CELLS ≤ firstEmpty m
      · refine ⟨u, b, [], fun s => ?_⟩
        rw [searchGo_succ, if_neg hdone, if_pos hfull, List.append_nil]
      · obtain ⟨u2, b2, S, hS⟩ :=
          solsApp_foldl
            (f := fun stp p => pieceStepF (fun m2 st2 => searchGo f m2 st2) m
              (firstEmpty m) stp p)
            (l := List.range NUM_PIECES)
            (fun p _ => solsApp_pieceStep (fun m2 => ih m2) m (firstEmpty m) p) u b
        have hSb : ∀ s, List.foldl
            (fun stp p => pieceStepF (fun m2 st2 => searchGo f m2 st2) m
              (firstEmpty m) stp p) (u, b, s) (List.range NUM_PIECES) =
            (u2, b2, s ++ S) := hS
        refine ⟨u2, b2, S, fun s => ?_⟩
        rw [searchGo_succ, if_neg hdone, if_neg hfull]
        exact hSb s

/-- The solutions appended by a fuelled search run started with an empty
solution vector. -/
def searchSolutionsGo (fuel m : Nat) (u : List Bool) (b : List Char) :
    List (List Char) :=
  (searchGo fuel m (u, b, [])).2.2

theorem searchGo_append (fuel m : Nat) (u : List Bool) (b : List Char)
    (s : List (List Char)) :
    searchGo fuel m (u, b, s) =
      ((searchGo fuel m (u, b, [])).1, (searchGo fuel m (u, b, [])).2.1,
        s ++ searchSolutionsGo fuel m u b) := by
  obtain ⟨u2, b2, S, hS⟩ := solsApp_searchGo fuel m u b
  have h0 := hS []
  rw [List.nil_append] at h0
  rw [hS s, h0, searchSolutionsGo, h0]

/-! ### Exact backtracking: the search restores its by-reference state -/

theorem foldl_fix {α : Type} {f : SState → α → SState} {l : List α} {u : List Bool}
    {b : List Char}
    (h : ∀ x ∈ l, ∀ s, (f (u, b, s) x).1 = u ∧ (f (u, b, s) x).2.1 = b) :
    ∀ s, (List.foldl f (u, b, s) l).1 = u ∧ (List.foldl f (u, b, s) l).2.1 = b := by
  induction l with
  | nil => intro s; exact ⟨rfl, rfl⟩
  | cons x xs ih =>
    intro s
    obtain ⟨h1, h2⟩ := h x (List.mem_cons_self x xs) s
    have hfe : f (u, b, s) x = (u, b, (f (u, b, s) x).2.2) :=
      Prod.ext h1 (Prod.ext h2 rfl)
    rw [List.foldl_cons, hfe]
    exact ih (fun y hy => h y (List.mem_cons_of_mem x hy)) _

/-! ### Small concrete evaluations (performed while the table definitions
are still reducible; the heavy definitions are made irreducible right after,
so that later symbolic proofs never evaluate the tables) -/

set_option maxRecDepth 40000 in
theorem orientations_closed : ∀ p < 12, ∀ s ∈ orientationsOf p, ∀ re < 2, ∀ ro < 4,
    normalizeShape (s.map (transformPoint (re == 1) ro)) ∈ orientationsOf p := by decide

theorem totalPlacements0_eq : totalPlacements0 = 208 := by decide

theorem numPl0_eq : numPl 0 = 208 := totalPlacements0_eq

theorem parseShape_eval_lenthree : parseShape "000" = [(0, 0)] := by decide

theorem parseShape_eval_doublespace : parseShape "00  11" = [(0, 0), (-16, 1)] := by decide

set_option maxRecDepth 40000 in
theorem searchSolutions_allused_eval :
    searchSolutions 0 (List.replicate 12 true) (List.replicate 55 '.') =
      [List.replicate 55 '.'] := by decide

theorem unusedCount_initUsed : unusedCount initUsed = 11 := by decide

attribute [irreducible] generateOrientations orientationsOf placementsOfPiece
attribute [irreducible] numPl placementOf pieceMask pieceCells placementsByCell
attribute [irreducible] totalPlacements0
attribute [irreducible] searchGo search pieceStepF placeStepF firstEmpty writeCells

set_option maxHeartbeats 1600000 in
theorem searchGo_restore : ∀ (fuel m : Nat) (u : List Bool) (b : List Char),
    b.length = NUM_CELLS →
    (∀ c, c < NUM_CELLS → m.testBit c = false → b.getD c '.' = '.') →
    ∀ s, (searchGo fuel m (u, b, s)).1 = u ∧ (searchGo fuel m (u, b, s)).2.1 = b := by
  intro fuel
  induction fuel with
  | zero => intro m u b _ _ s; rw [searchGo_zero]; exact ⟨rfl, rfl⟩
  | succ f ih =>
    intro m u b hblen hempty s
    rw [searchGo_succ]
    by_cases hdone : ((List.range NUM_PIECES).all (fun i => u.getD i false)) = true
    · rw [if_pos hdone]
      exact ⟨rfl, rfl⟩
    · rw [if_neg hdone]
      by_cases hfull : NUM_CELLS ≤ firstEmpty m
      · rw [if_pos hfull]
        exact ⟨rfl, rfl⟩
      · rw [if_neg hfull]
        refine foldl_fix
          (f := fun stp p => pieceStepF (fun m2 st2 => searchGo f m2 st2) m
            (firstEmpty m) stp p) (l := List.range NUM_PIECES) ?_ s
        intro p hp s2
        rw [List.mem_range] at hp
        show (pieceStepF (fun m2 st2 => searchGo f m2 st2) m (firstEmpty m)
            (u, b, s2) p).1 = u ∧
          (pieceStepF (fun m2 st2 => searchGo f m2 st2) m (firstEmpty m)
            (u, b, s2) p).2.1 = b
        rw [pieceStepF_eq]
        by_cases hup : u.getD p false = true
        · rw [if_pos hup]
          exact ⟨rfl, rfl⟩
        · rw [if_neg hup]
          refine foldl_fix
            (f := placeStepF (fun m2 st2 => searchGo f m2 st2) m p)
            (l := placementsByCell p (firstEmpty m)) ?_ s2
          intro idx hidxm s3
          obtain ⟨hidx, hcmem⟩ := placementsByCell_mem.1 hidxm
          rw [placeStepF_eq]
          by_cases hov : (pieceMask p idx &&& m != 0) = true
          · rw [if_pos hov]
            exact ⟨rfl, rfl⟩
          · rw [if_neg hov]
            have hmz : pieceMask p idx &&& m = 0 := by
              by_contra hne
              exact hov (by simpa using hne)
            have hcellsb : ∀ w ∈ pieceCells p idx, w < 55 := pieceCells_lt hp hidx
            have hb1len : (writeCells (pieceCells p idx) (letterOf p) b).length =
                NUM_CELLS := by rw [writeCells_length, hblen]
            have hb1empty : ∀ c2, c2 < NUM_CELLS →
                (m ||| pieceMask p idx).testBit c2 = false →
                (writeCells (pieceCells p idx) (letterOf p) b).getD c2 '.' = '.' := by
              intro c2 hc2 hbit
              rw [Nat.testBit_or] at hbit
              rcases Bool.or_eq_false_iff.1 hbit with ⟨hm2, hp2⟩
              have hnot : c2 ∉ pieceCells p idx := by
                intro hmem
                rw [(pieceMask_testBit hp hidx).2 hmem] at hp2
                exact absurd hp2 (by simp)
              rw [writeCells_getD_not_mem hnot]
              exact hempty c2 hc2 hm2
            obtain ⟨hr1, hr2⟩ := ih (m ||| pieceMask p idx) (u.set p true)
              (writeCells (pieceCells p idx) (letterOf p) b) hb1len hb1empty s3
            constructor
            · simp only [hr1]
              rw [List.set_set]
              exact set_self_of_getD (by
                cases hv : u.getD p false
                · rfl
                · exact absurd hv hup)
            · simp only [hr2]
              refine lists_eq_of_getD ?_ ?_
              · rw [writeCells_length, writeCells_length]
              · intro w hw
                rw [writeCells_length, writeCells_length, hblen] at hw
                by_cases hwc : w ∈ pieceCells p idx
                · rw [writeCells_getD_mem hwc (by rw [writeCells_length]; omega)]
                  have hmw : m.testBit w = false := by
                    rcases and_eq_zero_iff_testBit.1 hmz w with h2 | h2
                    · rw [(pieceMask_testBit hp hidx).2 hwc] at h2
                      exact absurd h2 (by simp)
                    · exact h2
                  rw [hempty w hw hmw]
                · rw [writeCells_getD_not_mem hwc, writeCells_getD_not_mem hwc]

/-! ### The first-empty-cell scan -/

theorem find?_range_min {p : Nat → Bool} : ∀ {n a : Nat},
    (List.range n).find? p = some a →
    p a = true ∧ a < n ∧ ∀ i, i < a → p i = false := by
  intro n
  induction n with
  | zero => intro a h; simp at h
  | succ k ih =>
    intro a h
    rw [List.range_succ, List.find?_append] at h
    cases hk : (List.range k).find? p with
    | some v =>
      rw [hk] at h
      have hva : v = a := by
        have : Option.or (some v) ((List.find? p [k])) = some v := rfl
        rw [this] at h
        exact Option.some.inj h
      subst hva
      obtain ⟨h1, h2, h3⟩ := ih hk
      exact ⟨h1, by omega, h3⟩
    | none =>
      rw [hk, Option.none_or] at h
      cases hpk : p k with
      | false =>
        rw [List.find?_cons] at h
        rw [hpk] at h
        exact absurd h (by simp)
      | true =>
        rw [List.find?_cons] at h
        rw [hpk] at h
        have hka : k = a := Option.some.inj h
        subst hka
        refine ⟨hpk, by omega, ?_⟩
        intro i hi
        have := List.find?_eq_none.1 hk i (List.mem_range.2 hi)
        cases hv : p i
        · rfl
        · exact absurd hv this

theorem emptyPred_eq (m c : Nat) :
    ((m >>> c) &&& 1 == 0) = !(m.testBit c) := by
  have ht : m.testBit c = (1 &&& (m >>> c) != 0) := rfl
  rw [ht, Nat.and_comm 1 (m >>> c), Nat.and_one_is_mod]
  rcases Nat.mod_two_eq_zero_or_one (m >>> c) with h | h <;> rw [h] <;> rfl

theorem firstEmpty_cases (m : Nat) :
    (NUM_CELLS ≤ firstEmpty m ∧ ∀ c, c < NUM_CELLS → m.testBit c = true) ∨
    (firstEmpty m < NUM_CELLS ∧ m.testBit (firstEmpty m) = false) := by
  rw [firstEmpty]
  cases hf : (List.range NUM_CELLS).find? (fun c => (m >>> c) &&& 1 == 0) with
  | none =>
    left
    refine ⟨le_refl _, ?_⟩
    intro c hc
    have hnc := List.find?_eq_none.1 hf c (List.mem_range.2 hc)
    rw [emptyPred_eq] at hnc
    cases hv : m.testBit c
    · rw [hv] at hnc
      exact absurd rfl hnc
    · rfl
  | some a =>
    right
    rw [Option.getD_some]
    obtain ⟨hpa, halt, -⟩ := find?_range_min hf
    rw [emptyPred_eq] at hpa
    refine ⟨halt, ?_⟩
    cases hv : m.testBit a
    · rfl
    · rw [hv] at hpa
      exact absurd hpa (by simp)

/-! ### Branch decomposition of one search step -/

/-- The solutions contributed by trying placement `idx` of piece `p` at board
state `(m, u, b)`: none when the placement overlaps the board mask, otherwise
the solutions of the recursive search from the committed state. -/
def branchSols (f m : Nat) (u : List Bool) (b : List Char) (p idx : Nat) :
    List (List Char) :=
  if pieceMask p idx &&& m != 0 then []
  else searchSolutionsGo f (m ||| pieceMask p idx) (u.set p true)
    (writeCells (pieceCells p idx) (letterOf p) b)

theorem writeCells_undo {p idx m : Nat} {b : List Char} (hp : p < 12)
    (hidx : idx < numPl p) (hblen : b.length = NUM_CELLS)
    (hempty : ∀ c2, c2 < NUM_CELLS → m.testBit c2 = false → b.getD c2 '.' = '.')
    (hmz : pieceMask p idx &&& m = 0) (ch : Char) :
    writeCells (pieceCells p idx) '.'
      (writeCells (pieceCells p idx) ch b) = b := by
  refine lists_eq_of_getD ?_ ?_
  · rw [writeCells_length, writeCells_length]
  · intro w hw
    rw [writeCells_length, writeCells_length, hblen] at hw
    by_cases hwc : w ∈ pieceCells p idx
    · rw [writeCells_getD_mem hwc (by rw [writeCells_length]; omega)]
      have hmw : m.testBit w = false := by
        rcases and_eq_zero_iff_testBit.1 hmz w with h2 | h2
        · rw [(pieceMask_testBit hp hidx).2 hwc] at h2
          exact absurd h2 (by simp)
        · exact h2
      rw [hempty w hw hmw]
    · rw [writeCells_getD_not_mem hwc, writeCells_getD_not_mem hwc]

theorem placeStep_branch {f m : Nat} {u : List Bool} {b : List Char} {p idx : Nat}
    (hp : p < 12) (hup : u.getD p false = false)
    (hblen : b.length = NUM_CELLS)
    (hempty : ∀ c2, c2 < NUM_CELLS → m.testBit c2 = false → b.getD c2 '.' = '.')
    (hidx : idx < numPl p) (s : List (List Char)) :
    placeStepF (fun m2 st2 => searchGo f m2 st2) m p (u, b, s) idx =
      (u, b, s ++ branchSols f m u b p idx) := by
  rw [placeStepF_eq, branchSols]
  by_cases hov : (pieceMask p idx &&& m != 0) = true
  · rw [if_pos hov, if_pos hov, List.append_nil]
  · rw [if_neg hov, if_neg hov]
    have hmz : pieceMask p idx &&& m = 0 := by
      by_contra hne
      exact hov (by simpa using hne)
    have hb1len : (writeCells (pieceCells p idx) (letterOf p) b).length =
        NUM_CELLS := by rw [writeCells_length, hblen]
    have hb1empty : ∀ c2, c2 < NUM_CELLS →
        (m ||| pieceMask p idx).testBit c2 = false →
        (writeCells (pieceCells p idx) (letterOf p) b).getD c2 '.' = '.' := by
      intro c2 hc2 hbit
      rw [Nat.testBit_or] at hbit
      rcases Bool.or_eq_false_iff.1 hbit with ⟨hm2, hp2⟩
      have hnot : c2 ∉ pieceCells p idx := by
        intro hmem
        rw [(pieceMask_testBit hp hidx).2 hmem] at hp2
        exact absurd hp2 (by simp)
      rw [writeCells_getD_not_mem hnot]
      exact hempty c2 hc2 hm2
    obtain ⟨hr1, hr2⟩ := searchGo_restore f (m ||| pieceMask p idx) (u.set p true)
      (writeCells (pieceCells p idx) (letterOf p) b) hb1len hb1empty []
    have happ := searchGo_append f (m ||| pieceMask p idx) (u.set p true)
      (writeCells (pieceCells p idx) (letterOf p) b) s
    rw [happ]
    refine Prod.ext ?_ (Prod.ext ?_ ?_)
    · show ((searchGo f (m ||| pieceMask p idx) (u.set p true,
        writeCells (pieceCells p idx) (letterOf p) b, [])).1).set p false = u
      rw [hr1, List.set_set]
      exact set_self_of_getD hup
    · show writeCells (pieceCells p idx) '.'
        (searchGo f (m ||| pieceMask p idx) (u.set p true,
          writeCells (pieceCells p idx) (letterOf p) b, [])).2.1 = b
      rw [hr2]
      exact writeCells_undo hp hidx hblen hempty hmz (letterOf p)
    · rfl

theorem foldl_place_branch {f m : Nat} {u : List Bool} {b : List Char} {p : Nat}
    (hp : p < 12) (hup : u.getD p false = false)
    (hblen : b.length = NUM_CELLS)
    (hempty : ∀ c2, c2 < NUM_CELLS → m.testBit c2 = false → b.getD c2 '.' = '.') :
    ∀ (ids : List Nat), (∀ i ∈ ids, i < numPl p) → ∀ s,
      ids.foldl (placeStepF (fun m2 st2 => searchGo f m2 st2) m p) (u, b, s) =
        (u, b, s ++ ids.flatMap (branchSols f m u b p)) := by
  intro ids
  induction ids with
  | nil => intro _ s; simp
  | cons i rest ih =>
    intro hall s
    rw [List.foldl_cons,
      placeStep_branch hp hup hblen hempty (hall i (List.mem_cons_self i rest)) s,
      ih (fun j hj => hall j (List.mem_cons_of_mem i hj)) (s ++ branchSols f m u b p i),
      List.flatMap_cons, List.append_assoc]

theorem pieceStep_branch {f m : Nat} {u : List Bool} {b : List Char} {p : Nat}
    (hp : p < 12)
    (hblen : b.length = NUM_CELLS)
    (hempty : ∀ c2, c2 < NUM_CELLS → m.testBit c2 = false → b.getD c2 '.' = '.')
    (c : Nat) (s : List (List Char)) :
    pieceStepF (fun m2 st2 => searchGo f m2 st2) m c (u, b, s) p =
      (u, b, s ++ (if u.getD p false then [] else
        (placementsByCell p c).flatMap (branchSols f m u b p))) := by
  rw [pieceStepF_eq]
  by_cases hu : u.getD p false = true
  · rw [if_pos hu, if_pos hu, List.append_nil]
  · have hu2 : u.getD p false = false := by
      cases hv : u.getD p false
      · rfl
      · exact absurd hv hu
    rw [if_neg hu, if_neg hu]
    exact foldl_place_branch hp hu2 hblen hempty (placementsByCell p c)
      (fun i hi => (placementsByCell_mem.1 hi).1) s

theorem foldl_piece_branch {f m : Nat} {u : List Bool} {b : List Char}
    (hblen : b.length = NUM_CELLS)
    (hempty : ∀ c2, c2 < NUM_CELLS → m.testBit c2 = false → b.getD c2 '.' = '.')
    (c : Nat) :
    ∀ (ps : List Nat), (∀ p ∈ ps, p < 12) → ∀ s,
      ps.foldl (fun stp p => pieceStepF (fun m2 st2 => searchGo f m2 st2) m c stp p)
          (u, b, s) =
        (u, b, s ++ (ps.filter (fun p => !(u.getD p false))).flatMap
          (fun p => (placementsByCell p c).flatMap (branchSols f m u b p))) := by
  intro ps
  induction ps with
  | nil => intro _ s; simp
  | cons p rest ih =>
    intro hall s
    rw [List.foldl_cons,
      pieceStep_branch (hall p (List.mem_cons_self p rest)) hblen hempty c s]
    by_cases hu : u.getD p false = true
    · rw [if_pos hu, List.append_nil, List.filter_cons,
        if_neg (by rw [hu]; simp)]
      exact ih (fun q hq => hall q (List.mem_cons_of_mem p hq)) s
    · have hu2 : u.getD p false = false := by
        cases hv : u.getD p false
        · rfl
        · exact absurd hv hu
      rw [if_neg hu, List.filter_cons, if_pos (by rw [hu2]; rfl),
        ih (fun q hq => hall q (List.mem_cons_of_mem p hq)) _,
        List.flatMap_cons, List.append_assoc]

theorem searchSolutionsGo_zero (m : Nat) (u : List Bool) (b : List Char) :
    searchSolutionsGo 0 m u b = [] := by
  rw [searchSolutionsGo, searchGo_zero]

theorem searchSolutionsGo_succ_done {f m : Nat} {u : List Bool} {b : List Char}
    (hdone : ((List.range NUM_PIECES).all (fun i => u.getD i false)) = true) :
    searchSolutionsGo (f + 1) m u b = [b] := by
  rw [searchSolutionsGo, searchGo_succ, if_pos hdone]
  rfl

theorem searchSolutionsGo_succ_full {f m : Nat} {u : List Bool} {b : List Char}
    (hdone : ¬ ((List.range NUM_PIECES).all (fun i => u.getD i false)) = true)
    (hfull : NUM_CELLS ≤ firstEmpty m) :
    searchSolutionsGo (f + 1) m u b = [] := by
  rw [searchSolutionsGo, searchGo_succ, if_neg hdone, if_pos hfull]

theorem searchSolutionsGo_succ_main {f m : Nat} {u : List Bool} {b : List Char}
    (hdone : ¬ ((List.range NUM_PIECES).all (fun i => u.getD i false)) = true)
    (hfull : ¬ NUM_CELLS ≤ firstEmpty m)
    (hblen : b.length = NUM_CELLS)
    (hempty : ∀ c2, c2 < NUM_CELLS → m.testBit c2 = false → b.getD c2 '.' = '.') :
    searchSolutionsGo (f + 1) m u b =
      ((List.range NUM_PIECES).filter (fun p => !(u.getD p false))).flatMap
        (fun p => (placementsByCell p (firstEmpty m)).flatMap
          (branchSols f m u b p)) := by
  rw [searchSolutionsGo, searchGo_succ, if_neg hdone, if_neg hfull]
  have h2 := foldl_piece_branch (f := f) (u := u) hblen hempty (firstEmpty m)
    (List.range NUM_PIECES) (fun p hp => List.mem_range.1 hp) []
  rw [h2, List.nil_append]

/-! ### Extending a committed state by one placement -/

theorem and_eq_zero_of_subset {a b m : Nat}
    (hsub : ∀ i, b.testBit i = true → m.testBit i = true)
    (h : a &&& m = 0) : a &&& b = 0 := by
  rw [and_eq_zero_iff_testBit] at h ⊢
  intro i
  rcases h i with h2 | h2
  · exact Or.inl h2
  · cases hv : b.testBit i
    · exact Or.inr rfl
    · rw [hsub i hv] at h2
      exact absurd h2 (by simp)

theorem renderFor_none {ps : List Nat} {sel : Nat → Bool} {t : Nat → Nat}
    {b : List Char} (h : ∀ p ∈ ps, sel p = false) :
    renderFor ps sel t b = b := by
  induction ps with
  | nil => rfl
  | cons p rest ih =>
    rw [renderFor, if_neg (by rw [h p (List.mem_cons_self p rest)]; simp)]
    exact ih (fun q hq => h q (List.mem_cons_of_mem p hq))

theorem renderFor_getD_cases (ps : List Nat) (sel : Nat → Bool) (t : Nat → Nat)
    {w : Nat} : ∀ {b : List Char}, w < b.length →
    (renderFor ps sel t b).getD w '.' = b.getD w '.' ∨
    ∃ q, q ∈ ps ∧ sel q = true ∧ w ∈ pieceCells q (t q) ∧
      (renderFor ps sel t b).getD w '.' = letterOf q := by
  induction ps with
  | nil => intro b _; exact Or.inl rfl
  | cons p rest ih =>
    intro b hwl
    rw [renderFor]
    by_cases hs : sel p
    · rw [if_pos hs]
      have hwl2 : w < (writeCells (pieceCells p (t p)) (letterOf p) b).length := by
        rw [writeCells_length]; exact hwl
      rcases ih hwl2 with h | ⟨q, hq, hsq, hwq, he⟩
      · by_cases hw : w ∈ pieceCells p (t p)
        · refine Or.inr ⟨p, List.mem_cons_self p rest, hs, hw, ?_⟩
          rw [h, writeCells_getD_mem hw hwl]
        · refine Or.inl ?_
          rw [h, writeCells_getD_not_mem hw]
      · exact Or.inr ⟨q, List.mem_cons_of_mem p hq, hsq, hwq, he⟩
    · rw [if_neg hs]
      rcases ih hwl with h | ⟨q, hq, hsq, hwq, he⟩
      · exact Or.inl h
      · exact Or.inr ⟨q, List.mem_cons_of_mem p hq, hsq, hwq, he⟩

theorem renderUsed_length (u : List Bool) (t : Nat → Nat) :
    (renderUsed u t).length = NUM_CELLS := by
  rw [renderUsed, renderFor_length, List.length_replicate]

theorem replicate_dot_getD (w : Nat) :
    (List.replicate NUM_CELLS '.').getD w '.' = '.' := by
  rw [List.getD_eq_getElem?_getD, List.getElem?_replicate]
  by_cases hw : w < NUM_CELLS
  · rw [if_pos hw]; rfl
  · rw [if_neg hw]; rfl

theorem Committed.getD_ne_letterOf {m : Nat} {u : List Bool} {b : List Char}
    (h : Committed m u b) {p : Nat} (hp : p < NUM_PIECES)
    (hup : u.getD p false = false) (w : Nat) :
    b.getD w '.' ≠ letterOf p := by
  obtain ⟨hul, hbl, t, hlt, hdis, hm, hb⟩ := h
  subst hb
  by_cases hwl : w < (List.replicate NUM_CELLS '.').length
  · rw [renderUsed]
    rcases renderFor_getD_cases (List.range NUM_PIECES)
        (fun q => u.getD q false) t hwl with h2 | ⟨q, hq, hsq, hwq, he⟩
    · rw [h2, replicate_dot_getD]
      exact fun he2 => letterOf_ne_dot p (by exact hp) he2.symm
    · rw [he]
      intro he2
      have hqp : q = p := letterOf_inj q (List.mem_range.1 hq) p (by exact hp) he2
      subst hqp
      rw [hsq] at hup
      exact absurd hup (by simp)
  · rw [List.length_replicate] at hwl
    rw [List.getD_eq_default _ _ (by rw [renderUsed_length]; omega)]
    exact fun he2 => letterOf_ne_dot p (by exact hp) he2.symm

theorem getD_set_true_false_iff {u : List Bool} {p q : Nat}
    (hul : u.length = NUM_PIECES) (hp : p < NUM_PIECES) :
    ((u.set p true).getD q false = false ↔ (q ≠ p ∧ u.getD q false = false)) := by
  rw [getD_set_true hul hp]
  by_cases hpq : p = q
  · rw [if_pos hpq]
    subst hpq
    constructor
    · intro h2; exact absurd h2 (by simp)
    · rintro ⟨h2, -⟩; exact absurd rfl h2
  · rw [if_neg hpq]
    constructor
    · intro h2; exact ⟨fun he => hpq he.symm, h2⟩
    · rintro ⟨-, h2⟩; exact h2

theorem nodup_flatMap_of {α β : Type} {l : List α} {g : α → List β}
    (hl : l.Nodup) (hg : ∀ a ∈ l, (g a).Nodup)
    (hdis : ∀ a1 ∈ l, ∀ a2 ∈ l, a1 ≠ a2 → ∀ x ∈ g a1, x ∉ g a2) :
    (l.flatMap g).Nodup := by
  induction l with
  | nil => simp
  | cons a rest ih =>
    rw [List.flatMap_cons]
    refine List.Nodup.append (hg a (List.mem_cons_self a rest))
      (ih (List.Nodup.of_cons hl)
        (fun x hx => hg x (List.mem_cons_of_mem a hx))
        (fun a1 h1 a2 h2 hne => hdis a1 (List.mem_cons_of_mem a h1) a2
          (List.mem_cons_of_mem a h2) hne)) ?_
    intro x hx1 hx2
    obtain ⟨a2, ha2, hxa2⟩ := List.mem_flatMap.1 hx2
    have hne : a ≠ a2 := by
      intro he
      subst he
      exact (List.nodup_cons.1 hl).1 ha2
    exact hdis a (List.mem_cons_self a rest) a2 (List.mem_cons_of_mem a ha2) hne
      x hx1 hxa2

theorem pieceCells_eq_of_iff {p idx1 idx2 : Nat} (hp : p < 12)
    (h1 : idx1 < numPl p) (h2 : idx2 < numPl p)
    (hiff : ∀ w, w < 55 → (w ∈ pieceCells p idx1 ↔ w ∈ pieceCells p idx2)) :
    idx1 = idx2 := by
  refine pieceMask_inj hp h1 h2 (Nat.eq_of_testBit_eq ?_)
  intro i
  cases hv1 : (pieceMask p idx1).testBit i
  · cases hv2 : (pieceMask p idx2).testBit i
    · rfl
    · have hm2 := (pieceMask_testBit hp h2).1 hv2
      have hw : i < 55 := pieceCells_lt hp h2 i hm2
      have hm1 := (hiff i hw).2 hm2
      rw [(pieceMask_testBit hp h1).2 hm1] at hv1
      exact hv1.symm
  · have hm1 := (pieceMask_testBit hp h1).1 hv1
    have hw : i < 55 := pieceCells_lt hp h1 i hm1
    have hm2 := (hiff i hw).1 hm1
    rw [(pieceMask_testBit hp h2).2 hm2]

theorem unionMasks_set {u : List Bool} {t t1 : Nat → Nat} {p idx : Nat}
    (hul : u.length = NUM_PIECES) (hp : p < NUM_PIECES)
    (hup : u.getD p false = false) (htp : t p = idx)
    (hagree : ∀ q, q < NUM_PIECES → q ≠ p → t q = t1 q) :
    unionMasks u t = pieceMask p idx ||| unionMasks (u.set p true) t1 := by
  refine Nat.eq_of_testBit_eq ?_
  intro i
  rw [Nat.testBit_or, Bool.eq_iff_iff, Bool.or_eq_true]
  rw [unionMasks_testBit]
  constructor
  · rintro ⟨q, hq, hqu, hbit⟩
    by_cases hqp : q = p
    · subst hqp
      rw [htp] at hbit
      exact Or.inl hbit
    · refine Or.inr (unionMasks_testBit.2 ⟨q, hq, ?_, ?_⟩)
      · exact (getD_set_true_false_iff hul hp).2 ⟨hqp, hqu⟩
      · rw [← hagree q hq hqp]
        exact hbit
  · intro h2
    rcases h2 with hb | hb
    · exact ⟨p, hp, hup, by rw [htp]; exact hb⟩
    · obtain ⟨q, hq, hqu, hbit⟩ := unionMasks_testBit.1 hb
      obtain ⟨hqp, hqu2⟩ := (getD_set_true_false_iff hul hp).1 hqu
      exact ⟨q, hq, hqu2, by rw [hagree q hq hqp]; exact hbit⟩

theorem usedMasks_set {u : List Bool} {t tc : Nat → Nat} {p idx : Nat}
    (hul : u.length = NUM_PIECES) (hp : p < NUM_PIECES)
    (hup : u.getD p false = false) (htcp : tc p = idx)
    (hagree : ∀ q, q < NUM_PIECES → q ≠ p → tc q = t q) :
    usedMasks (u.set p true) tc = pieceMask p idx ||| usedMasks u t := by
  refine Nat.eq_of_testBit_eq ?_
  intro i
  rw [Nat.testBit_or, Bool.eq_iff_iff, Bool.or_eq_true]
  rw [usedMasks_testBit]
  constructor
  · rintro ⟨q, hq, hqu, hbit⟩
    by_cases hqp : q = p
    · subst hqp
      rw [htcp] at hbit
      exact Or.inl hbit
    · refine Or.inr (usedMasks_testBit.2 ⟨q, hq, ?_, ?_⟩)
      · rw [getD_set_true hul hp, if_neg (fun he => hqp he.symm)] at hqu
        exact hqu
      · rw [← hagree q hq hqp]
        exact hbit
  · intro h2
    rcases h2 with hb | hb
    · refine ⟨p, hp, ?_, by rw [htcp]; exact hb⟩
      rw [getD_set_true hul hp, if_pos rfl]
    · obtain ⟨q, hq, hqu, hbit⟩ := usedMasks_testBit.1 hb
      have hqp : q ≠ p := by
        intro he
        subst he
        rw [hqu] at hup
        exact absurd hup (by simp)
      refine ⟨q, hq, ?_, by rw [hagree q hq hqp]; exact hbit⟩
      rw [getD_set_true hul hp, if_neg (fun he => hqp he.symm)]
      exact hqu

theorem renderT_extend {u : List Bool} {b : List Char} {p idx : Nat}
    {t t1 : Nat → Nat}
    (hul : u.length = NUM_PIECES) (hbl : b.length = NUM_CELLS)
    (hp : p < NUM_PIECES) (hup : u.getD p false = false)
    (hidx : idx < numPl p) (htp : t p = idx)
    (hagree : ∀ q, q < NUM_PIECES → q ≠ p → t q = t1 q)
    (hbound : ∀ q, q < NUM_PIECES → u.getD q false = false → t q < numPl q)
    (hpair : ∀ q r, q < NUM_PIECES → r < NUM_PIECES → q ≠ r →
      u.getD q false = false → u.getD r false = false →
      pieceMask q (t q) &&& pieceMask r (t r) = 0) :
    renderT (writeCells (pieceCells p idx) (letterOf p) b) (u.set p true) t1 =
      renderT b u t := by
  have hdisw : ∀ q r, q < NUM_PIECES → r < NUM_PIECES → q ≠ r →
      u.getD q false = false → u.getD r false = false →
      ∀ w, w ∈ pieceCells q (t q) → w ∉ pieceCells r (t r) := by
    intro q r hq hr hqr hqu hru w hwq
    exact cells_disjoint_of_mask (by exact hq) (by exact hr) (hbound q hq hqu)
      (hbound r hr hru) (hpair q r hq hr hqr hqu hru) hwq
  refine lists_eq_of_getD ?_ ?_
  · rw [renderT, renderT, renderFor_length, renderFor_length, writeCells_length]
  · intro w hw
    rw [renderT, renderFor_length, writeCells_length, hbl] at hw
    rw [renderT, renderT]
    by_cases hwc : w ∈ pieceCells p idx
    · have hrhs : (renderFor (List.range NUM_PIECES) (fun q => !(u.getD q false)) t
          b).getD w '.' = letterOf p := by
        refine renderFor_getD_mem (List.mem_range.2 hp) (by rw [hup]; rfl)
          (by rw [htp]; exact hwc) (by omega) ?_
        intro q hq hsq hqp
        rw [List.mem_range] at hq
        rw [Bool.not_eq_true'] at hsq
        have := hdisw p q hp hq (fun he => hqp he.symm) hup hsq w
          (by rw [htp]; exact hwc)
        exact this
      have hlhs : (renderFor (List.range NUM_PIECES)
          (fun q => !((u.set p true).getD q false)) t1
          (writeCells (pieceCells p idx) (letterOf p) b)).getD w '.' = letterOf p := by
        rw [renderFor_getD_not_mem ?_]
        · exact writeCells_getD_mem hwc (by omega)
        · intro q hq hsq
          rw [List.mem_range] at hq
          rw [Bool.not_eq_true'] at hsq
          obtain ⟨hqp, hqu⟩ := (getD_set_true_false_iff hul hp).1 hsq
          rw [← hagree q hq hqp]
          exact hdisw p q hp hq (fun he => hqp he.symm) hup hqu w
            (by rw [htp]; exact hwc)
      rw [hlhs, hrhs]
    · by_cases hcov : ∃ q, q < NUM_PIECES ∧ q ≠ p ∧ u.getD q false = false ∧
          w ∈ pieceCells q (t q)
      · obtain ⟨q, hq, hqp, hqu, hwq⟩ := hcov
        have hrhs : (renderFor (List.range NUM_PIECES) (fun r => !(u.getD r false)) t
            b).getD w '.' = letterOf q := by
          refine renderFor_getD_mem (List.mem_range.2 hq) (by rw [hqu]; rfl) hwq
            (by omega) ?_
          intro r hr hsr hrq
          rw [List.mem_range] at hr
          rw [Bool.not_eq_true'] at hsr
          by_cases hrp : r = p
          · subst hrp
            rw [htp]
            exact hwc
          · exact hdisw q r hq hr (fun he => hrq he.symm) hqu hsr w hwq
        have hlhs : (renderFor (List.range NUM_PIECES)
            (fun r => !((u.set p true).getD r false)) t1
            (writeCells (pieceCells p idx) (letterOf p) b)).getD w '.' =
            letterOf q := by
          refine renderFor_getD_mem (List.mem_range.2 hq)
            (by rw [(getD_set_true_false_iff hul hp).2 ⟨hqp, hqu⟩]; rfl)
            (by rw [← hagree q hq hqp]; exact hwq)
            (by rw [writeCells_length]; omega) ?_
          intro r hr hsr hrq
          rw [List.mem_range] at hr
          rw [Bool.not_eq_true'] at hsr
          obtain ⟨hrp, hru⟩ := (getD_set_true_false_iff hul hp).1 hsr
          rw [← hagree r hr hrp]
          exact hdisw q r hq hr (fun he => hrq he.symm) hqu hru w hwq
        rw [hlhs, hrhs]
      · push_neg at hcov
        have hrhs : (renderFor (List.range NUM_PIECES) (fun r => !(u.getD r false)) t
            b).getD w '.' = b.getD w '.' := by
          refine renderFor_getD_not_mem ?_
          intro q hq hsq
          rw [List.mem_range] at hq
          rw [Bool.not_eq_true'] at hsq
          by_cases hqp : q = p
          · subst hqp
            rw [htp]
            exact hwc
          · exact hcov q hq hqp hsq
        have hlhs : (renderFor (List.range NUM_PIECES)
            (fun r => !((u.set p true).getD r false)) t1
            (writeCells (pieceCells p idx) (letterOf p) b)).getD w '.' =
            b.getD w '.' := by
          rw [renderFor_getD_not_mem ?_]
          · exact writeCells_getD_not_mem hwc
          · intro q hq hsq
            rw [List.mem_range] at hq
            rw [Bool.not_eq_true'] at hsq
            obtain ⟨hqp, hqu⟩ := (getD_set_true_false_iff hul hp).1 hsq
            rw [← hagree q hq hqp]
            exact hcov q hq hqp hqu
        rw [hlhs, hrhs]

theorem renderUsed_set {u : List Bool} {t tc : Nat → Nat} {p idx : Nat}
    (hul : u.length = NUM_PIECES) (hp : p < NUM_PIECES)
    (hup : u.getD p false = false) (hidx : idx < numPl p) (htcp : tc p = idx)
    (hagree : ∀ q, q < NUM_PIECES → q ≠ p → tc q = t q)
    (hbound : ∀ q, q < NUM_PIECES → u.getD q false = true → t q < numPl q)
    (hpair : ∀ q r, q < NUM_PIECES → r < NUM_PIECES → q ≠ r →
      u.getD q false = true → u.getD r false = true →
      pieceMask q (t q) &&& pieceMask r (t r) = 0)
    (hov : ∀ q, q < NUM_PIECES → u.getD q false = true →
      pieceMask p idx &&& pieceMask q (t q) = 0) :
    renderUsed (u.set p true) tc =
      writeCells (pieceCells p idx) (letterOf p) (renderUsed u t) := by
  have hused : ∀ q, q < NUM_PIECES → (u.set p true).getD q false = true →
      q = p ∨ u.getD q false = true := by
    intro q hq hqu
    by_cases hqp : q = p
    · exact Or.inl hqp
    · rw [getD_set_true hul hp, if_neg (fun he => hqp he.symm)] at hqu
      exact Or.inr hqu
  have hdisw : ∀ q r, q < NUM_PIECES → r < NUM_PIECES → q ≠ r →
      u.getD q false = true → u.getD r false = true →
      ∀ w, w ∈ pieceCells q (t q) → w ∉ pieceCells r (t r) := by
    intro q r hq hr hqr hqu hru w hwq
    exact cells_disjoint_of_mask (by exact hq) (by exact hr) (hbound q hq hqu)
      (hbound r hr hru) (hpair q r hq hr hqr hqu hru) hwq
  have hdisp : ∀ q, q < NUM_PIECES → u.getD q false = true →
      ∀ w, w ∈ pieceCells p idx → w ∉ pieceCells q (t q) := by
    intro q hq hqu w hwp
    exact cells_disjoint_of_mask (by exact hp) (by exact hq) hidx
      (hbound q hq hqu) (hov q hq hqu) hwp
  refine lists_eq_of_getD ?_ ?_
  · rw [renderUsed_length, writeCells_length, renderUsed_length]
  · intro w hw
    rw [renderUsed_length] at hw
    by_cases hwc : w ∈ pieceCells p idx
    · have hlhs : (renderUsed (u.set p true) tc).getD w '.' = letterOf p := by
        rw [renderUsed]
        refine renderFor_getD_mem (List.mem_range.2 hp)
          (by rw [getD_set_true hul hp, if_pos rfl]) (by rw [htcp]; exact hwc)
          (by rw [List.length_replicate]; omega) ?_
        intro r hr hsr hrp
        rw [List.mem_range] at hr
        rcases hused r hr hsr with he | hru
        · exact absurd he hrp
        · rw [hagree r hr hrp]
          intro hwr
          exact hdisp r hr hru w hwc hwr
      rw [hlhs, writeCells_getD_mem hwc (by rw [renderUsed_length]; omega)]
    · rw [writeCells_getD_not_mem hwc]
      by_cases hcov : ∃ q, q < NUM_PIECES ∧ u.getD q false = true ∧
          w ∈ pieceCells q (t q)
      · obtain ⟨q, hq, hqu, hwq⟩ := hcov
        have hqp : q ≠ p := by
          intro he
          subst he
          rw [hqu] at hup
          exact absurd hup (by simp)
        have hlhs : (renderUsed (u.set p true) tc).getD w '.' = letterOf q := by
          rw [renderUsed]
          refine renderFor_getD_mem (List.mem_range.2 hq)
            (by rw [getD_set_true hul hp, if_neg (fun he => hqp he.symm)]; exact hqu)
            (by rw [hagree q hq hqp]; exact hwq)
            (by rw [List.length_replicate]; omega) ?_
          intro r hr hsr hrq
          rw [List.mem_range] at hr
          rcases hused r hr hsr with he | hru
          · subst he
            rw [htcp]
            exact hwc
          · rw [hagree r hr (by
              intro he2
              subst he2
              rw [hru] at hup
              exact absurd hup (by simp))]
            exact hdisw q r hq hr (fun he => hrq he.symm) hqu hru w hwq
        have hrhs : (renderUsed u t).getD w '.' = letterOf q := by
          rw [renderUsed]
          refine renderFor_getD_mem (List.mem_range.2 hq) hqu hwq
            (by rw [List.length_replicate]; omega) ?_
          intro r hr hsr hrq
          rw [List.mem_range] at hr
          exact hdisw q r hq hr (fun he => hrq he.symm) hqu hsr w hwq
        rw [hlhs, hrhs]
      · push_neg at hcov
        have hlhs : (renderUsed (u.set p true) tc).getD w '.' = '.' := by
          rw [renderUsed]
          rw [renderFor_getD_not_mem ?_]
          · exact replicate_dot_getD w
          · intro r hr hsr
            rw [List.mem_range] at hr
            rcases hused r hr hsr with he | hru
            · subst he
              rw [htcp]
              exact hwc
            · rw [hagree r hr (by
                intro he2
                subst he2
                rw [hru] at hup
                exact absurd hup (by simp))]
              intro hwr
              exact hcov r hr hru hwr
        have hrhs : (renderUsed u t).getD w '.' = '.' := by
          rw [renderUsed]
          rw [renderFor_getD_not_mem ?_]
          · exact replicate_dot_getD w
          · intro r hr hsr
            rw [List.mem_range] at hr
            intro hwr
            exact hcov r hr hsr hwr
        rw [hlhs, hrhs]

theorem Committed.extend {m : Nat} {u : List Bool} {b : List Char} {p idx : Nat}
    (h : Committed m u b) (hp : p < NUM_PIECES)
    (hup : u.getD p false = false) (hidx : idx < numPl p)
    (hov : pieceMask p idx &&& m = 0) :
    Committed (m ||| pieceMask p idx) (u.set p true)
      (writeCells (pieceCells p idx) (letterOf p) b) := by
  obtain ⟨hul, hbl, t, hlt, hdis, hm, hb⟩ := h
  have hsub : ∀ q, q < NUM_PIECES → u.getD q false = true →
      ∀ i, (pieceMask q (t q)).testBit i = true → m.testBit i = true := by
    intro q hq hqu i hbit
    rw [hm]
    exact usedMasks_testBit.2 ⟨q, hq, hqu, hbit⟩
  have hovq : ∀ q, q < NUM_PIECES → u.getD q false = true →
      pieceMask p idx &&& pieceMask q (t q) = 0 := by
    intro q hq hqu
    exact and_eq_zero_of_subset (hsub q hq hqu) hov
  refine ⟨by rw [List.length_set]; exact hul,
    by rw [writeCells_length]; exact hbl, ?_⟩
  refine ⟨fun q => if q = p then idx else t q, ?_, ?_, ?_, ?_⟩
  · intro q hq hqu
    show (if q = p then idx else t q) < numPl q
    by_cases hqp : q = p
    · rw [if_pos hqp, hqp]
      exact hidx
    · rw [if_neg hqp]
      rw [getD_set_true hul hp, if_neg (fun he => hqp he.symm)] at hqu
      exact hlt q hq hqu
  · intro q r hq hr hqr hqu hru
    show pieceMask q (if q = p then idx else t q) &&&
      pieceMask r (if r = p then idx else t r) = 0
    by_cases hqp : q = p
    · have hrp : r ≠ p := fun he => hqr (by rw [hqp, he])
      rw [if_pos hqp, if_neg hrp, hqp]
      rw [getD_set_true hul hp, if_neg (fun he => hrp he.symm)] at hru
      exact hovq r hr hru
    · rw [if_neg hqp]
      rw [getD_set_true hul hp, if_neg (fun he => hqp he.symm)] at hqu
      by_cases hrp : r = p
      · rw [if_pos hrp, hrp]
        exact and_comm_zero (hovq q hq hqu)
      · rw [if_neg hrp]
        rw [getD_set_true hul hp, if_neg (fun he => hrp he.symm)] at hru
        exact hdis q r hq hr hqr hqu hru
  · have hmask : usedMasks (u.set p true) (fun q => if q = p then idx else t q) =
        pieceMask p idx ||| usedMasks u t :=
      usedMasks_set hul hp hup
        (by show (if p = p then idx else t p) = idx; rw [if_pos rfl])
        (fun q hq hqp => by show (if q = p then idx else t q) = t q; rw [if_neg hqp])
    rw [hmask, hm, Nat.or_comm]
  · have hren : renderUsed (u.set p true) (fun q => if q = p then idx else t q) =
        writeCells (pieceCells p idx) (letterOf p) (renderUsed u t) :=
      renderUsed_set hul hp hup hidx
        (by show (if p = p then idx else t p) = idx; rw [if_pos rfl])
        (fun q hq hqp => by show (if q = p then idx else t q) = t q; rw [if_neg hqp])
        hlt hdis hovq
    rw [hren, hb]

theorem rendered_letter_iff {m : Nat} {u : List Bool} {b : List Char} {p idx : Nat}
    {t1 : Nat → Nat}
    (hcom : Committed m u b) (hp : p < NUM_PIECES)
    (hup : u.getD p false = false) (hidx : idx < numPl p)
    (htil : IsTiling (m ||| pieceMask p idx) (u.set p true) t1)
    {w : Nat} (hw : w < NUM_CELLS) :
    ((renderT (writeCells (pieceCells p idx) (letterOf p) b)
        (u.set p true) t1).getD w '.' = letterOf p) ↔ w ∈ pieceCells p idx := by
  have hul : u.length = NUM_PIECES := hcom.1
  have hbl : b.length = NUM_CELLS := hcom.2.1
  obtain ⟨ht1, ht2, ht3, ht4⟩ := htil
  have hdisp : ∀ q, q < NUM_PIECES → (u.set p true).getD q false = false →
      ∀ x, x ∈ pieceCells p idx → x ∉ pieceCells q (t1 q) := by
    intro q hq hqu x hxp hxq
    have hbitp := (pieceMask_testBit (by exact hp) hidx).2 hxp
    have hbitq := (pieceMask_testBit (by exact hq) (ht1 q hq hqu)).2 hxq
    rcases and_eq_zero_iff_testBit.1 (ht2 q hq hqu) x with h2 | h2
    · rw [hbitq] at h2
      exact absurd h2 (by simp)
    · rw [Nat.testBit_or, hbitp] at h2
      exact absurd h2 (by simp)
  constructor
  · intro hlet
    by_contra hwc
    have hwl : w < (writeCells (pieceCells p idx) (letterOf p) b).length := by
      rw [writeCells_length]
      omega
    rw [renderT] at hlet
    rcases renderFor_getD_cases (List.range NUM_PIECES)
        (fun q => !((u.set p true).getD q false)) t1 hwl
      with h2 | ⟨q, hq, hsq, hwq, he⟩
    · rw [h2, writeCells_getD_not_mem hwc] at hlet
      exact hcom.getD_ne_letterOf hp hup w hlet
    · rw [he] at hlet
      rw [List.mem_range] at hq
      rw [Bool.not_eq_true'] at hsq
      obtain ⟨hqp, -⟩ := (getD_set_true_false_iff hul hp).1 hsq
      exact hqp (letterOf_inj q hq p (by exact hp) hlet)
  · intro hwc
    rw [renderT]
    rw [renderFor_getD_not_mem ?_]
    · exact writeCells_getD_mem hwc (by rw [hbl]; omega)
    · intro q hq hsq
      rw [List.mem_range] at hq
      rw [Bool.not_eq_true'] at hsq
      exact hdisp q hq hsq w hwc

/-! ### Exact characterization of the solutions found by the search -/

theorem searchGo_exact : ∀ (f : Nat), ∀ (m : Nat) (u : List Bool) (b : List Char),
    Committed m u b → unusedCount u < f →
    ((∀ s, s ∈ searchSolutionsGo f m u b ↔
        ∃ t, IsTiling m u t ∧ s = renderT b u t) ∧
      (searchSolutionsGo f m u b).Nodup) := by
  intro f
  induction f with
  | zero =>
    intro m u b _ hcnt
    exact absurd hcnt (Nat.not_lt_zero _)
  | succ f ih =>
    intro m u b hcom hcnt
    have hul : u.length = NUM_PIECES := hcom.1
    have hbl : b.length = NUM_CELLS := hcom.2.1
    have hempty : ∀ c2, c2 < NUM_CELLS → m.testBit c2 = false →
        b.getD c2 '.' = '.' := by
      intro c2 hc2 hbit
      have hcons := hcom.consistent
      by_contra hne
      have h2 := (hcons.2 c2 hc2).2 hne
      rw [h2] at hbit
      exact absurd hbit (by simp)
    by_cases hdone : ((List.range NUM_PIECES).all (fun i => u.getD i false)) = true
    · rw [searchSolutionsGo_succ_done hdone]
      have hall := usedAll_iff.1 hdone
      have hfilter : (List.range NUM_PIECES).filter (fun q => !(u.getD q false)) =
          [] := by
        refine List.filter_eq_nil_iff.2 ?_
        intro q hq
        rw [hall q (List.mem_range.1 hq)]
        simp
      have hrt : ∀ t : Nat → Nat, renderT b u t = b := by
        intro t
        rw [renderT]
        refine renderFor_none ?_
        intro q hq
        rw [hall q (List.mem_range.1 hq)]
        rfl
      constructor
      · intro s
        rw [List.mem_singleton]
        constructor
        · intro hs
          refine ⟨fun _ => 0, ⟨?_, ?_, ?_, ?_⟩, by rw [hrt]; exact hs⟩
          · intro q hq hqu
            rw [hall q hq] at hqu
            exact absurd hqu (by simp)
          · intro q hq hqu
            rw [hall q hq] at hqu
            exact absurd hqu (by simp)
          · intro q r hq hr hqr hqu
            rw [hall q hq] at hqu
            exact absurd hqu (by simp)
          · have hfullb := Committed.full_of_all_used hcom hall
            rw [unionMasks, hfilter]
            show m ||| 0 = 2 ^ NUM_CELLS - 1
            rw [Nat.or_zero, hfullb]
            rfl
        · rintro ⟨t, -, hs⟩
          rw [hs, hrt]
      · exact List.nodup_singleton b
    · by_cases hfull : NUM_CELLS ≤ firstEmpty m
      · rw [searchSolutionsGo_succ_full hdone hfull]
        have hcover : ∀ c, c < NUM_CELLS → m.testBit c = true := by
          rcases firstEmpty_cases m with ⟨h1, h2⟩ | ⟨h1, h2⟩
          · exact h2
          · omega
        constructor
        · intro s
          constructor
          · intro hs
            exact absurd hs (List.not_mem_nil s)
          · rintro ⟨t, ⟨ht1, ht2, ht3, ht4⟩, hs⟩
            exfalso
            have hex : ∃ p, p < NUM_PIECES ∧ u.getD p false = false := by
              by_contra hno
              push_neg at hno
              refine hdone (usedAll_iff.2 ?_)
              intro p hp
              cases hv : u.getD p false
              · exact absurd hv (hno p hp)
              · rfl
            obtain ⟨p, hp, hup⟩ := hex
            have hb2 := ht1 p hp hup
            have hz := ht2 p hp hup
            have hpos : 0 < (pieceCells p (t p)).length := by
              rw [pieceCells_length (by exact hp) hb2]
              exact sizeOfPiece_pos p (by exact hp)
            obtain ⟨c0, hc0⟩ := List.exists_mem_of_length_pos hpos
            have hc0lt : c0 < 55 := pieceCells_lt (by exact hp) hb2 c0 hc0
            have hbit : (pieceMask p (t p)).testBit c0 = true :=
              (pieceMask_testBit (by exact hp) hb2).2 hc0
            have hmc0 : m.testBit c0 = true := hcover c0 (by exact hc0lt)
            rcases and_eq_zero_iff_testBit.1 hz c0 with h2 | h2
            · rw [hbit] at h2
              exact absurd h2 (by simp)
            · rw [hmc0] at h2
              exact absurd h2 (by simp)
        · exact List.nodup_nil
      · have hclt : firstEmpty m < NUM_CELLS := by
          rcases firstEmpty_cases m with ⟨h1, h2⟩ | ⟨h1, h2⟩
          · exact absurd h1 hfull
          · exact h1
        have hcbit : m.testBit (firstEmpty m) = false := by
          rcases firstEmpty_cases m with ⟨h1, h2⟩ | ⟨h1, h2⟩
          · exact absurd h1 hfull
          · exact h2
        rw [searchSolutionsGo_succ_main hdone hfull hbl hempty]
        have hbranch : ∀ p, p < NUM_PIECES → u.getD p false = false →
            ∀ idx ∈ placementsByCell p (firstEmpty m),
            (∀ s, s ∈ branchSols f m u b p idx ↔
              (pieceMask p idx &&& m = 0 ∧
                ∃ t1, IsTiling (m ||| pieceMask p idx) (u.set p true) t1 ∧
                  s = renderT (writeCells (pieceCells p idx) (letterOf p) b)
                    (u.set p true) t1)) ∧
            (branchSols f m u b p idx).Nodup := by
          intro p hp hup idx hidxm
          obtain ⟨hidx, hcmem⟩ := placementsByCell_mem.1 hidxm
          by_cases hov : (pieceMask p idx &&& m != 0) = true
          · constructor
            · intro s
              rw [branchSols, if_pos hov]
              constructor
              · intro hs
                exact absurd hs (List.not_mem_nil s)
              · rintro ⟨hz, -⟩
                rw [hz] at hov
                exact absurd hov (by simp)
            · rw [branchSols, if_pos hov]
              exact List.nodup_nil
          · have hz : pieceMask p idx &&& m = 0 := by
              by_contra hne
              exact hov (by simpa using hne)
            have hcom2 := Committed.extend hcom hp hup hidx hz
            have hcnt2 : unusedCount (u.set p true) < f := by
              have h2 := unusedCount_set hul hp hup
              omega
            obtain ⟨hmem2, hnd2⟩ := ih (m ||| pieceMask p idx) (u.set p true)
              (writeCells (pieceCells p idx) (letterOf p) b) hcom2 hcnt2
            constructor
            · intro s
              rw [branchSols, if_neg hov, hmem2 s]
              constructor
              · rintro ⟨t1, h1, h2⟩
                exact ⟨hz, t1, h1, h2⟩
              · rintro ⟨-, t1, h1, h2⟩
                exact ⟨t1, h1, h2⟩
            · rw [branchSols, if_neg hov]
              exact hnd2
        constructor
        · intro s
          constructor
          · intro hs
            obtain ⟨p, hpmem, hs2⟩ := List.mem_flatMap.1 hs
            rw [List.mem_filter, List.mem_range] at hpmem
            obtain ⟨hp, hupb⟩ := hpmem
            rw [Bool.not_eq_true'] at hupb
            obtain ⟨idx, hidxm, hs3⟩ := List.mem_flatMap.1 hs2
            obtain ⟨hidx, hcmem⟩ := placementsByCell_mem.1 hidxm
            obtain ⟨hz, t1, htil1, hs4⟩ := ((hbranch p hp hupb idx hidxm).1 s).1 hs3
            obtain ⟨ht1, ht2, ht3, ht4⟩ := htil1
            have hub1 : ∀ q, q < NUM_PIECES → q ≠ p → u.getD q false = false →
                (u.set p true).getD q false = false :=
              fun q hq hqp hqu => (getD_set_true_false_iff hul hp).2 ⟨hqp, hqu⟩
            have hB : ∀ q, q < NUM_PIECES → u.getD q false = false →
                (if q = p then idx else t1 q) < numPl q := by
              intro q hq hqu
              by_cases hqp : q = p
              · rw [if_pos hqp, hqp]
                exact hidx
              · rw [if_neg hqp]
                exact ht1 q hq (hub1 q hq hqp hqu)
            have hA : ∀ q, q < NUM_PIECES → u.getD q false = false →
                pieceMask q (if q = p then idx else t1 q) &&& m = 0 := by
              intro q hq hqu
              by_cases hqp : q = p
              · rw [if_pos hqp, hqp]
                exact hz
              · rw [if_neg hqp]
                have h2 := ht2 q hq (hub1 q hq hqp hqu)
                exact and_comm_zero (or_and_eq_zero_left (and_comm_zero h2))
            have hP : ∀ q r, q < NUM_PIECES → r < NUM_PIECES → q ≠ r →
                u.getD q false = false → u.getD r false = false →
                pieceMask q (if q = p then idx else t1 q) &&&
                  pieceMask r (if r = p then idx else t1 r) = 0 := by
              intro q r hq hr hqr hqu hru
              by_cases hqp : q = p
              · have hrp : r ≠ p := fun he => hqr (by rw [hqp, he])
                rw [if_pos hqp, if_neg hrp, hqp]
                have h2 := ht2 r hr (hub1 r hr hrp hru)
                exact or_and_eq_zero_right (and_comm_zero h2)
              · rw [if_neg hqp]
                by_cases hrp : r = p
                · rw [if_pos hrp, hrp]
                  have h2 := ht2 q hq (hub1 q hq hqp hqu)
                  exact and_comm_zero (or_and_eq_zero_right (and_comm_zero h2))
                · rw [if_neg hrp]
                  exact ht3 q r hq hr hqr (hub1 q hq hqp hqu) (hub1 r hr hrp hru)
            have hC : m ||| unionMasks u (fun q => if q = p then idx else t1 q) =
                2 ^ NUM_CELLS - 1 := by
              have hun : unionMasks u (fun q => if q = p then idx else t1 q) =
                  pieceMask p idx ||| unionMasks (u.set p true) t1 :=
                unionMasks_set hul hp hupb
                  (by show (if p = p then idx else t1 p) = idx; rw [if_pos rfl])
                  (fun q hq hqp => by
                    show (if q = p then idx else t1 q) = t1 q
                    rw [if_neg hqp])
              rw [hun, ← Nat.or_assoc]
              exact ht4
            refine ⟨fun q => if q = p then idx else t1 q, ⟨hB, hA, hP, hC⟩, ?_⟩
            rw [hs4]
            exact renderT_extend hul hbl hp hupb hidx
              (by show (if p = p then idx else t1 p) = idx; rw [if_pos rfl])
              (fun q hq hqp => by
                show (if q = p then idx else t1 q) = t1 q
                rw [if_neg hqp])
              hB hP
          · rintro ⟨t, ⟨ht1, ht2, ht3, ht4⟩, hs⟩
            have hcbit2 : (m ||| unionMasks u t).testBit (firstEmpty m) = true := by
              rw [ht4, Nat.testBit_two_pow_sub_one]
              exact decide_eq_true hclt
            rw [Nat.testBit_or, hcbit, Bool.false_or] at hcbit2
            obtain ⟨p, hp, hup, hbitp⟩ := unionMasks_testBit.1 hcbit2
            have hcc : firstEmpty m ∈ pieceCells p (t p) :=
              (pieceMask_testBit (by exact hp) (ht1 p hp hup)).1 hbitp
            have hidxm : t p ∈ placementsByCell p (firstEmpty m) :=
              placementsByCell_mem.2 ⟨ht1 p hp hup, hcc⟩
            refine List.mem_flatMap.2 ⟨p, List.mem_filter.2
              ⟨List.mem_range.2 hp, by rw [hup]; rfl⟩, ?_⟩
            refine List.mem_flatMap.2 ⟨t p, hidxm, ?_⟩
            rw [((hbranch p hp hup (t p) hidxm).1 s)]
            have hz := ht2 p hp hup
            have hub1 : ∀ q, q < NUM_PIECES → q ≠ p → u.getD q false = false →
                (u.set p true).getD q false = false :=
              fun q hq hqp hqu => (getD_set_true_false_iff hul hp).2 ⟨hqp, hqu⟩
            refine ⟨hz, t, ⟨?_, ?_, ?_, ?_⟩, ?_⟩
            · intro q hq hqu
              obtain ⟨hqp, hqu2⟩ := (getD_set_true_false_iff hul hp).1 hqu
              exact ht1 q hq hqu2
            · intro q hq hqu
              obtain ⟨hqp, hqu2⟩ := (getD_set_true_false_iff hul hp).1 hqu
              exact and_or_eq_zero (ht2 q hq hqu2)
                (ht3 q p hq hp hqp hqu2 hup)
            · intro q r hq hr hqr hqu hru
              obtain ⟨hqp, hqu2⟩ := (getD_set_true_false_iff hul hp).1 hqu
              obtain ⟨hrp, hru2⟩ := (getD_set_true_false_iff hul hp).1 hru
              exact ht3 q r hq hr hqr hqu2 hru2
            · have hun : unionMasks u t =
                  pieceMask p (t p) ||| unionMasks (u.set p true) t :=
                unionMasks_set hul hp hup rfl (fun q hq hqp => rfl)
              rw [Nat.or_assoc, ← hun]
              exact ht4
            · rw [hs]
              exact (renderT_extend hul hbl hp hup (ht1 p hp hup) rfl
                (fun q hq hqp => rfl) ht1 ht3).symm
        · refine nodup_flatMap_of (List.Nodup.filter _ (List.nodup_range _)) ?_ ?_
          · intro p hpmem
            rw [List.mem_filter, List.mem_range] at hpmem
            obtain ⟨hp, hupb⟩ := hpmem
            rw [Bool.not_eq_true'] at hupb
            refine nodup_flatMap_of (placementsByCell_nodup p (firstEmpty m)) ?_ ?_
            · intro idx hidxm
              exact (hbranch p hp hupb idx hidxm).2
            · intro idx1 h1 idx2 h2 hne s hs1 hs2
              obtain ⟨hz1, t1, htil1, he1⟩ :=
                ((hbranch p hp hupb idx1 h1).1 s).1 hs1
              obtain ⟨hz2, t2, htil2, he2⟩ :=
                ((hbranch p hp hupb idx2 h2).1 s).1 hs2
              obtain ⟨hidx1, -⟩ := placementsByCell_mem.1 h1
              obtain ⟨hidx2, -⟩ := placementsByCell_mem.1 h2
              have hiff : ∀ w, w < 55 →
                  (w ∈ pieceCells p idx1 ↔ w ∈ pieceCells p idx2) := by
                intro w hw
                have e1 := rendered_letter_iff hcom hp hupb hidx1 htil1
                  (w := w) (by exact hw)
                have e2 := rendered_letter_iff hcom hp hupb hidx2 htil2
                  (w := w) (by exact hw)
                rw [← he1] at e1
                rw [← he2] at e2
                rw [← e1, ← e2]
              exact hne (pieceCells_eq_of_iff (by exact hp) hidx1 hidx2 hiff)
          · intro p1 h1 p2 h2 hne s hs1 hs2
            rw [List.mem_filter, List.mem_range] at h1 h2
            obtain ⟨hp1, hub1⟩ := h1
            obtain ⟨hp2, hub2⟩ := h2
            rw [Bool.not_eq_true'] at hub1 hub2
            obtain ⟨idx1, hidxm1, hs1b⟩ := List.mem_flatMap.1 hs1
            obtain ⟨idx2, hidxm2, hs2b⟩ := List.mem_flatMap.1 hs2
            obtain ⟨hidx1, hc1⟩ := placementsByCell_mem.1 hidxm1
            obtain ⟨hidx2, hc2⟩ := placementsByCell_mem.1 hidxm2
            obtain ⟨hz1, t1, htil1, he1⟩ :=
              ((hbranch p1 hp1 hub1 idx1 hidxm1).1 s).1 hs1b
            obtain ⟨hz2, t2, htil2, he2⟩ :=
              ((hbranch p2 hp2 hub2 idx2 hidxm2).1 s).1 hs2b
            have hL1 : s.getD (firstEmpty m) '.' = letterOf p1 := by
              rw [he1]
              exact (rendered_letter_iff hcom hp1 hub1 hidx1 htil1 hclt).2 hc1
            have hL2 : s.getD (firstEmpty m) '.' = letterOf p2 := by
              rw [he2]
              exact (rendered_letter_iff hcom hp2 hub2 hidx2 htil2 hclt).2 hc2
            exact hne (letterOf_inj p1 (by exact hp1) p2 (by exact hp2)
              (by rw [← hL1, hL2]))

/-! ### The states the partition loop hands to `search` -/

theorem searchSolutions_eq (m : Nat) (u : List Bool) (b : List Char) :
    searchSolutions m u b = searchSolutionsGo (NUM_PIECES + 1) m u b := by
  rw [searchSolutions, search, searchSolutionsGo]

theorem search_sols_append (m : Nat) (u : List Bool) (b : List Char)
    (s : List (List Char)) :
    (search m (u, b, s)).2.2 = s ++ searchSolutions m u b := by
  rw [searchSolutions, search, search, searchGo_append]
  rfl

theorem getD_replicate_self {α : Type} (k n : Nat) (a : α) :
    (List.replicate k a).getD n a = a := by
  rw [List.getD_eq_getElem?_getD, List.getElem?_replicate]
  by_cases h : n < k
  · rw [if_pos h]; rfl
  · rw [if_neg h]; rfl

theorem initUsed_getD_ne : ∀ q, q ≠ 0 → initUsed.getD q false = false := by
  intro q hq
  cases q with
  | zero => exact absurd rfl hq
  | succ n =>
    rw [initUsed, getD_set]
    rw [if_neg (by omega)]
    exact getD_replicate_self NUM_PIECES (n + 1) false

theorem initUsed_getD_zero : initUsed.getD 0 false = true := rfl

theorem letterOf_zero : letterOf 0 = 'A' := by decide

theorem filter_initUsed :
    (List.range NUM_PIECES).filter (fun p => initUsed.getD p false) = [0] := by
  decide

theorem committed_empty :
    Committed 0 (List.replicate NUM_PIECES false) (List.replicate NUM_CELLS '.') := by
  refine ⟨List.length_replicate _ _, List.length_replicate _ _, fun _ => 0, ?_, ?_, ?_, ?_⟩
  · intro q hq hqu
    rw [getD_replicate_self] at hqu
    exact absurd hqu (by simp)
  · intro q r hq hr hqr hqu
    rw [getD_replicate_self] at hqu
    exact absurd hqu (by simp)
  · have hfil : (List.range NUM_PIECES).filter
        (fun p => (List.replicate NUM_PIECES false).getD p false) = [] := by
      decide
    rw [usedMasks, hfil]
    rfl
  · have hnone : ∀ p ∈ List.range NUM_PIECES,
        (List.replicate NUM_PIECES false).getD p false = false := by
      decide
    rw [renderUsed, renderFor_none hnone]

theorem init_committed (i0 : Nat) (h : i0 < numPl 0) :
    Committed (pieceMask 0 i0) initUsed (initChars i0) := by
  have h2 := Committed.extend committed_empty (p := 0) (by decide)
    (by rw [getD_replicate_self]) h (by rw [Nat.and_zero])
  rw [Nat.zero_or] at h2
  have hA : initChars i0 =
      writeCells (pieceCells 0 i0) (letterOf 0) (List.replicate NUM_CELLS '.') := by
    rw [initChars, letterOf_zero]
  rw [initUsed, hA]
  exact h2

/-! ### Letter decoding of a rendered solution -/

theorem renderT_letter_iff {m : Nat} {u : List Bool} {b : List Char} {t1 : Nat → Nat}
    (hcom : Committed m u b) (htil : IsTiling m u t1) {q : Nat}
    (hq : q < NUM_PIECES) (hqu : u.getD q false = false) {w : Nat}
    (hw : w < NUM_CELLS) :
    ((renderT b u t1).getD w '.' = letterOf q) ↔ w ∈ pieceCells q (t1 q) := by
  have hbl : b.length = NUM_CELLS := hcom.2.1
  obtain ⟨ht1, ht2, ht3, ht4⟩ := htil
  constructor
  · intro hlet
    rw [renderT] at hlet
    rcases renderFor_getD_cases (List.range NUM_PIECES)
        (fun r => !(u.getD r false)) t1 (b := b) (w := w) (by omega)
      with h2 | ⟨r, hr, hsr, hwr, he⟩
    · rw [h2] at hlet
      exact absurd hlet (hcom.getD_ne_letterOf hq hqu w)
    · rw [he] at hlet
      rw [List.mem_range] at hr
      rw [Bool.not_eq_true'] at hsr
      have hrq : r = q := letterOf_inj r (by exact hr) q (by exact hq) hlet
      subst hrq
      exact hwr
  · intro hwc
    rw [renderT]
    refine renderFor_getD_mem (List.mem_range.2 hq) (by rw [hqu]; rfl) hwc
      (by omega) ?_
    intro r hr hsr hrq
    rw [List.mem_range] at hr
    rw [Bool.not_eq_true'] at hsr
    exact cells_disjoint_of_mask (by exact hq) (by exact hr) (ht1 q hq hqu)
      (ht1 r hr hsr) (ht3 q r hq hr (fun he => hrq he.symm) hqu hsr) hwc

theorem countP_range_mem {l : List Nat} {n : Nat} (hnd : l.Nodup)
    (hsub : ∀ x ∈ l, x < n) :
    (List.range n).countP (fun w => decide (w ∈ l)) = l.length := by
  rw [List.countP_eq_length_filter]
  refine List.Perm.length_eq ?_
  refine (List.perm_ext_iff_of_nodup (List.Nodup.filter _ (List.nodup_range n)) hnd).2 ?_
  intro a
  rw [List.mem_filter, List.mem_range]
  constructor
  · rintro ⟨-, h2⟩
    exact of_decide_eq_true h2
  · intro h2
    exact ⟨hsub a h2, decide_eq_true h2⟩

/-! ### The striped work partition -/

theorem loopIds_mem {step : Nat} :
    ∀ (n start T : Nat), T - start ≤ n → 0 < step → ∀ i,
    (i ∈ loopIds start T step ↔ (start ≤ i ∧ i < T ∧ (i - start) % step = 0)) := by
  intro n
  induction n with
  | zero =>
    intro start T hT hstep i
    rw [loopIds, dif_neg (by omega)]
    constructor
    · intro h2
      exact absurd h2 (List.not_mem_nil i)
    · rintro ⟨h1, h2, -⟩
      omega
  | succ n ih =>
    intro start T hT hstep i
    by_cases hc : start < T ∧ 0 < step
    · rw [loopIds, dif_pos hc, List.mem_cons,
        ih (start + step) T (by omega) hstep i]
      constructor
      · rintro (rfl | ⟨h1, h2, h3⟩)
        · exact ⟨le_refl i, hc.1, by simp⟩
        · refine ⟨by omega, h2, ?_⟩
          have he : i - start = (i - (start + step)) + step := by omega
          rw [he, Nat.add_mod_right]
          exact h3
      · rintro ⟨h1, h2, h3⟩
        by_cases hi : i = start
        · exact Or.inl hi
        · have hdvd : step ∣ (i - start) := Nat.dvd_of_mod_eq_zero h3
          have hge : step ≤ i - start := Nat.le_of_dvd (by omega) hdvd
          refine Or.inr ⟨by omega, h2, ?_⟩
          have he : i - (start + step) = (i - start) - step := by omega
          rw [he]
          obtain ⟨k, hk⟩ := hdvd
          cases k with
          | zero => omega
          | succ k2 =>
            have hk3 : step * (k2 + 1) = step * k2 + step := by ring
            rw [hk3] at hk
            have hk2 : i - start - step = step * k2 := by omega
            rw [hk2, Nat.mul_mod_right]
    · rw [loopIds, dif_neg hc]
      push_neg at hc
      constructor
      · intro h2
        exact absurd h2 (List.not_mem_nil i)
      · rintro ⟨h1, h2, -⟩
        have h4 := hc (by omega)
        omega

theorem loopIds_mod_mem {N r T : Nat} (hN : 0 < N) (hr : r < N) (i : Nat) :
    i ∈ loopIds r T N ↔ (i < T ∧ i % N = r) := by
  rw [loopIds_mem (T - r) r T (le_refl _) hN i]
  constructor
  · rintro ⟨h1, h2, h3⟩
    refine ⟨h2, ?_⟩
    obtain ⟨k, hk⟩ := Nat.dvd_of_mod_eq_zero h3
    have hik : i = N * k + r := by omega
    rw [hik, Nat.mul_add_mod]
    exact Nat.mod_eq_of_lt hr
  · rintro ⟨h2, hmod⟩
    have hle : r ≤ i := by
      rw [← hmod]
      exact Nat.mod_le i N
    refine ⟨hle, h2, ?_⟩
    have hd := Nat.div_add_mod i N
    have he : i - r = N * (i / N) := by omega
    rw [he, Nat.mul_mod_right]

theorem loopIds_nodup {step : Nat} (hstep : 0 < step) :
    ∀ (n start T : Nat), T - start ≤ n → (loopIds start T step).Nodup := by
  intro n
  induction n with
  | zero =>
    intro start T hT
    rw [loopIds, dif_neg (by omega)]
    exact List.nodup_nil
  | succ n ih =>
    intro start T hT
    by_cases hc : start < T ∧ 0 < step
    · rw [loopIds, dif_pos hc]
      refine List.nodup_cons.2 ⟨?_, ih (start + step) T (by omega)⟩
      intro hmem
      rw [loopIds_mem (T - (start + step)) (start + step) T (le_refl _) hstep
        start] at hmem
      omega
    · rw [loopIds, dif_neg hc]
      exact List.nodup_nil

theorem stripes_perm {N T : Nat} (hN : 0 < N) :
    List.Perm ((List.range N).flatMap (fun r => loopIds r T N)) (List.range T) := by
  refine (List.perm_ext_iff_of_nodup ?_ (List.nodup_range T)).2 ?_
  · refine nodup_flatMap_of (List.nodup_range N) ?_ ?_
    · intro r hr
      exact loopIds_nodup hN (T - r) r T (le_refl _)
    · intro r1 h1 r2 h2 hne i hi1 hi2
      rw [List.mem_range] at h1 h2
      rw [loopIds_mod_mem hN h1 i] at hi1
      rw [loopIds_mod_mem hN h2 i] at hi2
      exact hne (by rw [← hi1.2, hi2.2])
  · intro i
    rw [List.mem_flatMap, List.mem_range]
    constructor
    · rintro ⟨r, hr, hmem⟩
      rw [List.mem_range] at hr
      exact ((loopIds_mod_mem hN hr i).1 hmem).1
    · intro hi
      refine ⟨i % N, List.mem_range.2 (Nat.mod_lt i hN), ?_⟩
      rw [loopIds_mod_mem hN (Nat.mod_lt i hN) i]
      exact ⟨hi, rfl⟩

/-! ### The worker loop as a flat map over its assigned ids -/

theorem foldl_search_append : ∀ (ids : List Nat) (sols : List (List Char)),
    ids.foldl (fun sols2 i0 =>
      (search (pieceMask 0 i0) (initUsed, initChars i0, sols2)).2.2) sols =
      sols ++ ids.flatMap
        (fun i0 => searchSolutions (pieceMask 0 i0) initUsed (initChars i0)) := by
  intro ids
  induction ids with
  | nil => intro sols; simp
  | cons i0 rest ih =>
    intro sols
    rw [List.foldl_cons, search_sols_append, ih, List.flatMap_cons,
      List.append_assoc]

theorem runWorker_eq (r N : Nat) :
    runWorker r N = (loopIds r totalPlacements0 N).flatMap
      (fun i0 => searchSolutions (pieceMask 0 i0) initUsed (initChars i0)) := by
  rw [runWorker, foldl_search_append, List.nil_append]

theorem flatMap_congr_mem {α β : Type} {l : List α} {f g : α → List β}
    (h : ∀ a ∈ l, f a = g a) : l.flatMap f = l.flatMap g := by
  induction l with
  | nil => rfl
  | cons a rest ih =>
    rw [List.flatMap_cons, List.flatMap_cons, h a (List.mem_cons_self a rest),
      ih (fun x hx => h x (List.mem_cons_of_mem a hx))]

theorem allSolutionsOut_perm {N : Nat} (hN : 0 < N) :
    List.Perm (allSolutionsOut N)
      ((List.range totalPlacements0).flatMap
        (fun i0 => searchSolutions (pieceMask 0 i0) initUsed (initChars i0))) := by
  rw [allSolutionsOut]
  have h1 : (List.range N).flatMap (fun r => runWorker r N) =
      ((List.range N).flatMap (fun r => loopIds r totalPlacements0 N)).flatMap
        (fun i0 => searchSolutions (pieceMask 0 i0) initUsed (initChars i0)) := by
    rw [List.flatMap_assoc]
    exact flatMap_congr_mem (fun r _ => runWorker_eq r N)
  rw [h1]
  exact List.Perm.flatMap_right _ (stripes_perm hN)

theorem foldl_add_eq_sum : ∀ (l : List Nat) (a : Nat),
    l.foldl (fun x y => x + y) a = a + l.sum := by
  intro l
  induction l with
  | nil => intro a; simp
  | cons c rest ih =>
    intro a
    rw [List.foldl_cons, ih, List.sum_cons]
    omega

theorem totalSolutions_eq_length (N : Nat) :
    totalSolutions N = (allSolutionsOut N).length := by
  rw [totalSolutions, foldl_add_eq_sum, Nat.zero_add, allSolutionsOut,
    List.length_flatMap, allCounts]
  rfl

/-! ### The coordinator's gather and output -/

theorem getD_map_range {α : Type} (f : Nat → α) {N r : Nat} (hr : r < N) (d : α) :
    (((List.range N).map f).getD r d) = f r := by
  rw [List.getD_eq_getElem?_getD, List.getElem?_map, List.getElem?_range hr]
  rfl

theorem allCounts_length (N : Nat) : (allCounts N).length = N := by
  rw [allCounts, List.length_map, List.length_range]

theorem allCounts_getD {N r : Nat} (hr : r < N) :
    (allCounts N).getD r 0 = (runWorker r N).length := by
  rw [allCounts, getD_map_range _ hr]

theorem runWorker_sol_length (r N : Nat) :
    ∀ s ∈ runWorker r N, s.length = NUM_CELLS := by
  intro s hs
  rw [runWorker_eq] at hs
  obtain ⟨i0, hi0, hsm⟩ := List.mem_flatMap.1 hs
  by_cases hN : 0 < N
  · have hi0T : i0 < totalPlacements0 := ((loopIds_mem (totalPlacements0 - r) r
      totalPlacements0 (le_refl _) hN i0).1 hi0).2.1
    have hi0n : i0 < numPl 0 := by
      rw [totalPlacements0] at hi0T
      exact hi0T
    rw [searchSolutions_eq] at hsm
    obtain ⟨hmem, -⟩ := searchGo_exact (NUM_PIECES + 1) (pieceMask 0 i0) initUsed
      (initChars i0) (init_committed i0 hi0n)
      (by rw [unusedCount_initUsed]; decide)
    obtain ⟨t1, -, hs2⟩ := (hmem s).1 hsm
    rw [hs2, renderT, renderFor_length, initChars, writeCells_length,
      List.length_replicate]
  · rw [loopIds, dif_neg (by omega)] at hi0
    exact absurd hi0 (List.not_mem_nil i0)

theorem localBuf_length (r N : Nat) :
    (localBuf r N).length = (runWorker r N).length * NUM_CELLS := by
  rw [localBuf, List.length_flatMap]
  have h1 : List.map (List.length ∘ fun s => s) (runWorker r N) =
      List.map (fun _ => NUM_CELLS) (runWorker r N) :=
    List.map_congr_left (fun s hs => runWorker_sol_length r N s hs)
  rw [h1, List.map_const', List.sum_replicate, smul_eq_mul]

theorem scanDispls_getD : ∀ (l : List Nat) (off r : Nat), r < l.length →
    (scanDispls l off).getD r 0 =
      off + ((l.take r).map (fun c => c * NUM_CELLS)).sum := by
  intro l
  induction l with
  | nil =>
    intro off r hr
    simp at hr
  | cons c rest ih =>
    intro off r hr
    rw [scanDispls]
    cases r with
    | zero =>
      rw [List.getD_cons_zero, List.take_zero, List.map_nil, List.sum_nil]
      omega
    | succ r2 =>
      rw [List.getD_cons_succ, ih (off + c * NUM_CELLS) r2 (by simpa using hr),
        List.take_succ_cons, List.map_cons, List.sum_cons]
      omega

theorem allCounts_take_map (N k : Nat) (hk : k ≤ N) :
    ((allCounts N).take k).map (fun c => c * NUM_CELLS) =
      (List.range k).map (fun r => (runWorker r N).length * NUM_CELLS) := by
  rw [allCounts, ← List.map_take, List.take_range, Nat.min_eq_left hk,
    List.map_map]
  rfl

theorem displs_getD (N k : Nat) (hk : k < N) :
    (displs N).getD k 0 =
      ((List.range k).map (fun r => (runWorker r N).length * NUM_CELLS)).sum := by
  rw [displs, scanDispls_getD _ 0 k (by rw [allCounts_length]; exact hk),
    Nat.zero_add, allCounts_take_map N k (le_of_lt hk)]

theorem flat_length (N k : Nat) :
    ((List.range k).flatMap (fun r => localBuf r N)).length =
      ((List.range k).map (fun r => (runWorker r N).length * NUM_CELLS)).sum := by
  rw [List.length_flatMap]
  refine congrArg List.sum (List.map_congr_left ?_)
  intro r _
  exact localBuf_length r N

theorem foldl_mul_sum : ∀ (l : List Nat) (a : Nat),
    l.foldl (fun acc c => acc + c * NUM_CELLS) a =
      a + (l.map (fun c => c * NUM_CELLS)).sum := by
  intro l
  induction l with
  | nil => intro a; simp
  | cons c rest ih =>
    intro a
    rw [List.foldl_cons, ih, List.map_cons, List.sum_cons]
    omega

theorem recvTotal_eq (N : Nat) :
    recvTotal N =
      ((List.range N).map (fun r => (runWorker r N).length * NUM_CELLS)).sum := by
  rw [recvTotal, foldl_mul_sum, Nat.zero_add, allCounts, List.map_map]
  rfl

theorem gatherWrite_concat (pre data rest2 : List Char) :
    gatherWrite (pre ++ rest2) pre.length data =
      pre ++ data ++ rest2.drop data.length := by
  rw [gatherWrite, List.take_left, List.drop_append]

theorem recvBuf_partial (N : Nat) : ∀ k, k ≤ N →
    (List.range k).foldl
      (fun buf r => gatherWrite buf ((displs N).getD r 0) (localBuf r N))
      (List.replicate (recvTotal N) (Char.ofNat 0)) =
    ((List.range k).flatMap (fun r => localBuf r N)) ++
      List.replicate
        (recvTotal N - ((List.range k).flatMap (fun r => localBuf r N)).length)
        (Char.ofNat 0) := by
  intro k
  induction k with
  | zero =>
    intro _
    simp
  | succ k ih =>
    intro hk
    rw [List.range_succ, List.foldl_append, List.foldl_cons, List.foldl_nil,
      ih (by omega)]
    have hoff : (displs N).getD k 0 =
        ((List.range k).flatMap (fun r => localBuf r N)).length := by
      rw [displs_getD N k (by omega), flat_length]
    rw [hoff, gatherWrite_concat, List.drop_replicate]
    rw [List.flatMap_append, List.flatMap_cons, List.flatMap_nil, List.append_nil]
    rw [List.append_assoc, List.length_append, Nat.sub_sub, List.append_assoc]

theorem recvBuf_flat (N : Nat) :
    recvBuf N = (List.range N).flatMap (fun r => localBuf r N) := by
  rw [recvBuf, recvBuf_partial N N (le_refl N), flat_length, ← recvTotal_eq,
    Nat.sub_self, List.replicate_zero, List.append_nil]

theorem slice_flat_records : ∀ (L : List (List Char)) (tail2 : List Char),
    (∀ x ∈ L, x.length = NUM_CELLS) → ∀ s, s < L.length →
    sliceAt ((L.flatMap (fun x => x)) ++ tail2) (s * NUM_CELLS) NUM_CELLS =
      L.getD s [] := by
  intro L
  induction L with
  | nil =>
    intro tail2 _ s hs
    simp at hs
  | cons x rest ih =>
    intro tail2 hlen s hs
    cases s with
    | zero =>
      rw [List.flatMap_cons, sliceAt, Nat.zero_mul, List.drop_zero,
        List.getD_cons_zero]
      have hx : x.length = NUM_CELLS := hlen x (List.mem_cons_self x rest)
      rw [List.append_assoc, ← hx, List.take_left]
    | succ s2 =>
      rw [List.flatMap_cons, sliceAt, List.getD_cons_succ, List.append_assoc]
      have hx : x.length = NUM_CELLS := hlen x (List.mem_cons_self x rest)
      have he : (s2 + 1) * NUM_CELLS = x.length + s2 * NUM_CELLS := by
        rw [hx]
        ring
      rw [he, List.drop_append]
      have h2 := ih tail2 (fun y hy => hlen y (List.mem_cons_of_mem x hy)) s2
        (by simpa using hs)
      rw [sliceAt] at h2
      exact h2

theorem slice_shift (x y : List Char) (k len : Nat) :
    sliceAt (x ++ y) (x.length + k) len = sliceAt y k len := by
  rw [sliceAt, sliceAt, List.drop_append]

theorem outputBoards_slice : ∀ (W : List (List (List Char))) (tail2 : List Char),
    (∀ w ∈ W, ∀ x ∈ w, x.length = NUM_CELLS) →
    ∀ r, r < W.length → ∀ s, s < (W.getD r []).length →
    sliceAt ((W.flatMap (fun w => w.flatMap (fun x => x))) ++ tail2)
      (((W.take r).map (fun w => (w.flatMap (fun x => x)).length)).sum +
        s * NUM_CELLS) NUM_CELLS = (W.getD r []).getD s [] := by
  intro W
  induction W with
  | nil =>
    intro tail2 _ r hr
    simp at hr
  | cons w W2 ih =>
    intro tail2 hlen r hr s hs
    cases r with
    | zero =>
      rw [List.getD_cons_zero] at hs ⊢
      rw [List.take_zero, List.map_nil, List.sum_nil, Nat.zero_add,
        List.flatMap_cons, List.append_assoc]
      exact slice_flat_records w _ (hlen w (List.mem_cons_self w W2)) s hs
    | succ r2 =>
      rw [List.getD_cons_succ] at hs ⊢
      rw [List.take_succ_cons, List.map_cons, List.sum_cons, List.flatMap_cons,
        List.append_assoc, Nat.add_assoc, slice_shift]
      exact ih tail2 (fun v hv => hlen v (List.mem_cons_of_mem w hv)) r2
        (by simpa using hr) s hs

theorem map_range_getD {α : Type} (d : α) : ∀ (L : List α) (g : Nat → α),
    (∀ s, s < L.length → g s = L.getD s d) →
    (List.range L.length).map g = L := by
  intro L
  induction L with
  | nil =>
    intro g _
    rfl
  | cons x rest ih =>
    intro g hg
    rw [List.length_cons, List.range_succ_eq_map, List.map_cons, List.map_map]
    rw [hg 0 (by simp), List.getD_cons_zero]
    congr 1
    refine ih (g ∘ Nat.succ) ?_
    intro s hsl
    have h2 := hg (s + 1) (by simpa using Nat.succ_lt_succ hsl)
    rw [List.getD_cons_succ] at h2
    exact h2

theorem outputBoards_eq (N : Nat) : outputBoards N = allSolutionsOut N := by
  rw [outputBoards, allSolutionsOut]
  refine flatMap_congr_mem ?_
  intro r hr
  rw [List.mem_range] at hr
  rw [allCounts_getD hr]
  have hlen : ∀ w ∈ (List.range N).map (fun j => runWorker j N),
      ∀ x ∈ w, x.length = NUM_CELLS := by
    intro w hw x hx
    obtain ⟨j, hj, hwj⟩ := List.mem_map.1 hw
    subst hwj
    exact runWorker_sol_length j N x hx
  refine map_range_getD [] (runWorker r N) _ ?_
  intro s hs
  have hG := outputBoards_slice ((List.range N).map (fun j => runWorker j N)) []
    hlen r (by rw [List.length_map, List.length_range]; exact hr) s
    (by rw [getD_map_range _ hr]; exact hs)
  rw [List.append_nil, getD_map_range _ hr] at hG
  have hflat : ((List.range N).map (fun j => runWorker j N)).flatMap
      (fun w => w.flatMap (fun x => x)) =
      (List.range N).flatMap (fun j => localBuf j N) := by
    rw [List.flatMap_map]
    rfl
  rw [hflat] at hG
  have hoffW : ((((List.range N).map (fun j => runWorker j N)).take r).map
      (fun w => (w.flatMap (fun x => x)).length)).sum = (displs N).getD r 0 := by
    rw [← List.map_take, List.take_range, Nat.min_eq_left (le_of_lt hr),
      List.map_map, displs_getD N r hr]
    refine congrArg List.sum (List.map_congr_left ?_)
    intro j _
    show ((runWorker j N).flatMap (fun x => x)).length =
      (runWorker j N).length * NUM_CELLS
    exact localBuf_length j N
  rw [hoffW] at hG
  rw [← recvBuf_flat] at hG
  exact hG

/-! ### States reachable by the program's calls to `search` -/

theorem Committed.empty_dot {m : Nat} {u : List Bool} {b : List Char}
    (h : Committed m u b) :
    ∀ c, c < NUM_CELLS → m.testBit c = false → b.getD c '.' = '.' := by
  intro c hc hbit
  have hcons := h.consistent
  by_contra hne
  have h2 := (hcons.2 c hc).2 hne
  rw [h2] at hbit
  exact absurd hbit (by simp)

/-- The entry states of `search`: the partition loop's initial states (piece 0
committed at one of its placements), closed under the commit performed just
before each recursive call. -/
inductive ReachableCall : Nat → List Bool → List Char → Prop where
  | init : ∀ i0, i0 < numPl 0 →
      ReachableCall (pieceMask 0 i0) initUsed (initChars i0)
  | step : ∀ {m : Nat} {u : List Bool} {b : List Char} (p idx : Nat),
      ReachableCall m u b → p < NUM_PIECES → u.getD p false = false →
      idx ∈ placementsByCell p (firstEmpty m) → pieceMask p idx &&& m = 0 →
      ReachableCall (m ||| pieceMask p idx) (u.set p true)
        (writeCells (pieceCells p idx) (letterOf p) b)

theorem reachable_committed {m : Nat} {u : List Bool} {b : List Char}
    (h : ReachableCall m u b) : Committed m u b := by
  induction h with
  | init i0 h0 => exact init_committed i0 h0
  | step p idx h2 hp hup hidx hov ih =>
    exact Committed.extend ih hp hup (placementsByCell_mem.1 hidx).1 hov

/-! ### Well-formed parser input, rendered as the table renders it -/

/-- A whitespace-separated list of two-character tokens, each pair of digit
characters separated by exactly one blank (the format of every entry of the
program's fixed `pieceShapes` table). -/
def tokenString : List (Char × Char) → List Char
  | [] => []
  | [(c1, c2)] => [c1, c2]
  | (c1, c2) :: t2 :: rest => c1 :: c2 :: ' ' :: tokenString (t2 :: rest)

theorem parseShapeAux_tokens : ∀ ts : List (Char × Char),
    parseShapeAux (tokenString ts) =
      ts.map (fun t => ((t.1.toNat : Int) - 48, (t.2.toNat : Int) - 48)) := by
  intro ts
  induction ts with
  | nil => rfl
  | cons t rest ih =>
    cases rest with
    | nil =>
      obtain ⟨c1, c2⟩ := t
      rfl
    | cons t2 rest2 =>
      obtain ⟨c1, c2⟩ := t
      show parseShapeAux (c1 :: c2 :: ' ' :: tokenString (t2 :: rest2)) = _
      rw [parseShapeAux, ih]
      rfl

/-! ### The claims -/

/-- C4: every solution snapshot appended by the search started from a
partition-loop state has all 55 cells holding a piece letter (no `'.'`
remaining); there is an assignment of one placement per piece — piece 0
carrying exactly the committed placement `i0` — such that each piece's letter
appears exactly at that placement's cells (so its count is that placement's
cell count), and no two pieces' committed cell sets intersect. -/
theorem C4_theorem (i0 : Nat) (h0 : i0 < numPl 0) :
    ∀ s ∈ searchSolutions (pieceMask 0 i0) initUsed (initChars i0),
      s.length = NUM_CELLS ∧
      (∀ w, w < NUM_CELLS → ∃ p, p < NUM_PIECES ∧ s.getD w '.' = letterOf p) ∧
      (∀ w, w < NUM_CELLS → s.getD w '.' ≠ '.') ∧
      ∃ t : Nat → Nat, t 0 = i0 ∧
        (∀ p, p < NUM_PIECES → t p < numPl p) ∧
        (∀ p, p < NUM_PIECES → ∀ w, w < NUM_CELLS →
          (s.getD w '.' = letterOf p ↔ w ∈ pieceCells p (t p))) ∧
        (∀ p, p < NUM_PIECES →
          (List.range NUM_CELLS).countP
            (fun w => decide (s.getD w '.' = letterOf p)) =
            (pieceCells p (t p)).length) ∧
        (∀ p q, p < NUM_PIECES → q < NUM_PIECES → p ≠ q →
          ∀ w, w ∈ pieceCells p (t p) → w ∉ pieceCells q (t q)) := by
  intro s hs
  have hcomI := init_committed i0 h0
  rw [searchSolutions_eq] at hs
  obtain ⟨hmem, -⟩ := searchGo_exact (NUM_PIECES + 1) (pieceMask 0 i0) initUsed
    (initChars i0) hcomI (by rw [unusedCount_initUsed]; decide)
  obtain ⟨t1, htil, hs2⟩ := (hmem s).1 hs
  have hslen : s.length = NUM_CELLS := by
    rw [hs2, renderT, renderFor_length, initChars, writeCells_length,
      List.length_replicate]
  -- the letter positions of piece 0 are the cells of the committed placement
  have htil0 : IsTiling (0 ||| pieceMask 0 i0)
      ((List.replicate NUM_PIECES false).set 0 true) t1 := by
    rw [Nat.zero_or]
    exact htil
  have hsm : s = renderT (writeCells (pieceCells 0 i0) (letterOf 0)
      (List.replicate NUM_CELLS '.'))
      ((List.replicate NUM_PIECES false).set 0 true) t1 := by
    rw [hs2, initChars, letterOf_zero]
    rfl
  have hA : ∀ w, w < NUM_CELLS →
      (s.getD w '.' = letterOf 0 ↔ w ∈ pieceCells 0 i0) := by
    intro w hw
    have he := rendered_letter_iff committed_empty (by decide)
      (by rw [getD_replicate_self]) h0 htil0 (w := w) hw
    rw [← hsm] at he
    exact he
  have hU : ∀ q, q < NUM_PIECES → q ≠ 0 → ∀ w, w < NUM_CELLS →
      (s.getD w '.' = letterOf q ↔ w ∈ pieceCells q (t1 q)) := by
    intro q hq hq0 w hw
    have he := renderT_letter_iff hcomI htil hq (initUsed_getD_ne q hq0)
      (w := w) hw
    rw [← hs2] at he
    exact he
  obtain ⟨ht1, ht2, ht3, ht4⟩ := htil
  have hiff : ∀ p, p < NUM_PIECES → ∀ w, w < NUM_CELLS →
      (s.getD w '.' = letterOf p ↔
        w ∈ pieceCells p (if p = 0 then i0 else t1 p)) := by
    intro p hp w hw
    by_cases hp0 : p = 0
    · subst hp0
      rw [if_pos rfl]
      exact hA w hw
    · rw [if_neg hp0]
      exact hU p hp hp0 w hw
  have hb2 : ∀ p, p < NUM_PIECES → (if p = 0 then i0 else t1 p) < numPl p := by
    intro p hp
    by_cases hp0 : p = 0
    · subst hp0
      rw [if_pos rfl]
      exact h0
    · rw [if_neg hp0]
      exact ht1 p hp (initUsed_getD_ne p hp0)
  have hcover : ∀ w, w < NUM_CELLS → ∃ p, p < NUM_PIECES ∧
      s.getD w '.' = letterOf p := by
    intro w hw
    have hbitw : (pieceMask 0 i0 ||| unionMasks initUsed t1).testBit w = true := by
      rw [ht4, Nat.testBit_two_pow_sub_one]
      exact decide_eq_true hw
    rw [Nat.testBit_or] at hbitw
    rcases Bool.or_eq_true_iff.1 hbitw with hb | hb
    · refine ⟨0, by decide, ?_⟩
      refine (hA w hw).2 ?_
      exact (pieceMask_testBit (by decide) h0).1 hb
    · obtain ⟨q, hq, hqu, hbit⟩ := unionMasks_testBit.1 hb
      have hq0 : q ≠ 0 := by
        intro he
        subst he
        rw [initUsed_getD_zero] at hqu
        exact absurd hqu (by simp)
      refine ⟨q, hq, ?_⟩
      refine (hU q hq hq0 w hw).2 ?_
      exact (pieceMask_testBit (by exact hq) (ht1 q hq hqu)).1 hbit
  refine ⟨hslen, hcover, ?_, fun p => if p = 0 then i0 else t1 p,
    by show (if (0 : Nat) = 0 then i0 else t1 0) = i0; rw [if_pos rfl],
    hb2, hiff, ?_, ?_⟩
  · intro w hw
    obtain ⟨p, hp, hlet⟩ := hcover w hw
    rw [hlet]
    exact letterOf_ne_dot p (by exact hp)
  · intro p hp
    have hcongr : (List.range NUM_CELLS).countP
        (fun w => decide (s.getD w '.' = letterOf p)) =
        (List.range NUM_CELLS).countP
          (fun w => decide (w ∈ pieceCells p (if p = 0 then i0 else t1 p))) := by
      refine List.countP_congr ?_
      intro w hwmem
      rw [List.mem_range] at hwmem
      simp only [decide_eq_true_eq]
      exact hiff p hp w hwmem
    rw [hcongr]
    exact countP_range_mem (pieceCells_nodup (by exact hp) (hb2 p hp))
      (pieceCells_lt (by exact hp) (hb2 p hp))
  · intro p q hp hq hpq w hwp hwq
    have hwp2 : w ∈ pieceCells p (if p = 0 then i0 else t1 p) := hwp
    have hwq2 : w ∈ pieceCells q (if q = 0 then i0 else t1 q) := hwq
    by_cases hp0 : p = 0
    · subst hp0
      rw [if_pos rfl] at hwp2
      have hq0 : q ≠ 0 := fun he => hpq he.symm
      rw [if_neg hq0] at hwq2
      have hzq := ht2 q hq (initUsed_getD_ne q hq0)
      exact cells_disjoint_of_mask (by decide) (by exact hq) h0
        (ht1 q hq (initUsed_getD_ne q hq0)) (and_comm_zero hzq) hwp2 hwq2
    · rw [if_neg hp0] at hwp2
      by_cases hq0 : q = 0
      · subst hq0
        rw [if_pos rfl] at hwq2
        have hzp := ht2 p hp (initUsed_getD_ne p hp0)
        exact cells_disjoint_of_mask (by exact hp) (by decide)
          (ht1 p hp (initUsed_getD_ne p hp0)) h0 hzp hwp2 hwq2
      · rw [if_neg hq0] at hwq2
        exact cells_disjoint_of_mask (by exact hp) (by exact hq)
          (ht1 p hp (initUsed_getD_ne p hp0)) (ht1 q hq (initUsed_getD_ne q hq0))
          (ht3 p q hp hq hpq (initUsed_getD_ne p hp0) (initUsed_getD_ne q hq0))
          hwp2 hwq2

/-- C1 (amended to committed states): for every committed search state —
the shape of every state the program hands to `search` — the engine appends
exactly the distinct complete tilings extending `(m, u)`, rendered on `b`,
and at a state that is neither finished nor stuck it branches exactly over
the placements of unused pieces that cover the lowest-indexed empty cell,
skipping those whose mask intersects the board mask. -/
theorem C1_theorem (m : Nat) (u : List Bool) (b : List Char)
    (hcom : Committed m u b) :
    (∀ s, s ∈ searchSolutions m u b ↔
      ∃ t, IsTiling m u t ∧ s = renderT b u t) ∧
    (searchSolutions m u b).Nodup ∧
    (¬ (∀ p, p < NUM_PIECES → u.getD p false = true) →
      ¬ NUM_CELLS ≤ firstEmpty m →
      searchSolutions m u b =
        ((List.range NUM_PIECES).filter (fun p => !(u.getD p false))).flatMap
          (fun p => (placementsByCell p (firstEmpty m)).flatMap
            (branchSols NUM_PIECES m u b p))) := by
  have hcnt : unusedCount u < NUM_PIECES + 1 := by
    have h2 := unusedCount_le u
    omega
  obtain ⟨hmem, hnd⟩ := searchGo_exact (NUM_PIECES + 1) m u b hcom hcnt
  refine ⟨?_, ?_, ?_⟩
  · intro s
    rw [searchSolutions_eq]
    exact hmem s
  · rw [searchSolutions_eq]
    exact hnd
  · intro hnotall hnotfull
    rw [searchSolutions_eq]
    exact searchSolutionsGo_succ_main
      (fun hb => hnotall (usedAll_iff.1 hb)) hnotfull hcom.2.1 hcom.empty_dot

/-- C1 counterexample to the literal quantification over consistent states:
the all-used vector with the zero mask and the all-dots buffer is consistent,
yet the engine appends the all-dots snapshot even though no complete tiling
of that state exists (every cell is left uncovered). -/
theorem C1_counterexample :
    Consistent 0 (List.replicate NUM_CELLS '.') ∧
    searchSolutions 0 (List.replicate NUM_PIECES true)
      (List.replicate NUM_CELLS '.') = [List.replicate NUM_CELLS '.'] ∧
    ¬ ∃ t, IsTiling 0 (List.replicate NUM_PIECES true) t := by
  refine ⟨⟨List.length_replicate _ _, ?_⟩, searchSolutions_allused_eval, ?_⟩
  · intro c hc
    constructor
    · intro hbit
      rw [Nat.zero_testBit] at hbit
      exact absurd hbit (by simp)
    · intro hne
      rw [replicate_dot_getD] at hne
      exact absurd rfl hne
  · rintro ⟨t, ht1, ht2, ht3, ht4⟩
    have hfil : (List.range NUM_PIECES).filter
        (fun p => !((List.replicate NUM_PIECES true).getD p false)) = [] := by
      decide
    rw [unionMasks, hfil] at ht4
    have h2 : (0 : Nat) ||| 0 = 2 ^ NUM_CELLS - 1 := ht4
    rw [Nat.zero_or] at h2
    exact absurd h2 (by decide)

theorem C1_witness :
    Committed 0 (List.replicate NUM_PIECES false) (List.replicate NUM_CELLS '.') ∧
    (∀ s, s ∈ searchSolutions 0 (List.replicate NUM_PIECES false)
        (List.replicate NUM_CELLS '.') ↔
      ∃ t, IsTiling 0 (List.replicate NUM_PIECES false) t ∧
        s = renderT (List.replicate NUM_CELLS '.')
          (List.replicate NUM_PIECES false) t) :=
  ⟨committed_empty,
    (C1_theorem 0 (List.replicate NUM_PIECES false) (List.replicate NUM_CELLS '.')
      committed_empty).1⟩

/-- C2: for a worker count `N` in `[1, totalPlacements0]`, rank `r`'s id
sequence is exactly the ids below `totalPlacements0` congruent to `r`
modulo `N`, and every id below `totalPlacements0` lies in exactly one rank's
sequence. -/
theorem C2_theorem (N : Nat) (h1 : 1 ≤ N) (h2 : N ≤ totalPlacements0) :
    (∀ r, r < N → ∀ i,
      (i ∈ loopIds r totalPlacements0 N ↔
        (i < totalPlacements0 ∧ i % N = r))) ∧
    (∀ i, i < totalPlacements0 → ∃ r, r < N ∧
      i ∈ loopIds r totalPlacements0 N ∧
      ∀ r2, r2 < N → i ∈ loopIds r2 totalPlacements0 N → r2 = r) := by
  constructor
  · intro r hr i
    exact loopIds_mod_mem (by omega) hr i
  · intro i hi
    refine ⟨i % N, Nat.mod_lt i (by omega), ?_, ?_⟩
    · rw [loopIds_mod_mem (by omega) (Nat.mod_lt i (by omega)) i]
      exact ⟨hi, rfl⟩
    · intro r2 hr2 hmem
      rw [loopIds_mod_mem (by omega) hr2 i] at hmem
      exact hmem.2.symm

theorem C2_witness : 1 ≤ 4 ∧ 4 ≤ totalPlacements0 ∧
    (∀ r, r < 4 → ∀ i,
      (i ∈ loopIds r totalPlacements0 4 ↔
        (i < totalPlacements0 ∧ i % 4 = r))) :=
  ⟨by norm_num, by rw [totalPlacements0_eq]; norm_num,
    (C2_theorem 4 (by norm_num) (by rw [totalPlacements0_eq]; norm_num)).1⟩

/-- C3: at every state reachable from the program's initialization — the
partition loop's entry states and every interior state of the recursion tree —
a `search` call returns the used-pieces vector and the board buffer exactly as
they were at the call (the board mask is passed by value and is an unchanged
argument of the embedding). -/
theorem C3_theorem (m : Nat) (u : List Bool) (b : List Char)
    (h : ReachableCall m u b) (s : List (List Char)) :
    (search m (u, b, s)).1 = u ∧ (search m (u, b, s)).2.1 = b := by
  have hcom := reachable_committed h
  rw [search]
  exact searchGo_restore (NUM_PIECES + 1) m u b hcom.2.1 hcom.empty_dot s

theorem C3_witness :
    (search (pieceMask 0 0) (initUsed, initChars 0, [])).1 = initUsed ∧
    (search (pieceMask 0 0) (initUsed, initChars 0, [])).2.1 = initChars 0 :=
  C3_theorem (pieceMask 0 0) initUsed (initChars 0)
    (ReachableCall.init 0 (by rw [numPl0_eq]; norm_num)) []

theorem C4_witness : 0 < numPl 0 ∧
    ∀ s ∈ searchSolutions (pieceMask 0 0) initUsed (initChars 0),
      s.length = NUM_CELLS ∧
      (∀ w, w < NUM_CELLS → ∃ p, p < NUM_PIECES ∧ s.getD w '.' = letterOf p) ∧
      (∀ w, w < NUM_CELLS → s.getD w '.' ≠ '.') ∧
      ∃ t : Nat → Nat, t 0 = 0 ∧
        (∀ p, p < NUM_PIECES → t p < numPl p) ∧
        (∀ p, p < NUM_PIECES → ∀ w, w < NUM_CELLS →
          (s.getD w '.' = letterOf p ↔ w ∈ pieceCells p (t p))) ∧
        (∀ p, p < NUM_PIECES →
          (List.range NUM_CELLS).countP
            (fun w => decide (s.getD w '.' = letterOf p)) =
            (pieceCells p (t p)).length) ∧
        (∀ p q, p < NUM_PIECES → q < NUM_PIECES → p ≠ q →
          ∀ w, w ∈ pieceCells p (t p) → w ∉ pieceCells q (t q)) :=
  ⟨by rw [numPl0_eq]; norm_num, C4_theorem 0 (by rw [numPl0_eq]; norm_num)⟩

/-- C5: the full solve is worker-count independent at the set level: any two
positive worker counts yield the same total, a permutation of each other's
rank-ordered outputs, and the same membership of 55-character solution
boards. -/
theorem C5_theorem (N1 N2 : Nat) (h1 : 1 ≤ N1) (h2 : 1 ≤ N2) :
    totalSolutions N1 = totalSolutions N2 ∧
    List.Perm (allSolutionsOut N1) (allSolutionsOut N2) ∧
    (∀ s, s ∈ allSolutionsOut N1 ↔ s ∈ allSolutionsOut N2) := by
  have hperm : List.Perm (allSolutionsOut N1) (allSolutionsOut N2) :=
    (allSolutionsOut_perm (by omega)).trans (allSolutionsOut_perm (by omega)).symm
  refine ⟨?_, hperm, fun s => hperm.mem_iff⟩
  rw [totalSolutions_eq_length, totalSolutions_eq_length]
  exact hperm.length_eq

theorem C5_witness : totalSolutions 1 = totalSolutions 4 ∧
    (∀ s, s ∈ allSolutionsOut 1 ↔ s ∈ allSolutionsOut 4) := by
  have h := C5_theorem 1 4 (by norm_num) (by norm_num)
  exact ⟨h.1, h.2.2⟩

/-- C6: every placement of every piece has exactly as many cell indices as the
piece's parsed base shape has cells, all indices below 55 and pairwise
distinct, and the popcount of its mask equals the cell count. -/
theorem C6_theorem (p : Nat) (hp : p < NUM_PIECES) (idx : Nat)
    (hidx : idx < numPl p) :
    (pieceCells p idx).length = sizeOfPiece p ∧
    (∀ c ∈ pieceCells p idx, c < NUM_CELLS) ∧
    (pieceCells p idx).Nodup ∧
    popcount64 (pieceMask p idx) = (pieceCells p idx).length :=
  ⟨pieceCells_length (by exact hp) hidx,
    fun c hc => pieceCells_lt (by exact hp) hidx c hc,
    pieceCells_nodup (by exact hp) hidx,
    pieceMask_popcount (by exact hp) hidx⟩

theorem C6_witness :
    (pieceCells 0 0).length = sizeOfPiece 0 ∧
    (∀ c ∈ pieceCells 0 0, c < NUM_CELLS) ∧
    (pieceCells 0 0).Nodup ∧
    popcount64 (pieceMask 0 0) = (pieceCells 0 0).length :=
  C6_theorem 0 (by decide) 0 (by rw [numPl0_eq]; norm_num)

/-- C7: every piece's orientation set has between 1 and 8 members and is
closed under the dihedral group of order 8: any of the 8 transforms applied
to a member, then normalized, is again a member. -/
theorem C7_theorem (p : Nat) (hp : p < NUM_PIECES) :
    (1 ≤ (orientationsOf p).length ∧ (orientationsOf p).length ≤ 8) ∧
    ∀ s ∈ orientationsOf p, ∀ re, re < 2 → ∀ ro, ro < 4 →
      normalizeShape (s.map (transformPoint (re == 1) ro)) ∈ orientationsOf p := by
  constructor
  · constructor
    · rw [orientationsOf]
      exact generateOrientations_length_pos _
    · rw [orientationsOf]
      exact generateOrientations_length_le _
  · intro s hs re hre ro hro
    exact orientations_closed p (by exact hp) s hs re hre ro hro

theorem C7_witness :
    (1 ≤ (orientationsOf 0).length ∧ (orientationsOf 0).length ≤ 8) ∧
    ∀ s ∈ orientationsOf 0, ∀ re, re < 2 → ∀ ro, ro < 4 →
      normalizeShape (s.map (transformPoint (re == 1) ro)) ∈ orientationsOf 0 :=
  C7_theorem 0 (by decide)

/-- C8: each worker's region of the combined receive buffer starts at the sum
of the lower ranks' counts times 55, the emitted boards are exactly the
solutions in (ascending rank, discovery-order) order, and the reported total
is the sum of the per-worker counts. -/
theorem C8_theorem (N : Nat) (h : 1 ≤ N) :
    (∀ r, r < N → (displs N).getD r 0 =
      (((allCounts N).take r).map (fun c => c * NUM_CELLS)).sum) ∧
    outputBoards N = allSolutionsOut N ∧
    totalSolutions N = (allCounts N).sum := by
  refine ⟨?_, outputBoards_eq N, ?_⟩
  · intro r hr
    rw [displs, scanDispls_getD _ 0 r (by rw [allCounts_length]; exact hr),
      Nat.zero_add]
  · rw [totalSolutions, foldl_add_eq_sum, Nat.zero_add]

theorem C8_witness :
    (∀ r, r < 1 → (displs 1).getD r 0 =
      (((allCounts 1).take r).map (fun c => c * NUM_CELLS)).sum) ∧
    outputBoards 1 = allSolutionsOut 1 ∧
    totalSolutions 1 = (allCounts 1).sum :=
  C8_theorem 1 (by norm_num)

/-- C9 (amended): the parser is total and checks nothing: on the table's
actual format — two-digit tokens separated by exactly one blank — it returns
the ordered coordinate pairs, but it does not fail on malformed tokens. -/
theorem C9_theorem : ∀ ts : List (Char × Char),
    parseShape (String.mk (tokenString ts)) =
      ts.map (fun t => ((t.1.toNat : Int) - 48, (t.2.toNat : Int) - 48)) := by
  intro ts
  rw [parseShape]
  exact parseShapeAux_tokens ts

/-- C9 counterexample: the parser silently accepts tokens whose length is not
two — a lone three-character token parses as one pair, and a double blank
makes it read a blank as a digit — instead of failing. -/
theorem C9_counterexample :
    parseShape "000" = [(0, 0)] ∧ parseShape "00  11" = [(0, 0), (-16, 1)] :=
  ⟨parseShape_eval_lenthree, parseShape_eval_doublespace⟩

/-- C10: at every state reachable from the program's initialization, and so
throughout the recursion, a cell's bit is set in the board mask exactly when
its buffer entry holds a letter (is not the `'.'` sentinel). -/
theorem C10_theorem (m : Nat) (u : List Bool) (b : List Char)
    (h : ReachableCall m u b) : Consistent m b :=
  (reachable_committed h).consistent

theorem C10_witness : Consistent (pieceMask 0 0) (initChars 0) :=
  C10_theorem (pieceMask 0 0) initUsed (initChars 0)
    (ReachableCall.init 0 (by rw [numPl0_eq]; norm_num))
